import Mathlib

/-!
ddlbuilder: tier tables, column rendering and migration options.

A shallow embedding of `table.go` and `migrate.go` of package `ddlbuilder`.

* Go slices are lists; a method that writes through its receiver returns the
  new value of the receiver next to its result (explicit state passing).
* `int` and `uint` values are embedded in `Int` and `Nat`; the only conversion
  between them in the source, `int(col.Maximum)`, wraps modulo `2^64`.
* Constants and comparisons imported from other packages (`sqlbuilder`,
  `strings`) are collected in `Imports`, and every definition that uses one
  takes it as a parameter.
* `sort.Sort` calls back into the table through `Len`, `Less` and `Swap`; its
  routines are embedded as the Go library has them since version 1.19
  (pattern-defeating quicksort: insertion sort up to twelve entries, heap sort
  as the fallback), loops that have no bound in the source running on fuel.
-/

namespace Ddlbuilder

/-! ## Tier tables (`TypeReflect`, `TypeReflects`) -/

/-- One entry of a tier table: `TypeReflect[T]` for `T` either `int` or `uint`;
the `UpperLimit` of both instantiations lives in `Int`. -/
structure TypeReflect where
  UpperLimit : Int
  DBType : String
  IsDefault : Bool
  Size : Int
  NoDefaultValue : Bool
deriving DecidableEq, Repr

/-- A tier table is a slice of entries: `type TypeReflects[T] []TypeReflect[T]`. -/
abbrev TypeReflects := List TypeReflect

/-- The zero value of `TypeReflect`; it only fills reads outside the slice,
which the sort never performs. -/
def TypeReflect.zero : TypeReflect := ⟨0, "", false, 0, false⟩

/-- Indexing `a[i]`. -/
def TypeReflects.at (a : TypeReflects) (i : Nat) : TypeReflect :=
  a.getD i TypeReflect.zero

/-- The method `Len`. -/
def TypeReflects.Len (a : TypeReflects) : Int := a.length

/-- The method `Less`: `a[i].UpperLimit < a[j].UpperLimit`. -/
def TypeReflects.Less (a : TypeReflects) (i j : Nat) : Bool :=
  decide ((a.at i).UpperLimit < (a.at j).UpperLimit)

/-- The method `Swap`, as written in the source:
`a[i], a[j].UpperLimit = a[j], a[i].UpperLimit`.
Both right-hand sides are read first; then `a[i]` receives the whole entry
`a[j]`, and only the field `UpperLimit` of `a[j]` receives the old
`a[i].UpperLimit`. -/
def TypeReflects.Swap (a : TypeReflects) (i j : Nat) : TypeReflects :=
  let rhs1 := a.at j
  let rhs2 := (a.at i).UpperLimit
  let a1 : TypeReflects := a.set i rhs1
  a1.set j { TypeReflects.at a1 j with UpperLimit := rhs2 }

/-! ## The library routine `sort.Sort` (Go 1.19 and later)

The routines below follow `sort/zsortinterface.go` and `sort/sort.go` of the
library, one definition for each routine or loop, every comparison going
through `Less` and every exchange through `Swap` of the table. Releases before
1.19 sort by another routine (`quickSort`, whose `medianOfThree` swaps on a
sorted range too); what is proved of the sort here is proved of the routine of
1.19 and later. -/

/-- Inner loop of `insertionSort`:
`for j := i; j > a && data.Less(j, j-1); j-- { data.Swap(j, j-1) }`. -/
def insertionInner (t : TypeReflects) (a : Nat) : Nat → TypeReflects
  | 0 => t
  | j + 1 =>
    if j + 1 > a && t.Less (j + 1) j then insertionInner (t.Swap (j + 1) j) a j else t

/-- Outer loop of `insertionSort`, `for i := a + 1; i < b; i++`, at `i` with
`n` iterations left. -/
def insertionOuter (t : TypeReflects) (a i : Nat) : Nat → TypeReflects
  | 0 => t
  | n + 1 => insertionOuter (insertionInner t a i) a (i + 1) n

/-- The routine `insertionSort(data, a, b)`. -/
def insertionSort (t : TypeReflects) (a b : Nat) : TypeReflects :=
  insertionOuter t a (a + 1) (b - (a + 1))

/-- The routine `siftDown(data, lo, hi, first)`: its loop at `root`, which
grows at every turn; `fuel` bounds the turns. -/
def siftDown (first hi : Nat) : Nat → TypeReflects → Nat → TypeReflects
  | 0, t, _ => t
  | fuel + 1, t, root =>
    let child := 2 * root + 1
    if child ≥ hi then t
    else
      let child :=
        if child + 1 < hi && t.Less (first + child) (first + child + 1) then child + 1 else child
      if !t.Less (first + root) (first + child) then t
      else siftDown first hi fuel (t.Swap (first + root) (first + child)) child

/-- First loop of `heapSort`, `for i := (hi - 1) / 2; i >= 0; i--`, with `i + 1`
turns left. -/
def heapBuild (first hi : Nat) (t : TypeReflects) : Nat → TypeReflects
  | 0 => t
  | i + 1 => heapBuild first hi (siftDown first hi hi t i) i

/-- Second loop of `heapSort`, `for i := hi - 1; i >= 0; i--`, with `i + 1`
turns left. -/
def heapPop (first : Nat) (t : TypeReflects) : Nat → TypeReflects
  | 0 => t
  | i + 1 => heapPop first (siftDown first i i (t.Swap first (first + i)) 0) i

/-- The routine `heapSort(data, a, b)`. -/
def heapSort (t : TypeReflects) (a b : Nat) : TypeReflects :=
  let first := a
  let hi := b - a
  heapPop first (heapBuild first hi t ((hi - 1) / 2 + 1)) hi

/-- The loop `for i < b && !data.Less(i, i-1) { i++ }` of
`partialInsertionSort`; the result is the final `i`. -/
def scanSorted (t : TypeReflects) (b : Nat) : Nat → Nat → Nat
  | 0, i => i
  | fuel + 1, i => if i < b && !t.Less i (i - 1) then scanSorted t b fuel (i + 1) else i

/-- The loop `for j := i - 1; j >= 1; j--` of `partialInsertionSort`, which
shifts the smaller entry to the left. -/
def shiftLeft (t : TypeReflects) : Nat → TypeReflects
  | 0 => t
  | j + 1 => if !t.Less (j + 1) j then t else shiftLeft (t.Swap (j + 1) j) j

/-- The loop `for j := i + 1; j < b; j++` of `partialInsertionSort`, which
shifts the greater entry to the right. -/
def shiftRight (b : Nat) : Nat → TypeReflects → Nat → TypeReflects
  | 0, t, _ => t
  | fuel + 1, t, j =>
    if j < b then
      if !t.Less j (j - 1) then t else shiftRight b fuel (t.Swap j (j - 1)) (j + 1)
    else t

/-- The loop `for j := 0; j < maxSteps; j++` of `partialInsertionSort`, with
`steps` turns left. -/
def partialInsertionSteps (a b : Nat) : Nat → TypeReflects → Nat → TypeReflects × Bool
  | 0, t, _ => (t, false)
  | steps + 1, t, i =>
    let i := scanSorted t b (b - i) i
    if i = b then (t, true)
    else if b - a < 50 then (t, false)
    else
      let t := t.Swap i (i - 1)
      let t := if i - a ≥ 2 then shiftLeft t (i - 1) else t
      let t := if b - i ≥ 2 then shiftRight b (b - (i + 1)) t (i + 1) else t
      partialInsertionSteps a b steps t i

/-- The routine `partialInsertionSort(data, a, b)`, with `maxSteps = 5` and
`shortestShifting = 50`. -/
def partialInsertionSort (t : TypeReflects) (a b : Nat) : TypeReflects × Bool :=
  partialInsertionSteps a b 5 t (a + 1)

/-- The number of bits of `x`, `bits.Len(uint(x))`. -/
def bitsLen : Nat → Nat → Nat
  | 0, _ => 0
  | fuel + 1, x => if x = 0 then 0 else 1 + bitsLen fuel (x / 2)

/-- The method `xorshift.Next` on 64 bits, with the shifts 13, 7 and 17. -/
def xorshiftNext (r : Nat) : Nat :=
  let r := (r ^^^ (r <<< 13)) % 2 ^ 64
  let r := (r ^^^ (r >>> 7)) % 2 ^ 64
  (r ^^^ (r <<< 17)) % 2 ^ 64

/-- The loop `for i := 0; i < 3; i++` of `breakPatterns`, with `n` turns
left; `next` is the step `random.Next()` of the generator. -/
def breakLoop (next : Nat → Nat) (a length modulus idx : Nat) :
    Nat → TypeReflects → Nat → Nat → TypeReflects
  | 0, t, _, _ => t
  | n + 1, t, random, i =>
    let random := next random
    let other := random &&& (modulus - 1)
    let other := if other ≥ length then other - length else other
    breakLoop next a length modulus idx n (t.Swap (idx - 1 + i) (a + other)) random (i + 1)

/-- The routine `breakPatterns(data, a, b)`, with `random := xorshift(length)`
and `modulus := nextPowerOfTwo(length)`, which is `1 << bits.Len(uint(length))`;
`next` is the step of the generator. -/
def breakPatterns (next : Nat → Nat) (t : TypeReflects) (a b : Nat) : TypeReflects :=
  let length := b - a
  if length ≥ 8 then
    let random := length
    let modulus := 2 ^ bitsLen length length
    let idx := a + (length / 4) * 2 - 1
    breakLoop next a length modulus idx 3 t random 0
  else t

/-- The type `sortedHint`. -/
inductive sortedHint where
  | unknownHint : sortedHint
  | increasingHint : sortedHint
  | decreasingHint : sortedHint
deriving DecidableEq, Repr

/-- The routine `order2(data, a, b, swaps)`: the two indexes in order and the
new count. -/
def order2 (t : TypeReflects) (a b swaps : Nat) : Nat × Nat × Nat :=
  if t.Less b a then (b, a, swaps + 1) else (a, b, swaps)

/-- The routine `median(data, a, b, c, swaps)`: the index of the median and the
new count. -/
def median (t : TypeReflects) (a b c swaps : Nat) : Nat × Nat :=
  let r1 := order2 t a b swaps
  let r2 := order2 t r1.2.1 c r1.2.2
  let r3 := order2 t r1.1 r2.1 r2.2.2
  (r3.2.1, r3.2.2)

/-- The routine `medianAdjacent(data, a, swaps)`. -/
def medianAdjacent (t : TypeReflects) (a swaps : Nat) : Nat × Nat :=
  median t (a - 1) a (a + 1) swaps

/-- The routine `choosePivot(data, a, b)`, with `shortestNinther = 50` and
`maxSwaps = 12`. -/
def choosePivot (t : TypeReflects) (a b : Nat) : Nat × sortedHint :=
  let l := b - a
  let i := a + l / 4 * 1
  let j := a + l / 4 * 2
  let k := a + l / 4 * 3
  let r :=
    if l ≥ 8 then
      if l ≥ 50 then
        let ri := medianAdjacent t i 0
        let rj := medianAdjacent t j ri.2
        let rk := medianAdjacent t k rj.2
        median t ri.1 rj.1 rk.1 rk.2
      else median t i j k 0
    else (j, 0)
  if r.2 = 0 then (r.1, sortedHint.increasingHint)
  else if r.2 = 12 then (r.1, sortedHint.decreasingHint)
  else (r.1, sortedHint.unknownHint)

/-- The loop `for i < j { data.Swap(i, j); i++; j-- }` of `reverseRange`. -/
def reverseLoop : Nat → TypeReflects → Nat → Nat → TypeReflects
  | 0, t, _, _ => t
  | fuel + 1, t, i, j => if i < j then reverseLoop fuel (t.Swap i j) (i + 1) (j - 1) else t

/-- The routine `reverseRange(data, a, b)`. -/
def reverseRange (t : TypeReflects) (a b : Nat) : TypeReflects :=
  reverseLoop (b - a) t a (b - 1)

/-- The loop `for i <= j && data.Less(i, a) { i++ }` of `partition`; the result
is the final `i`. -/
def scanUp (t : TypeReflects) (a : Nat) : Nat → Nat → Nat → Nat
  | 0, i, _ => i
  | fuel + 1, i, j => if i ≤ j && t.Less i a then scanUp t a fuel (i + 1) j else i

/-- The loop `for i <= j && !data.Less(j, a) { j-- }` of `partition`; the
result is the final `j`. -/
def scanDown (t : TypeReflects) (a : Nat) : Nat → Nat → Nat → Nat
  | 0, _, j => j
  | fuel + 1, i, j => if i ≤ j && !t.Less j a then scanDown t a fuel i (j - 1) else j

/-- The loop `for { ... }` of `partition`: the table and the final `j`. -/
def partitionLoop (a : Nat) : Nat → TypeReflects → Nat → Nat → TypeReflects × Nat
  | 0, t, _, j => (t, j)
  | fuel + 1, t, i, j =>
    let i := scanUp t a (j + 1 - i) i j
    let j := scanDown t a (j + 1 - i) i j
    if i > j then (t, j) else partitionLoop a fuel (t.Swap i j) (i + 1) (j - 1)

/-- The routine `partition(data, a, b, pivot)`: the table, the new index of the
pivot and whether the range was already partitioned. -/
def partition (t : TypeReflects) (a b pivot : Nat) : TypeReflects × Nat × Bool :=
  let t := t.Swap a pivot
  let i := scanUp t a (b - 1 + 1 - (a + 1)) (a + 1) (b - 1)
  let j := scanDown t a (b - 1 + 1 - i) i (b - 1)
  if i > j then (t.Swap j a, j, true)
  else
    let r := partitionLoop a (b - a) (t.Swap i j) (i + 1) (j - 1)
    (r.1.Swap r.2 a, r.2, false)

/-- The loop `for i <= j && !data.Less(a, i) { i++ }` of `partitionEqual`. -/
def scanUpEqual (t : TypeReflects) (a : Nat) : Nat → Nat → Nat → Nat
  | 0, i, _ => i
  | fuel + 1, i, j => if i ≤ j && !t.Less a i then scanUpEqual t a fuel (i + 1) j else i

/-- The loop `for i <= j && data.Less(a, j) { j-- }` of `partitionEqual`. -/
def scanDownEqual (t : TypeReflects) (a : Nat) : Nat → Nat → Nat → Nat
  | 0, _, j => j
  | fuel + 1, i, j => if i ≤ j && t.Less a j then scanDownEqual t a fuel i (j - 1) else j

/-- The loop `for { ... }` of `partitionEqual`: the table and the final `i`. -/
def partitionEqualLoop (a : Nat) : Nat → TypeReflects → Nat → Nat → TypeReflects × Nat
  | 0, t, i, _ => (t, i)
  | fuel + 1, t, i, j =>
    let i := scanUpEqual t a (j + 1 - i) i j
    let j := scanDownEqual t a (j + 1 - i) i j
    if i > j then (t, i) else partitionEqualLoop a fuel (t.Swap i j) (i + 1) (j - 1)

/-- The routine `partitionEqual(data, a, b, pivot)`: the table and the new
start of the range. -/
def partitionEqual (t : TypeReflects) (a b pivot : Nat) : TypeReflects × Nat :=
  partitionEqualLoop a (b - a + 1) (t.Swap a pivot) (a + 1) (b - 1)

/-- The routine `pdqsort(data, a, b, limit)`, with `maxInsertion = 12`: one
turn of its loop, entered with the locals `wasBalanced` and `wasPartitioned`.
A call and the next turn of the loop both work on a shorter range; `fuel`
bounds their nesting. The step `next` of the generator is handed on to
`breakPatterns`. -/
def pdqsort (next : Nat → Nat) :
    Nat → TypeReflects → Nat → Nat → Nat → Bool → Bool → TypeReflects
  | 0, t, _, _, _, _, _ => t
  | fuel + 1, t, a, b, limit, wasBalanced, wasPartitioned =>
    let length := b - a
    if length ≤ 12 then insertionSort t a b
    else if limit = 0 then heapSort t a b
    else
      let t := if !wasBalanced then breakPatterns next t a b else t
      let limit := if !wasBalanced then limit - 1 else limit
      let ph := choosePivot t a b
      let t := if ph.2 = sortedHint.decreasingHint then reverseRange t a b else t
      let pivot := if ph.2 = sortedHint.decreasingHint then (b - 1) - (ph.1 - a) else ph.1
      let hint := if ph.2 = sortedHint.decreasingHint then sortedHint.increasingHint else ph.2
      let pis :=
        if wasBalanced && wasPartitioned && hint = sortedHint.increasingHint then
          partialInsertionSort t a b
        else (t, false)
      if pis.2 then pis.1
      else
        let t := pis.1
        if a > 0 && !t.Less (a - 1) pivot then
          let r := partitionEqual t a b pivot
          pdqsort next fuel r.1 r.2 b limit wasBalanced wasPartitioned
        else
          let r := partition t a b pivot
          let mid := r.2.1
          let leftLen := mid - a
          let rightLen := b - mid
          let balanceThreshold := length / 8
          if leftLen < rightLen then
            pdqsort next fuel (pdqsort next fuel r.1 a mid limit true true) (mid + 1) b limit
              (leftLen ≥ balanceThreshold) r.2.2
          else
            pdqsort next fuel (pdqsort next fuel r.1 (mid + 1) b limit true true) a mid limit
              (rightLen ≥ balanceThreshold) r.2.2

/-- The call `sort.Sort(trs)`: nothing for at most one entry, else
`pdqsort(data, 0, n, bits.Len(uint(n)))`. -/
def sortSort (t : TypeReflects) : TypeReflects :=
  let n := t.length
  if n ≤ 1 then t else pdqsort xorshiftNext (n + 1) t 0 n (bitsLen n n) true true

/-! ## The lookups -/

/-- The method `GetDefault`: sort, return the first entry flagged `IsDefault`,
else the last entry, else nothing. The second component is the table after the
call. -/
def TypeReflects.GetDefault (trs : TypeReflects) : Option TypeReflect × TypeReflects :=
  let s := sortSort trs
  match s.find? (fun t => t.IsDefault) with
  | some t => (some t, s)
  | none =>
    let bigIndex : Int := (s.length : Int) - 1
    if bigIndex > -1 then (s.get? bigIndex.toNat, s) else (none, s)

/-- The method `GetByUpperLimitWithDefault`: for a positive target sort and
return the first entry whose `UpperLimit` reaches it; otherwise, and when no
entry does, `GetDefault`. The second component is the table after the call. -/
def TypeReflects.GetByUpperLimitWithDefault (trs : TypeReflects) (upperLimit : Int) :
    Option TypeReflect × TypeReflects :=
  if upperLimit > 0 then
    let s := sortSort trs
    match s.find? (fun t => decide (t.UpperLimit ≥ upperLimit)) with
    | some t => (some t, s)
    | none => TypeReflects.GetDefault s
  else TypeReflects.GetDefault trs

/-- The method `GetByUpperLimit`: sort and return the first entry whose
`UpperLimit` reaches the target together with `true`, or `(nil, false)`. The
second component is the table after the call. -/
def TypeReflects.GetByUpperLimit (trs : TypeReflects) (upperLimit : Int) :
    (Option TypeReflect × Bool) × TypeReflects :=
  let s := sortSort trs
  match s.find? (fun t => decide (t.UpperLimit ≥ upperLimit)) with
  | some t => ((some t, true), s)
  | none => ((none, false), s)

/-- The table `TypeReflectsString`. -/
def TypeReflectsString : TypeReflects :=
  [ { UpperLimit := 64, DBType := "char", IsDefault := false, Size := 0, NoDefaultValue := false },
    { UpperLimit := 255, DBType := "varchar", IsDefault := true, Size := 0, NoDefaultValue := false },
    { UpperLimit := 65535, DBType := "TEXT", IsDefault := false, Size := -1, NoDefaultValue := true },
    { UpperLimit := 16777215, DBType := "MEDIUMTEXT", IsDefault := false, Size := -1,
      NoDefaultValue := true },
    { UpperLimit := 4294967295, DBType := "LONGTEXT", IsDefault := false, Size := -1,
      NoDefaultValue := true } ]

/-- The table `TypeReflectsUnsinedInt` (`uint` is 64 bits wide). -/
def TypeReflectsUnsinedInt : TypeReflects :=
  [ { UpperLimit := 2 ^ 8 - 1, DBType := "TINYINT", IsDefault := false, Size := 1,
      NoDefaultValue := false },
    { UpperLimit := 2 ^ 16 - 1, DBType := "SMALLINT", IsDefault := false, Size := 11,
      NoDefaultValue := false },
    { UpperLimit := 2 ^ 24 - 1, DBType := "mediumint", IsDefault := false, Size := 11,
      NoDefaultValue := false },
    { UpperLimit := 2 ^ 32 - 1, DBType := "int", IsDefault := true, Size := 11,
      NoDefaultValue := false },
    { UpperLimit := 2 ^ 64 - 1, DBType := "bigint", IsDefault := false, Size := 11,
      NoDefaultValue := false } ]

/-- The table `TypeReflectsInt`. -/
def TypeReflectsInt : TypeReflects :=
  [ { UpperLimit := 2 ^ 7 - 1, DBType := "TINYINT", IsDefault := false, Size := 1,
      NoDefaultValue := false },
    { UpperLimit := 2 ^ 15 - 1, DBType := "SMALLINT", IsDefault := false, Size := 11,
      NoDefaultValue := false },
    { UpperLimit := 2 ^ 23 - 1, DBType := "mediumint", IsDefault := false, Size := 11,
      NoDefaultValue := false },
    { UpperLimit := 2 ^ 31 - 1, DBType := "int", IsDefault := true, Size := 11,
      NoDefaultValue := false },
    { UpperLimit := 2 ^ 63 - 1, DBType := "bigint", IsDefault := false, Size := 11,
      NoDefaultValue := false } ]

/-! ## Imported names -/

/-- What this package uses of the packages `sqlbuilder` and `strings`, whose
code is not part of it: the constants `sqlbuilder.Driver_mysql`,
`sqlbuilder.Tag_createdAt` and `sqlbuilder.Tag_updatedAt`, and the methods
`Driver.IsSame`, `Scene.Is` and the function `strings.EqualFold`, of which
nothing is assumed. Drivers, scenes, tags and tokens are strings. -/
structure Imports where
  Driver_mysql : String
  Tag_createdAt : String
  Tag_updatedAt : String
  DriverIsSame : String → String → Bool
  SceneIs : String → String → Bool
  EqualFold : String → String → Bool

/-- A value of the interface type `any`: `nil`, a string, an integer, a
boolean, or a value of another dynamic type, kept as the text that
`cast.ToString` gives for it. -/
inductive Any where
  | nil : Any
  | str (s : String) : Any
  | int (n : Int) : Any
  | bool (b : Bool) : Any
  | other (text : String) : Any
deriving DecidableEq, Repr

/-- The function `cast.ToString` of package `spf13/cast`: the empty string for
`nil`, the string itself, the decimal numeral of an integer, `true` or `false`
for a boolean. -/
def castToString : Any → String
  | Any.nil => ""
  | Any.str s => s
  | Any.int n => toString n
  | Any.bool b => if b then "true" else "false"
  | Any.other text => text

/-- The method `Tags.HastTag` of package `sqlbuilder`, read as its name says:
whether the tag is one of the tags of the column. -/
def HastTag (tags : List String) (tag : String) : Bool :=
  tags.contains tag

/-- What `Column2DDLMysql` reads of a non-nil `sqlbuilder.Enums` value: the
results of its methods `Type()`, `MaxLengthMaximum()` and `Default().Key`. -/
structure Enums where
  Type_ : String
  MaxLengthMaximum : Int × Nat
  DefaultKey : Any
deriving DecidableEq, Repr

/-! ## Columns -/

/-- The struct `Column`. The field `Type` is written `Type_`; `Enums` is `none`
for a nil slice; `Maximum` is a `uint`. -/
structure Column where
  Name : String
  Comment : String
  Size : Int
  Unsigned : Bool
  Type_ : String
  Default : Any
  Enums : Option Enums
  MaxLength : Int
  MinLength : Int
  Maximum : Nat
  Minimum : Int
  Primary : Bool
  AutoIncrement : Bool
  OnUpdate : String
  Tags : List String
deriving DecidableEq, Repr

/-- The three package-level tier tables, which the lookups sort in place. -/
structure Tables where
  TypeReflectsString : TypeReflects
  TypeReflectsUnsinedInt : TypeReflects
  TypeReflectsInt : TypeReflects
deriving DecidableEq, Repr

/-- The tier tables as the package declares them. -/
def Tables.declared : Tables :=
  ⟨Ddlbuilder.TypeReflectsString, Ddlbuilder.TypeReflectsUnsinedInt, Ddlbuilder.TypeReflectsInt⟩

/-- The conversion `int(x)` of a `uint` value: the 64 bits read as a signed
integer. -/
def uintToInt (x : Nat) : Int :=
  if x % 2 ^ 64 < 2 ^ 63 then ((x % 2 ^ 64 : Nat) : Int) else ((x % 2 ^ 64 : Nat) : Int) - 2 ^ 64

/-- The six local variables that `Column2DDLMysql` formats into the clause, in
the order of the format string. -/
structure Segments where
  Name : String
  typ : String
  notNil : String
  autoIncrement : String
  defaulStr : String
  comment : String
deriving DecidableEq, Repr

/-- State of `Column2DDLMysql` after its `switch col.Type`: the type text, the
default value, the column and the tier tables. -/
structure Resolved where
  typ : String
  defaul : Any
  col : Column
  tables : Tables
deriving DecidableEq, Repr

/-- The first statement of `Column2DDLMysql`: when `col.Enums != nil`, the type,
both bounds and the default are overwritten from the enums. -/
def applyEnums (col : Column) : Column :=
  match col.Enums with
  | some es =>
    { col with
      Type_ := es.Type_
      MaxLength := es.MaxLengthMaximum.1
      Maximum := es.MaxLengthMaximum.2
      Default := es.DefaultKey }
  | none => col

/-- The branch `case "string"` of the switch. -/
def resolveString (g : Tables) (col : Column) (defaul : Any) : Resolved :=
  let col := if col.MaxLength < 1 then { col with MaxLength := 255 } else col
  let defaul := Any.str ("\"" ++ castToString defaul ++ "\"")
  let r := g.TypeReflectsString.GetByUpperLimitWithDefault col.MaxLength
  let g := { g with TypeReflectsString := r.2 }
  match r.1 with
  | some tr =>
    let typ := tr.DBType
    let typ := if tr.Size > -1 then typ ++ "(" ++ toString col.MaxLength ++ ")" else typ
    let defaul := if tr.NoDefaultValue then Any.nil else defaul
    ⟨typ, defaul, col, g⟩
  | none => ⟨col.Type_, defaul, col, g⟩

/-- The branch `case "int"` of the switch. -/
def resolveInt (g : Tables) (col : Column) (defaul : Any) : Resolved :=
  let col := if col.Size < 1 then { col with Size := 11 } else col
  let defaul := if defaul = Any.nil then Any.int 0 else defaul
  if col.Unsigned then
    let r := g.TypeReflectsUnsinedInt.GetByUpperLimitWithDefault ((col.Maximum % 2 ^ 64 : Nat) : Int)
    let g := { g with TypeReflectsUnsinedInt := r.2 }
    match r.1 with
    | some tr => ⟨tr.DBType ++ "(" ++ toString col.Size ++ ") unsigned", defaul, col, g⟩
    | none => ⟨col.Type_, defaul, col, g⟩
  else
    let r := g.TypeReflectsInt.GetByUpperLimitWithDefault (uintToInt col.Maximum)
    let g := { g with TypeReflectsInt := r.2 }
    match r.1 with
    | some tr => ⟨tr.DBType ++ "(" ++ toString col.Size ++ ")", defaul, col, g⟩
    | none => ⟨col.Type_, defaul, col, g⟩

/-- The statement `switch col.Type` of `Column2DDLMysql`, entered with
`typ := col.Type` and `defaul := col.Default`. -/
def resolveType (g : Tables) (col : Column) : Resolved :=
  if col.Type_ = "string" then resolveString g col col.Default
  else if col.Type_ = "int" then resolveInt g col col.Default
  else ⟨col.Type_, col.Default, col, g⟩

/-- The body of `Column2DDLMysql` up to its final `fmt.Sprintf`: the six
segments, the column as the function leaves it (it is passed by pointer) and
the tier tables as the lookups leave them. -/
def Column2DDLMysqlSegments (I : Imports) (g : Tables) (col : Column) :
    Segments × Column × Tables :=
  let col := applyEnums col
  let notNil := ""
  let comment := if col.Comment ≠ "" then "COMMENT \"" ++ col.Comment ++ "\"" else ""
  let r := resolveType g col
  let col := r.col
  let defaul := r.defaul
  let typ := r.typ
  let defaulStr := if defaul ≠ Any.nil then "default " ++ castToString defaul else ""
  let autoIncrement := if col.AutoIncrement then "AUTO_INCREMENT" else ""
  let defaulStr := if col.AutoIncrement then "" else defaulStr
  let typ :=
    if HastTag col.Tags I.Tag_createdAt then "datetime"
    else if HastTag col.Tags I.Tag_updatedAt then "datetime"
    else typ
  let defaulStr :=
    if HastTag col.Tags I.Tag_createdAt then "default CURRENT_TIMESTAMP"
    else if HastTag col.Tags I.Tag_updatedAt then
      "default  CURRENT_TIMESTAMP ON UPDATE CURRENT_TIMESTAMP"
    else defaulStr
  let notNil := if defaul ≠ Any.nil then " not null " else notNil
  (⟨col.Name, typ, notNil, autoIncrement, defaulStr, comment⟩, col, r.tables)

/-- The format `"%s %s %s %s %s %s"` applied to the six segments. -/
def Segments.format (s : Segments) : String :=
  s.Name ++ " " ++ s.typ ++ " " ++ s.notNil ++ " " ++ s.autoIncrement ++ " " ++ s.defaulStr
    ++ " " ++ s.comment

/-- The function `Column2DDLMysql`: the clause, the column and the tier tables
after the call. -/
def Column2DDLMysql (I : Imports) (g : Tables) (col : Column) : String × Column × Tables :=
  let r := Column2DDLMysqlSegments I g col
  (r.1.format, r.2.1, r.2.2)

/-- The method `Column.PrimaryDDL`; `Except.error` is the panic, with its
message. -/
def Column.PrimaryDDL (I : Imports) (col : Column) (driver : String) : Except String String :=
  if driver = I.Driver_mysql then
    if col.Primary then Except.ok ("PRIMARY KEY (" ++ col.Name ++ ")") else Except.ok ""
  else Except.error ("unsport driver:" ++ driver)

/-- The method `Column.DDL`; `Except.error` is the panic, with its message. -/
def Column.DDL (I : Imports) (g : Tables) (col : Column) (driver : String) :
    Except String (String × Column × Tables) :=
  if driver = I.Driver_mysql then Except.ok (Column2DDLMysql I g col)
  else Except.error ("unsport driver:" ++ driver)

/-- A concrete reading of the imported names: the driver `mysql`, the tags
`createdAt` and `updatedAt`, comparison of the lower-cased strings for
`IsSame` and `EqualFold`, equality for `Scene.Is`. -/
def Imports.sample : Imports where
  Driver_mysql := "mysql"
  Tag_createdAt := "createdAt"
  Tag_updatedAt := "updatedAt"
  DriverIsSame := fun a b => a.data.map Char.toLower == b.data.map Char.toLower
  SceneIs := fun a b => a == b
  EqualFold := fun a b => a.data.map Char.toLower == b.data.map Char.toLower

/-- The function `unicode.IsSpace`, which `strings.TrimSpace` trims by. -/
def isSpace (c : Char) : Bool :=
  let n := c.toNat
  (0x09 ≤ n && n ≤ 0x0D) || n == 0x20 || n == 0x85 || n == 0xA0 || n == 0x1680
    || (0x2000 ≤ n && n ≤ 0x200A) || n == 0x2028 || n == 0x2029 || n == 0x202F
    || n == 0x205F || n == 0x3000

/-- The test `strings.TrimSpace(l) == ""`: every character of `l` is a space. -/
def isBlank (l : String) : Bool :=
  l.data.all isSpace

/-- The loop `for _, l := range arr` of `Columns.DDL` and `Indexs.DDL`, which
keeps the lines that are not blank. -/
def nonBlankLines (arr : List String) : List String :=
  arr.filter (fun l => !isBlank l)

/-- The first loop of `Columns.DDL`: the clause of each column in turn, the
tier tables passed from one call to the next. Each iteration renders a copy of
the column. -/
def columnClauses (I : Imports) (driver : String) :
    Tables → List Column → Except String (List String × Tables)
  | g, [] => Except.ok ([], g)
  | g, col :: rest =>
    match col.DDL I g driver with
    | Except.error e => Except.error e
    | Except.ok r =>
      match columnClauses I driver r.2.2 rest with
      | Except.error e => Except.error e
      | Except.ok rs => Except.ok (r.1 :: rs.1, rs.2)

/-- The second loop of `Columns.DDL`: the primary-key clause of each column. -/
def primaryClauses (I : Imports) (driver : String) : List Column → Except String (List String)
  | [] => Except.ok []
  | col :: rest =>
    match col.PrimaryDDL I driver with
    | Except.error e => Except.error e
    | Except.ok l =>
      match primaryClauses I driver rest with
      | Except.error e => Except.error e
      | Except.ok ls => Except.ok (l :: ls)

/-- The method `Columns.DDL`. -/
def Columns.DDL (I : Imports) (g : Tables) (cols : List Column) (driver : String) :
    Except String (List String × Tables) :=
  match columnClauses I driver g cols with
  | Except.error e => Except.error e
  | Except.ok r =>
    match primaryClauses I driver cols with
    | Except.error e => Except.error e
    | Except.ok ps => Except.ok (nonBlankLines (r.1 ++ ps), r.2)

/-- The struct `Index`. -/
structure Index where
  Columns : List Column
  Unique : Bool
deriving DecidableEq, Repr

/-- The method `Index.DDL`; its driver argument is not used. -/
def Index.DDL (index : Index) : String :=
  if index.Columns.length = 0 then ""
  else
    let feildNames := index.Columns.map (fun col => col.Name)
    let key := if index.Unique then "unique" else "index"
    let namePrefix := if index.Unique then "uk" else "idx"
    let name := namePrefix ++ "_" ++ String.intercalate "_" feildNames
    key ++ " " ++ name ++ "(" ++ String.intercalate "," feildNames ++ ")"

/-- The method `Indexs.DDL`. -/
def Indexs.DDL (indexs : List Index) : List String :=
  nonBlankLines (indexs.map Index.DDL)

/-- The struct `Table`. -/
structure Table where
  TableName : String
  Driver : String
  Columns : List Column
  Comment : String
  Indexs : List Index
  withDrop : Bool
deriving DecidableEq, Repr

/-- The method `Table.WithDrop`. -/
def Table.WithDrop (t : Table) : Table :=
  { t with withDrop := true }

/-- The method `Table.DDL`; `Except.error` is the panic of a column rendering. -/
def Table.DDL (I : Imports) (g : Tables) (t : Table) : Except String (String × Tables) :=
  let w := ""
  let w := if t.withDrop then w ++ ("DROP TABLE IF EXISTS `" ++ t.TableName ++ "`;\n") else w
  let w := w ++ ("CREATE TABLE IF NOT EXISTS `" ++ t.TableName ++ "`(\n")
  match Columns.DDL I g t.Columns t.Driver with
  | Except.error e => Except.error e
  | Except.ok r =>
    let liens := r.1 ++ Indexs.DDL t.Indexs
    let str := String.intercalate ",\n" liens
    let w := w ++ str
    let w := w ++ "\n"
    let w := w ++ (")ENGINE=InnoDB AUTO_INCREMENT=1 DEFAULT CHARSET=utf8 COMMENT=\"" ++ t.Comment
      ++ "\";")
    Except.ok (w, r.2)

/-! ## Migrations (`migrate.go`) -/

/-- The method `Token.IsSame`: `strings.EqualFold` of the two tokens. -/
def Token.IsSame (I : Imports) (t target : String) : Bool :=
  I.EqualFold t target

/-- A value of the interface `MigrateOptionI`, given by what its three methods
`String()`, `Driver()` and `Token()` return. -/
structure MigrateOptionI where
  Str : String
  Driver : String
  Token : String
deriving DecidableEq, Repr

/-- The struct `Migrate`. -/
structure Migrate where
  Dialect : String
  Scene : String
  Options : List MigrateOptionI
  DDL : String
deriving DecidableEq, Repr

/-- A slice of migrations: `type Migrates []Migrate`. -/
abbrev Migrates := List Migrate

/-- The method `Migrates.GetByScene`: the loop appends to the result each entry
for which `driver.IsSame(m.Dialect) && scene.Is(m.Scene)` holds. -/
def Migrates.GetByScene (I : Imports) (ms : Migrates) (driver scene : String) : Migrates :=
  ms.foldl
    (fun subMs m =>
      if I.DriverIsSame driver m.Dialect && I.SceneIs scene m.Scene then subMs ++ [m] else subMs)
    []

/-- The method `Migrates.DDLs`. -/
def Migrates.DDLs (ms : Migrates) : List String :=
  ms.foldl (fun ddls m => ddls ++ [m.DDL]) []

/-- The method `Migrates.String`: each DDL text is written followed by a
newline. -/
def Migrates.String (ms : Migrates) : String :=
  ms.foldl (fun w m => (w ++ m.DDL) ++ "\n") ""

/-- The condition of the `if` in the loop of `GetMigrateOpion`:
`op.Driver().IsSame(target.Driver()) && op.Token().IsSame(target.Token())`. -/
def optionMatches (I : Imports) (target op : MigrateOptionI) : Bool :=
  I.DriverIsSame op.Driver target.Driver && Token.IsSame I op.Token target.Token

/-- The function `GetMigrateOpion`: the loop returns the first candidate that
satisfies the condition; after the loop the target is returned. -/
def GetMigrateOpion (I : Imports) (target : MigrateOptionI) : List MigrateOptionI → MigrateOptionI
  | [] => target
  | op :: ops => if optionMatches I target op then op else GetMigrateOpion I target ops


/-- The constant `Mysql_Token_after`. -/
def Mysql_Token_after : String := "AFTER"

/-- The function `MigrateOptionMysqlAfter`: the option of type `_MysqlAfter`
for a field name, with the results of its three methods. -/
def MigrateOptionMysqlAfter (I : Imports) (fieldName : String) : MigrateOptionI where
  Str := if fieldName = "" then "" else "AFTER `" ++ fieldName ++ "`"
  Driver := I.Driver_mysql
  Token := Mysql_Token_after

/-! ## Order of a table -/

/-- The order of two entries by their limits. -/
def limitLe (a b : TypeReflect) : Prop := a.UpperLimit ≤ b.UpperLimit

/-- A table whose limits are in ascending order. -/
def Ascending (t : TypeReflects) : Prop := List.Pairwise limitLe t

/-- The limit of the entry at an index. -/
def ul (t : TypeReflects) (k : Nat) : Int := (t.at k).UpperLimit

/-- The limits on the range `[a, b)` are in ascending order. -/
def SortedOn (t : TypeReflects) (a b : Nat) : Prop :=
  ∀ i j, a ≤ i → i ≤ j → j < b → ul t i ≤ ul t j

/-- The table `t'` comes from `t` by moving limits inside the range `[a, b)`:
same length, same limits outside, and inside every limit is one that was
inside. -/
def Within (a b : Nat) (t t' : TypeReflects) : Prop :=
  t'.length = t.length
    ∧ (∀ k, k < a ∨ b ≤ k → ul t' k = ul t k)
    ∧ (∀ k, a ≤ k → k < b → ∃ k', a ≤ k' ∧ k' < b ∧ ul t' k = ul t k')

/-- In the heap of `hi` entries that starts at `first`, the node `r` is at
least each of its children. -/
def HeapNode (first hi : Nat) (t : TypeReflects) (r : Nat) : Prop :=
  ∀ c, c = 2 * r + 1 ∨ c = 2 * r + 2 → c < hi → ul t (first + c) ≤ ul t (first + r)

/-- The entry before the range is at most every entry of the range. -/
def BoundedBelow (t : TypeReflects) (a b : Nat) : Prop :=
  0 < a → ∀ k, a ≤ k → k < b → ul t (a - 1) ≤ ul t k

/-! ## Concrete inputs -/

/-- The string column `name` with `MaxLength` 50 and every other field unset. -/
def nameColumn : Column :=
  { Name := "name", Comment := "", Size := 0, Unsigned := false, Type_ := "string",
    Default := Any.nil, Enums := none, MaxLength := 50, MinLength := 0, Maximum := 0,
    Minimum := 0, Primary := false, AutoIncrement := false, OnUpdate := "", Tags := [] }

/-- The unsigned, auto-incremented primary-key column `id` with `Maximum`
`4294967295`. -/
def idColumn : Column :=
  { Name := "id", Comment := "", Size := 0, Unsigned := true, Type_ := "int",
    Default := Any.nil, Enums := none, MaxLength := 0, MinLength := 0, Maximum := 4294967295,
    Minimum := 0, Primary := true, AutoIncrement := true, OnUpdate := "", Tags := [] }

/-- The column `id` carrying the created-at tag of `Imports.sample`. -/
def idCreatedColumn : Column :=
  { idColumn with Tags := ["createdAt"] }

/-- A string column of `MaxLength` 300 with the supplied default `x`. -/
def bodyColumn : Column :=
  { Name := "body", Comment := "", Size := 0, Unsigned := false, Type_ := "string",
    Default := Any.str "x", Enums := none, MaxLength := 300, MinLength := 0, Maximum := 0,
    Minimum := 0, Primary := false, AutoIncrement := false, OnUpdate := "", Tags := [] }

/-- The column `body` carrying the created-at tag of `Imports.sample`. -/
def bodyCreatedColumn : Column :=
  { bodyColumn with Tags := ["createdAt"] }

/-- A column of the raw type `datetime` without default that carries the
created-at tag of `Imports.sample`. -/
def createdAtColumn : Column :=
  { Name := "created_at", Comment := "", Size := 0, Unsigned := false, Type_ := "datetime",
    Default := Any.nil, Enums := none, MaxLength := 0, MinLength := 0, Maximum := 0,
    Minimum := 0, Primary := false, AutoIncrement := false, OnUpdate := "",
    Tags := ["createdAt"] }

/-- The option `AFTER` of the mysql driver with the text `x`. -/
def afterUpper : MigrateOptionI := ⟨"x", "mysql", "AFTER"⟩

/-- The option `after`, in lower case, of the mysql driver with the text `y`. -/
def afterLower : MigrateOptionI := ⟨"y", "mysql", "after"⟩

/-- An option of another token. -/
def firstOption : MigrateOptionI := ⟨"z", "mysql", "FIRST"⟩

/-- Three migrations: a mysql create, a mysql modify and a second mysql
create. -/
def sampleMigrates : Migrates :=
  [⟨"mysql", "create", [], "a"⟩, ⟨"mysql", "modify", [], "b"⟩, ⟨"MySQL", "create", [], "c"⟩]

/-- A two-entry tier table declared in descending order. -/
def descendingTable : TypeReflects :=
  [ { UpperLimit := 10, DBType := "b", IsDefault := false, Size := 0, NoDefaultValue := false },
    { UpperLimit := 5, DBType := "a", IsDefault := false, Size := 0, NoDefaultValue := false } ]

/-- A two-entry tier table declared in descending order whose first entry is
the flagged one. -/
def flaggedTable : TypeReflects :=
  [ { UpperLimit := 10, DBType := "b", IsDefault := true, Size := 0, NoDefaultValue := false },
    { UpperLimit := 5, DBType := "a", IsDefault := false, Size := 0, NoDefaultValue := false } ]

/-! ## Further concrete inputs and the texts that the claims describe -/

/-- A single migration with the DDL text `a`. -/
def oneMigrate : Migrates := [⟨"mysql", "create", [], "a"⟩]

/-- A column named `a` with every other field unset. -/
def aColumn : Column :=
  { Name := "a", Comment := "", Size := 0, Unsigned := false, Type_ := "", Default := Any.nil,
    Enums := none, MaxLength := 0, MinLength := 0, Maximum := 0, Minimum := 0, Primary := false,
    AutoIncrement := false, OnUpdate := "", Tags := [] }

/-- A column named `b` with every other field unset. -/
def bColumn : Column := { aColumn with Name := "b" }

/-- The unique index over the columns `a`, `b`. -/
def uniqueIndex : Index := ⟨[aColumn, bColumn], true⟩

/-- An index without columns. -/
def emptyIndex : Index := ⟨[], false⟩

/-- The plain index over the column `a`. -/
def plainIndex : Index := ⟨[aColumn], false⟩

/-- The primary-key clause of a column for the mysql driver. -/
def primaryText (col : Column) : String :=
  if col.Primary then "PRIMARY KEY (" ++ col.Name ++ ")" else ""

/-- The body that the claim describes: the non-blank column clauses, then the
non-blank primary-key clauses, then the non-blank index clauses, joined. -/
def specBody (I : Imports) (t : Table) : String :=
  String.intercalate ",\n"
    (nonBlankLines (t.Columns.map (fun col => (Column2DDLMysql I Tables.declared col).1))
      ++ nonBlankLines (t.Columns.map primaryText)
      ++ nonBlankLines (t.Indexs.map Index.DDL))

/-- The statement that the claim describes for a table without the drop flag:
the opening, the body, a newline and the trailer. -/
def specCreate (I : Imports) (t : Table) : String :=
  "CREATE TABLE IF NOT EXISTS `" ++ t.TableName ++ "`(\n" ++ specBody I t ++ "\n"
    ++ ")ENGINE=InnoDB AUTO_INCREMENT=1 DEFAULT CHARSET=utf8 COMMENT=\"" ++ t.Comment ++ "\";"

/-- The drop statement of a table. -/
def specDrop (t : Table) : String :=
  "DROP TABLE IF EXISTS `" ++ t.TableName ++ "`;\n"

/-- A table with the drop flag, the primary column `id` and the unique index
over `a`, `b`. -/
def idTable : Table :=
  { TableName := "t", Driver := "mysql", Columns := [idColumn], Comment := "c",
    Indexs := [uniqueIndex], withDrop := true }

/-- A table with the drop flag, the column `name` and the unique index over
`a`, `b`. -/
def nameTable : Table :=
  { TableName := "t", Driver := "mysql", Columns := [nameColumn], Comment := "c",
    Indexs := [uniqueIndex], withDrop := true }

/-- A table whose one column has no name and no type, so that its clause is
blank, with the unique index over `a`, `b`. -/
def blankTable : Table :=
  { TableName := "t", Driver := "mysql", Columns := [{ aColumn with Name := "" }], Comment := "c",
    Indexs := [uniqueIndex], withDrop := false }

/-- A table without columns whose driver is not the mysql driver. -/
def emptyTable : Table :=
  { TableName := "t", Driver := "sqlite", Columns := [], Comment := "", Indexs := [],
    withDrop := false }

/-- A string column whose `MaxLength` is unset. -/
def titleColumn : Column :=
  { Name := "title", Comment := "", Size := 0, Unsigned := false, Type_ := "string",
    Default := Any.nil, Enums := none, MaxLength := 0, MinLength := 0, Maximum := 0,
    Minimum := 0, Primary := false, AutoIncrement := false, OnUpdate := "", Tags := [] }

/-- A column of a raw type with enums of type `int`, maximum 2 and default
key 1. -/
def statusColumn : Column :=
  { Name := "status", Comment := "", Size := 11, Unsigned := true, Type_ := "raw",
    Default := Any.nil, Enums := some ⟨"int", (0, 2), Any.int 1⟩, MaxLength := 0, MinLength := 0,
    Maximum := 0, Minimum := 0, Primary := false, AutoIncrement := false, OnUpdate := "",
    Tags := [] }

/-- The effective length of a string column, in the words of the claim: its
`MaxLength` when that is at least 1, else 255. -/
def effectiveLength (col : Column) : Int :=
  if col.MaxLength ≥ 1 then col.MaxLength else 255

/-- The type of a string column of effective length `n`, in the words of the
claim. -/
def stringTypeSpec (n : Int) : String :=
  if n ≤ 64 then "char(" ++ toString n ++ ")"
  else if n ≤ 255 then "varchar(" ++ toString n ++ ")"
  else if n ≤ 65535 then "TEXT"
  else if n ≤ 16777215 then "MEDIUMTEXT"
  else if n ≤ 4294967295 then "LONGTEXT"
  else "varchar(" ++ toString n ++ ")"

/-- A tier table of thirteen entries declared in descending order, the entry of
limit `k` having the type `tk`: one entry more than the insertion sort of the
library takes. -/
def thirteenTable : TypeReflects :=
  [⟨13, "t13", false, 0, false⟩, ⟨12, "t12", false, 0, false⟩, ⟨11, "t11", false, 0, false⟩,
    ⟨10, "t10", false, 0, false⟩, ⟨9, "t9", false, 0, false⟩, ⟨8, "t8", false, 0, false⟩,
    ⟨7, "t7", false, 0, false⟩, ⟨6, "t6", false, 0, false⟩, ⟨5, "t5", false, 0, false⟩,
    ⟨4, "t4", false, 0, false⟩, ⟨3, "t3", false, 0, false⟩, ⟨2, "t2", false, 0, false⟩,
    ⟨1, "t1", false, 0, false⟩]

/-- A tier table of thirteen entries declared in ascending order. -/
def thirteenAscending : TypeReflects :=
  [⟨1, "t1", false, 0, false⟩, ⟨2, "t2", false, 0, false⟩, ⟨3, "t3", false, 0, false⟩,
    ⟨4, "t4", false, 0, false⟩, ⟨5, "t5", false, 0, false⟩, ⟨6, "t6", false, 0, false⟩,
    ⟨7, "t7", false, 0, false⟩, ⟨8, "t8", false, 0, false⟩, ⟨9, "t9", false, 0, false⟩,
    ⟨10, "t10", false, 0, false⟩, ⟨11, "t11", false, 0, false⟩, ⟨12, "t12", false, 0, false⟩,
    ⟨13, "t13", false, 0, false⟩]

/-! ## The sort: what every routine of the library does with `Less` and `Swap` -/

/-- The method `Swap` keeps the length of the table. -/
theorem length_Swap (t : TypeReflects) (i j : Nat) : (t.Swap i j).length = t.length := by
  simp [TypeReflects.Swap]

/-- The method `Less` compares the limits at the two indexes. -/
theorem Less_eq (t : TypeReflects) (i j : Nat) : t.Less i j = decide (ul t i < ul t j) := rfl

/-- Indexing a table after one of its entries was assigned. -/
theorem at_set (t : TypeReflects) (i k : Nat) (x : TypeReflect) (hi : i < t.length) :
    TypeReflects.at (t.set i x) k = if k = i then x else t.at k := by
  unfold TypeReflects.at
  by_cases h : k = i
  · subst h
    simp [List.getD_eq_getElem?_getD, List.getElem?_set, hi]
  · have h' : ¬ i = k := fun e => h e.symm
    simp [List.getD_eq_getElem?_getD, List.getElem?_set, h, h']

/-- The limits after `Swap(i, j)`: those at `i` and `j` are exchanged, the others stay. -/
theorem ul_Swap (t : TypeReflects) (i j k : Nat) (hi : i < t.length) (hj : j < t.length) :
    ul (t.Swap i j) k = if k = j then ul t i else if k = i then ul t j else ul t k := by
  unfold ul TypeReflects.Swap
  simp only []
  rw [at_set _ j k _ (by simpa using hj), at_set t i k _ hi]
  by_cases h1 : k = j
  · simp [h1]
  · by_cases h2 : k = i
    · subst h2
      simp [h1]
    · simp [h1, h2]

/-- The call `Swap(i, i)` changes nothing. -/
theorem Swap_self (t : TypeReflects) (i : Nat) : t.Swap i i = t := by
  unfold TypeReflects.Swap
  simp only []
  by_cases hi : i < t.length
  · apply List.ext_getElem
    · simp
    · intro n h1 h2
      by_cases hn : n = i
      · subst hn
        simp [TypeReflects.at, List.getD_eq_getElem?_getD, hi]
      · have hn' : ¬ i = n := fun e => hn e.symm
        simp [List.getElem_set, hn, hn']
  · have hle : t.length ≤ i := Nat.le_of_not_lt hi
    rw [List.set_eq_of_length_le (by simpa using hle), List.set_eq_of_length_le hle]

/-- A table comes from itself by moving no limit. -/
theorem Within.refl (a b : Nat) (t : TypeReflects) : Within a b t t :=
  ⟨rfl, fun _ _ => rfl, fun k h1 h2 => ⟨k, h1, h2, rfl⟩⟩

/-- Moving limits inside a range twice is moving them inside the range. -/
theorem Within.trans {a b : Nat} {t1 t2 t3 : TypeReflects}
    (h12 : Within a b t1 t2) (h23 : Within a b t2 t3) : Within a b t1 t3 := by
  refine ⟨h23.1.trans h12.1, ?_, ?_⟩
  · intro k hk
    rw [h23.2.1 k hk, h12.2.1 k hk]
  · intro k h1 h2
    obtain ⟨k', h1', h2', e⟩ := h23.2.2 k h1 h2
    obtain ⟨k'', h1'', h2'', e'⟩ := h12.2.2 k' h1' h2'
    exact ⟨k'', h1'', h2'', e.trans e'⟩

/-- Moving limits inside a range is moving them inside any wider range. -/
theorem Within.mono {a b a' b' : Nat} {t t' : TypeReflects} (h : Within a b t t')
    (ha : a' ≤ a) (hb : b ≤ b') : Within a' b' t t' := by
  refine ⟨h.1, ?_, ?_⟩
  · intro k hk
    exact h.2.1 k (by omega)
  · intro k h1 h2
    by_cases hin : a ≤ k ∧ k < b
    · obtain ⟨k', h1', h2', e⟩ := h.2.2 k hin.1 hin.2
      exact ⟨k', by omega, by omega, e⟩
    · exact ⟨k, h1, h2, h.2.1 k (by omega)⟩

/-- The call `Swap(i, j)` with both indexes in a range moves limits inside that range only. -/
theorem Within_Swap (a b : Nat) (t : TypeReflects) (i j : Nat)
    (hai : a ≤ i) (hib : i < b) (haj : a ≤ j) (hjb : j < b) (hb : b ≤ t.length) :
    Within a b t (t.Swap i j) := by
  have hi : i < t.length := by omega
  have hj : j < t.length := by omega
  refine ⟨length_Swap t i j, ?_, ?_⟩
  · intro k hk
    rw [ul_Swap t i j k hi hj]
    have h1 : ¬ k = j := by omega
    have h2 : ¬ k = i := by omega
    simp [h1, h2]
  · intro k h1 h2
    rw [ul_Swap t i j k hi hj]
    by_cases e1 : k = j
    · exact ⟨i, hai, hib, by simp [e1]⟩
    · by_cases e2 : k = i
      · subst e2
        exact ⟨j, haj, hjb, by simp [e1]⟩
      · exact ⟨k, h1, h2, by simp [e1, e2]⟩

/-- A lower bound of the limits on a range stays one under `Within`. -/
theorem Within.lower {a b : Nat} {t t' : TypeReflects} (h : Within a b t t') (x : Int)
    (hx : ∀ k, a ≤ k → k < b → x ≤ ul t k) : ∀ k, a ≤ k → k < b → x ≤ ul t' k := by
  intro k h1 h2
  obtain ⟨k', h1', h2', e⟩ := h.2.2 k h1 h2
  rw [e]
  exact hx k' h1' h2'

/-- An upper bound of the limits on a range stays one under `Within`. -/
theorem Within.upper {a b : Nat} {t t' : TypeReflects} (h : Within a b t t') (x : Int)
    (hx : ∀ k, a ≤ k → k < b → ul t k ≤ x) : ∀ k, a ≤ k → k < b → ul t' k ≤ x := by
  intro k h1 h2
  obtain ⟨k', h1', h2', e⟩ := h.2.2 k h1 h2
  rw [e]
  exact hx k' h1' h2'

/-- After `Swap(i, j)` the limit at `i` is the one that was at `j`. -/
theorem ul_Swap_left (t : TypeReflects) (i j : Nat) (hi : i < t.length) (hj : j < t.length) :
    ul (t.Swap i j) i = ul t j := by
  rw [ul_Swap t i j i hi hj]
  by_cases h : i = j
  · simp [h]
  · simp [h]

/-- After `Swap(i, j)` the limit at `j` is the one that was at `i`. -/
theorem ul_Swap_right (t : TypeReflects) (i j : Nat) (hi : i < t.length) (hj : j < t.length) :
    ul (t.Swap i j) j = ul t i := by
  rw [ul_Swap t i j j hi hj]
  simp

/-- After `Swap(i, j)` the limit at any other index is as it was. -/
theorem ul_Swap_other (t : TypeReflects) (i j k : Nat) (hi : i < t.length) (hj : j < t.length)
    (h1 : k ≠ i) (h2 : k ≠ j) : ul (t.Swap i j) k = ul t k := by
  rw [ul_Swap t i j k hi hj]
  simp [h1, h2]

/-- The inner loop of the insertion sort at `j`, on the way down from `i`: the
entries before `j` and those from `j` to `i` are in order, and every entry
before `j` is at most every entry after `j`. -/
theorem insertionInner_spec (a i : Nat) :
    ∀ (j : Nat) (t : TypeReflects), a ≤ j → j ≤ i → i < t.length →
      SortedOn t a j → SortedOn t j (i + 1) →
      (∀ p q, a ≤ p → p < j → j < q → q ≤ i → ul t p ≤ ul t q) →
      Within a (i + 1) t (insertionInner t a j) ∧ SortedOn (insertionInner t a j) a (i + 1) := by
  intro j
  induction j with
  | zero =>
    intro t ha _ _ _ h2 _
    have : a = 0 := by omega
    subst this
    exact ⟨Within.refl _ _ _, h2⟩
  | succ j ih =>
    intro t ha hji hi h1 h2 h3
    unfold insertionInner
    by_cases hc : (j + 1 > a && t.Less (j + 1) j) = true
    · rw [if_pos hc]
      simp only [Bool.and_eq_true, decide_eq_true_eq, Less_eq] at hc
      obtain ⟨hja, hlt⟩ := hc
      have hjl : j < t.length := by omega
      have hj1l : j + 1 < t.length := by omega
      have e1 : ul (t.Swap (j + 1) j) j = ul t (j + 1) := ul_Swap_right t (j + 1) j hj1l hjl
      have e2 : ul (t.Swap (j + 1) j) (j + 1) = ul t j := ul_Swap_left t (j + 1) j hj1l hjl
      have e3 : ∀ k, k ≠ j → k ≠ j + 1 → ul (t.Swap (j + 1) j) k = ul t k :=
        fun k hk1 hk2 => ul_Swap_other t (j + 1) j k hj1l hjl hk2 hk1
      have hw : Within a (i + 1) t (t.Swap (j + 1) j) :=
        Within_Swap a (i + 1) t (j + 1) j (by omega) (by omega) (by omega) (by omega) (by omega)
      have hr := ih (t.Swap (j + 1) j) (by omega) (by omega) (by rw [length_Swap]; exact hi)
        (by
          intro p q hp hpq hq
          rw [e3 p (by omega) (by omega), e3 q (by omega) (by omega)]
          exact h1 p q hp hpq (by omega))
        (by
          intro p q hp hpq hq
          by_cases hpj : p = j
          · subst hpj
            rw [e1]
            by_cases hqj : q = p
            · subst hqj; rw [e1]
            · by_cases hqj1 : q = p + 1
              · subst hqj1; rw [e2]; omega
              · rw [e3 q hqj hqj1]
                exact h2 (p + 1) q (by omega) (by omega) hq
          · by_cases hpj1 : p = j + 1
            · subst hpj1
              rw [e2]
              by_cases hqj1 : q = j + 1
              · subst hqj1; rw [e2]
              · rw [e3 q (by omega) hqj1]
                exact h3 j q (by omega) (by omega) (by omega) (by omega)
            · rw [e3 p hpj hpj1, e3 q (by omega) (by omega)]
              exact h2 p q (by omega) hpq hq)
        (by
          intro p q hp hpj hjq hq
          rw [e3 p (by omega) (by omega)]
          by_cases hqj1 : q = j + 1
          · subst hqj1
            rw [e2]
            exact h1 p j hp (by omega) (by omega)
          · rw [e3 q (by omega) hqj1]
            exact h3 p q hp (by omega) (by omega) hq)
      exact ⟨hw.trans hr.1, hr.2⟩
    · rw [if_neg hc]
      refine ⟨Within.refl _ _ _, ?_⟩
      simp only [Bool.and_eq_true, decide_eq_true_eq, Less_eq, not_and, not_lt] at hc
      by_cases hja : j + 1 > a
      · have hle := hc hja
        intro p q hp hpq hq
        by_cases hq1 : q < j + 1
        · exact h1 p q hp hpq hq1
        · by_cases hp1 : j + 1 ≤ p
          · exact h2 p q hp1 hpq hq
          · by_cases hq2 : q = j + 1
            · subst hq2
              have := h1 p j hp (by omega) (by omega)
              omega
            · exact h3 p q hp (by omega) (by omega) (by omega)
      · have : a = j + 1 := by omega
        subst this
        exact h2

/-- The outer loop of the insertion sort, entered at `i` with the entries of
`[a, i)` in order, leaves `[a, i + n)` in order. -/
theorem insertionOuter_spec (a : Nat) :
    ∀ (n i : Nat) (t : TypeReflects), a < i → i + n ≤ t.length → SortedOn t a i →
      Within a (i + n) t (insertionOuter t a i n)
        ∧ SortedOn (insertionOuter t a i n) a (i + n) := by
  intro n
  induction n with
  | zero =>
    intro i t _ _ hs
    exact ⟨Within.refl _ _ _, hs⟩
  | succ n ih =>
    intro i t hai hlen hs
    unfold insertionOuter
    have hin := insertionInner_spec a i i t (by omega) (le_refl i) (by omega) hs
      (by intro p q hp hpq hq; have : p = q := by omega
          subst this; exact le_refl _)
      (by intro p q _ hpi hiq hq; omega)
    have hlen' : (insertionInner t a i).length = t.length := hin.1.1
    have hr := ih (i + 1) (insertionInner t a i) (by omega) (by rw [hlen']; omega) hin.2
    have e : i + 1 + n = i + (n + 1) := by omega
    rw [e] at hr
    exact ⟨(hin.1.mono (le_refl a) (by omega)).trans hr.1, hr.2⟩

/-- The routine `insertionSort(data, a, b)` leaves the limits of `[a, b)` in
ascending order and moves limits inside that range only. -/
theorem insertionSort_spec (t : TypeReflects) (a b : Nat) (hb : b ≤ t.length) :
    Within a b t (insertionSort t a b) ∧ SortedOn (insertionSort t a b) a b := by
  unfold insertionSort
  by_cases hab : a + 1 ≤ b
  · have h := insertionOuter_spec a (b - (a + 1)) (a + 1) t (by omega) (by omega)
      (by intro p q hp hpq hq; have : p = q := by omega
          subst this; exact le_refl _)
    have e : a + 1 + (b - (a + 1)) = b := by omega
    rw [e] at h
    exact h
  · have e : b - (a + 1) = 0 := by omega
    rw [e]
    refine ⟨Within.refl _ _ _, ?_⟩
    intro p q hp hpq hq
    omega

/-- The loop of `reverseRange` moves limits inside the range only. -/
theorem reverseLoop_within (a b : Nat) :
    ∀ (fuel : Nat) (t : TypeReflects) (i j : Nat), a ≤ i → j < b → b ≤ t.length →
      Within a b t (reverseLoop fuel t i j) := by
  intro fuel
  induction fuel with
  | zero => intro t i j _ _ _; exact Within.refl _ _ _
  | succ fuel ih =>
    intro t i j hi hj hb
    unfold reverseLoop
    by_cases h : i < j
    · rw [if_pos h]
      have hw := Within_Swap a b t i j hi (by omega) (by omega) hj hb
      exact hw.trans (ih (t.Swap i j) (i + 1) (j - 1) (by omega) (by omega)
        (by rw [length_Swap]; exact hb))
    · rw [if_neg h]
      exact Within.refl _ _ _

/-- The routine `reverseRange` moves limits inside the range only. -/
theorem reverseRange_within (t : TypeReflects) (a b : Nat) (hab : a < b) (hb : b ≤ t.length) :
    Within a b t (reverseRange t a b) := by
  unfold reverseRange
  exact reverseLoop_within a b (b - a) t a (b - 1) (le_refl a) (by omega) hb

/-- Two to the number of bits of a positive number is at most twice the
number. -/
theorem two_pow_bitsLen_le (fuel : Nat) : ∀ x, 1 ≤ x → 2 ^ bitsLen fuel x ≤ 2 * x := by
  induction fuel with
  | zero => intro x hx; simp [bitsLen]; omega
  | succ fuel ih =>
    intro x hx
    unfold bitsLen
    have hx0 : ¬ x = 0 := by omega
    rw [if_neg hx0]
    by_cases h2 : x / 2 = 0
    · have hb : bitsLen fuel (x / 2) = 0 := by
        rw [h2]
        cases fuel <;> simp [bitsLen]
      rw [hb]
      simp
      omega
    · have := ih (x / 2) (by omega)
      rw [pow_add]
      simp only [pow_one]
      omega

/-- The loop of `breakPatterns` moves limits inside the range only, whatever
the generator gives. -/
theorem breakLoop_within (next : Nat → Nat) (a b length modulus idx : Nat) (hl : b = a + length)
    (h8 : 8 ≤ length)
    (hm : modulus ≤ 2 * length) (hm1 : 1 ≤ modulus) (hidx : idx = a + (length / 4) * 2 - 1) :
    ∀ (n : Nat) (t : TypeReflects) (random i : Nat), i + n ≤ 3 → b ≤ t.length →
      Within a b t (breakLoop next a length modulus idx n t random i) := by
  intro n
  induction n with
  | zero => intro t random i _ _; exact Within.refl _ _ _
  | succ n ih =>
    intro t random i hi hb
    unfold breakLoop
    simp only []
    have hand : next random &&& (modulus - 1) ≤ modulus - 1 := Nat.and_le_right
    have hother : (if next random &&& (modulus - 1) ≥ length then
        (next random &&& (modulus - 1)) - length
        else next random &&& (modulus - 1)) < length := by
      split_ifs with h
      · omega
      · omega
    have hq : length / 4 * 2 ≤ length / 2 + length / 2 := by omega
    have hq4 : 2 ≤ length / 4 := by omega
    have hw := Within_Swap a b t (idx - 1 + i) (a + (if next random &&& (modulus - 1) ≥ length
        then (next random &&& (modulus - 1)) - length
        else next random &&& (modulus - 1)))
      (by omega) (by omega) (by omega) (by omega) hb
    exact hw.trans (ih _ _ _ (by omega) (by rw [length_Swap]; exact hb))

/-- The routine `breakPatterns` moves limits inside the range only, whatever
the generator gives. -/
theorem breakPatterns_within (next : Nat → Nat) (t : TypeReflects) (a b : Nat) (hab : a ≤ b)
    (hb : b ≤ t.length) : Within a b t (breakPatterns next t a b) := by
  unfold breakPatterns
  simp only []
  split_ifs with h
  · exact breakLoop_within next a b (b - a) (2 ^ bitsLen (b - a) (b - a)) (a + (b - a) / 4 * 2 - 1)
      (by omega) h (two_pow_bitsLen_le _ _ (by omega)) (Nat.one_le_two_pow) rfl 3 t (b - a) 0
      (by omega) hb
  · exact Within.refl _ _ _

/-- The routine `order2` returns its two indexes, in one order or the other. -/
theorem order2_mem (t : TypeReflects) (a b s : Nat) :
    ((order2 t a b s).1 = a ∧ (order2 t a b s).2.1 = b)
      ∨ ((order2 t a b s).1 = b ∧ (order2 t a b s).2.1 = a) := by
  unfold order2
  split_ifs
  · right; exact ⟨rfl, rfl⟩
  · left; exact ⟨rfl, rfl⟩

/-- The routine `median` returns one of its three indexes. -/
theorem median_mem (t : TypeReflects) (a b c s : Nat) :
    (median t a b c s).1 = a ∨ (median t a b c s).1 = b ∨ (median t a b c s).1 = c := by
  unfold median
  simp only []
  have o1 := order2_mem t a b s
  generalize order2 t a b s = r1 at o1 ⊢
  have o2 := order2_mem t r1.2.1 c r1.2.2
  generalize order2 t r1.2.1 c r1.2.2 = r2 at o2 ⊢
  have o3 := order2_mem t r1.1 r2.1 r2.2.2
  generalize order2 t r1.1 r2.1 r2.2.2 = r3 at o3 ⊢
  omega

/-- The routine `choosePivot` returns an index of the range. -/
theorem choosePivot_mem (t : TypeReflects) (a b : Nat) (h : 8 ≤ b - a) :
    a ≤ (choosePivot t a b).1 ∧ (choosePivot t a b).1 < b := by
  have hq : 2 ≤ (b - a) / 4 := by omega
  have hq3 : (b - a) / 4 * 3 < b - a := by omega
  have hfst : ∀ (r : Nat × Nat),
      (if r.2 = 0 then (r.1, sortedHint.increasingHint)
        else if r.2 = 12 then (r.1, sortedHint.decreasingHint)
        else (r.1, sortedHint.unknownHint)).1 = r.1 := by
    intro r
    split_ifs <;> rfl
  unfold choosePivot
  simp only [hfst]
  rw [if_pos h]
  split_ifs with h50
  · simp only [medianAdjacent]
    have m1 := median_mem t (a + (b - a) / 4 * 1 - 1) (a + (b - a) / 4 * 1)
      (a + (b - a) / 4 * 1 + 1) 0
    generalize median t (a + (b - a) / 4 * 1 - 1) (a + (b - a) / 4 * 1)
      (a + (b - a) / 4 * 1 + 1) 0 = r1 at m1 ⊢
    have m2 := median_mem t (a + (b - a) / 4 * 2 - 1) (a + (b - a) / 4 * 2)
      (a + (b - a) / 4 * 2 + 1) r1.2
    generalize median t (a + (b - a) / 4 * 2 - 1) (a + (b - a) / 4 * 2)
      (a + (b - a) / 4 * 2 + 1) r1.2 = r2 at m2 ⊢
    have m3 := median_mem t (a + (b - a) / 4 * 3 - 1) (a + (b - a) / 4 * 3)
      (a + (b - a) / 4 * 3 + 1) r2.2
    generalize median t (a + (b - a) / 4 * 3 - 1) (a + (b - a) / 4 * 3)
      (a + (b - a) / 4 * 3 + 1) r2.2 = r3 at m3 ⊢
    have m4 := median_mem t r1.1 r2.1 r3.1 r3.2
    generalize median t r1.1 r2.1 r3.1 r3.2 = r4 at m4 ⊢
    omega
  · have m := median_mem t (a + (b - a) / 4 * 1) (a + (b - a) / 4 * 2) (a + (b - a) / 4 * 3) 0
    generalize median t (a + (b - a) / 4 * 1) (a + (b - a) / 4 * 2) (a + (b - a) / 4 * 3) 0 = r
      at m ⊢
    omega

/-- The upward scan of `partition` stops at most one past `j`; every entry it passes is below the pivot, and where it stops before `j` the entry is not below the pivot. -/
theorem scanUp_spec (t : TypeReflects) (a j : Nat) :
    ∀ (fuel i : Nat),
      i ≤ scanUp t a fuel i j
        ∧ (i ≤ j + 1 → scanUp t a fuel i j ≤ j + 1)
        ∧ (∀ k, i ≤ k → k < scanUp t a fuel i j → ul t k < ul t a)
        ∧ (j + 1 - i ≤ fuel → scanUp t a fuel i j ≤ j →
            ¬ ul t (scanUp t a fuel i j) < ul t a) := by
  intro fuel
  induction fuel with
  | zero =>
    intro i
    simp only [scanUp]
    exact ⟨le_refl i, fun h => h, fun k h1 h2 => by omega, fun h1 h2 => by omega⟩
  | succ fuel ih =>
    intro i
    unfold scanUp
    by_cases hc : (decide (i ≤ j) && t.Less i a) = true
    · rw [if_pos hc]
      simp only [Bool.and_eq_true, decide_eq_true_eq, Less_eq] at hc
      obtain ⟨h1, h2, h3, h4⟩ := ih (i + 1)
      refine ⟨by omega, fun _ => h2 (by omega), ?_, fun hf hr => h4 (by omega) hr⟩
      intro k hk1 hk2
      by_cases hki : k = i
      · subst hki; exact hc.2
      · exact h3 k (by omega) hk2
    · rw [if_neg hc]
      simp only [Bool.and_eq_true, decide_eq_true_eq, Less_eq, not_and] at hc
      exact ⟨le_refl i, fun h => h, fun k h1 h2 => by omega, fun _ hr => hc hr⟩

/-- The downward scan of `partition` stops at least one before `i`; every entry it passes is not below the pivot, and where it stops at or after `i` the entry is below the pivot. -/
theorem scanDown_spec (t : TypeReflects) (a i : Nat) (hi : 1 ≤ i) :
    ∀ (fuel j : Nat),
      scanDown t a fuel i j ≤ j
        ∧ (i ≤ j + 1 → i ≤ scanDown t a fuel i j + 1)
        ∧ (∀ k, scanDown t a fuel i j < k → k ≤ j → ul t a ≤ ul t k)
        ∧ (j + 1 - i ≤ fuel → i ≤ scanDown t a fuel i j →
            ul t (scanDown t a fuel i j) < ul t a) := by
  intro fuel
  induction fuel with
  | zero =>
    intro j
    simp only [scanDown]
    exact ⟨le_refl j, fun h => h, fun k h1 h2 => by omega, fun h1 h2 => by omega⟩
  | succ fuel ih =>
    intro j
    unfold scanDown
    by_cases hc : (decide (i ≤ j) && !t.Less j a) = true
    · rw [if_pos hc]
      simp only [Bool.and_eq_true, decide_eq_true_eq, Less_eq, Bool.not_eq_true',
        decide_eq_false_iff_not, not_lt] at hc
      obtain ⟨h1, h2, h3, h4⟩ := ih (j - 1)
      refine ⟨by omega, fun _ => h2 (by omega), ?_, fun hf hr => h4 (by omega) hr⟩
      intro k hk1 hk2
      by_cases hkj : k = j
      · subst hkj; exact hc.2
      · exact h3 k hk1 (by omega)
    · rw [if_neg hc]
      simp only [Bool.and_eq_true, decide_eq_true_eq, Less_eq, Bool.not_eq_true',
        decide_eq_false_iff_not, not_lt, not_and, not_le] at hc
      exact ⟨le_refl j, fun h => h, fun k h1 h2 => by omega, fun _ hr => hc hr⟩

/-- The loop of `partition`, entered with the entries of `(a, i)` below the
pivot at `a` and those of `(j, b)` not below it, ends with such a split at the
returned index. -/
theorem partitionLoop_spec (a b : Nat) (p : Int) :
    ∀ (fuel : Nat) (t : TypeReflects) (i j : Nat),
      j + 1 - i ≤ fuel → a < i → i ≤ j + 1 → j < b → b ≤ t.length → ul t a = p →
      (∀ k, a < k → k < i → ul t k < p) → (∀ k, j < k → k < b → p ≤ ul t k) →
      Within (a + 1) b t (partitionLoop a fuel t i j).1
        ∧ a ≤ (partitionLoop a fuel t i j).2 ∧ (partitionLoop a fuel t i j).2 < b
        ∧ (∀ k, a < k → k ≤ (partitionLoop a fuel t i j).2 →
            ul (partitionLoop a fuel t i j).1 k < p)
        ∧ (∀ k, (partitionLoop a fuel t i j).2 < k → k < b →
            p ≤ ul (partitionLoop a fuel t i j).1 k) := by
  intro fuel
  induction fuel with
  | zero =>
    intro t i j hf hai hij hjb hb hp hl hr
    simp only [partitionLoop]
    exact ⟨Within.refl _ _ _, by omega, hjb, fun k h1 h2 => hl k h1 (by omega), hr⟩
  | succ fuel ih =>
    intro t i j hf hai hij hjb hb hp hl hr
    unfold partitionLoop
    simp only []
    obtain ⟨u1, u2, u3, u4⟩ := scanUp_spec t a j (j + 1 - i) i
    generalize scanUp t a (j + 1 - i) i j = i' at u1 u2 u3 u4 ⊢
    have u2' := u2 hij
    obtain ⟨d1, d2, d3, d4⟩ := scanDown_spec t a i' (by omega) (j + 1 - i') j
    generalize scanDown t a (j + 1 - i') i' j = j' at d1 d2 d3 d4 ⊢
    have d2' := d2 u2'
    by_cases hgt : i' > j'
    · rw [if_pos hgt]
      refine ⟨Within.refl _ _ _, by omega, by omega, ?_, ?_⟩
      · intro k h1 h2
        by_cases hk : k < i
        · exact hl k h1 hk
        · rw [← hp]; exact u3 k (by omega) (by omega)
      · intro k h1 h2
        by_cases hk : k ≤ j
        · rw [← hp]; exact d3 k h1 hk
        · exact hr k (by omega) h2
    · rw [if_neg hgt]
      have hle : i' ≤ j' := by omega
      have hni := u4 (le_refl _) (by omega)
      have hnj := d4 (le_refl _) hle
      have hlt : i' < j' := by
        by_contra hcon
        have : i' = j' := by omega
        subst this
        exact hni hnj
      have hi'l : i' < t.length := by omega
      have hj'l : j' < t.length := by omega
      have e1 : ul (t.Swap i' j') i' = ul t j' := ul_Swap_left t i' j' hi'l hj'l
      have e2 : ul (t.Swap i' j') j' = ul t i' := ul_Swap_right t i' j' hi'l hj'l
      have e3 : ∀ k, k ≠ i' → k ≠ j' → ul (t.Swap i' j') k = ul t k :=
        fun k hk1 hk2 => ul_Swap_other t i' j' k hi'l hj'l hk1 hk2
      have hw : Within (a + 1) b t (t.Swap i' j') :=
        Within_Swap (a + 1) b t i' j' (by omega) (by omega) (by omega) (by omega) hb
      have hrec := ih (t.Swap i' j') (i' + 1) (j' - 1) (by omega) (by omega) (by omega)
        (by omega) (by rw [length_Swap]; exact hb)
        (by rw [e3 a (by omega) (by omega)]; exact hp)
        (by
          intro k h1 h2
          by_cases hk : k = i'
          · subst hk; rw [e1, ← hp]; exact hnj
          · rw [e3 k hk (by omega)]
            by_cases hk2 : k < i
            · exact hl k h1 hk2
            · rw [← hp]; exact u3 k (by omega) (by omega))
        (by
          intro k h1 h2
          by_cases hk : k = j'
          · subst hk; rw [e2, ← hp]; exact not_lt.mp hni
          · rw [e3 k (by omega) hk]
            by_cases hk2 : k ≤ j
            · rw [← hp]; exact d3 k (by omega) hk2
            · exact hr k (by omega) h2)
      exact ⟨hw.trans hrec.1, hrec.2⟩

/-- One turn of the loop of `partition`. -/
theorem partitionLoop_succ (a fuel : Nat) (t : TypeReflects) (i j : Nat) :
    partitionLoop a (fuel + 1) t i j
      = if scanUp t a (j + 1 - i) i j
            > scanDown t a (j + 1 - scanUp t a (j + 1 - i) i j) (scanUp t a (j + 1 - i) i j) j then
          (t, scanDown t a (j + 1 - scanUp t a (j + 1 - i) i j) (scanUp t a (j + 1 - i) i j) j)
        else
          partitionLoop a fuel
            (t.Swap (scanUp t a (j + 1 - i) i j)
              (scanDown t a (j + 1 - scanUp t a (j + 1 - i) i j) (scanUp t a (j + 1 - i) i j) j))
            (scanUp t a (j + 1 - i) i j + 1)
            (scanDown t a (j + 1 - scanUp t a (j + 1 - i) i j) (scanUp t a (j + 1 - i) i j) j - 1) :=
  rfl

/-- The routine `partition` is its loop between the two swaps of the pivot. -/
theorem partition_eq_loop (t : TypeReflects) (a b pivot : Nat) :
    (partition t a b pivot).1
        = (partitionLoop a (b - a + 1) (t.Swap a pivot) (a + 1) (b - 1)).1.Swap
            (partitionLoop a (b - a + 1) (t.Swap a pivot) (a + 1) (b - 1)).2 a
      ∧ (partition t a b pivot).2.1
        = (partitionLoop a (b - a + 1) (t.Swap a pivot) (a + 1) (b - 1)).2 := by
  rw [partitionLoop_succ]
  unfold partition
  simp only []
  split_ifs <;> exact ⟨rfl, rfl⟩

/-- The routine `partition` on the range `[a, b)` with the pivot inside it:
limits move inside the range only, the returned index is in the range, the
entries before it are at most the entry there and the entries after it are at
least that entry. -/
theorem partition_spec (t : TypeReflects) (a b pivot : Nat) (hap : a ≤ pivot) (hpb : pivot < b)
    (hb : b ≤ t.length) :
    Within a b t (partition t a b pivot).1
      ∧ a ≤ (partition t a b pivot).2.1 ∧ (partition t a b pivot).2.1 < b
      ∧ (∀ k, a ≤ k → k < (partition t a b pivot).2.1 →
          ul (partition t a b pivot).1 k ≤ ul (partition t a b pivot).1 (partition t a b pivot).2.1)
      ∧ (∀ k, (partition t a b pivot).2.1 < k → k < b →
          ul (partition t a b pivot).1 (partition t a b pivot).2.1
            ≤ ul (partition t a b pivot).1 k) := by
  obtain ⟨e1, e2⟩ := partition_eq_loop t a b pivot
  rw [e1, e2]
  have hw0 : Within a b t (t.Swap a pivot) :=
    Within_Swap a b t a pivot (le_refl a) (by omega) hap hpb hb
  have hlen0 : (t.Swap a pivot).length = t.length := length_Swap _ _ _
  have hloop := partitionLoop_spec a b (ul (t.Swap a pivot) a) (b - a + 1) (t.Swap a pivot)
    (a + 1) (b - 1) (by omega) (by omega) (by omega) (by omega) (by rw [hlen0]; exact hb) rfl
    (fun k h1 h2 => by omega) (fun k h1 h2 => by omega)
  generalize partitionLoop a (b - a + 1) (t.Swap a pivot) (a + 1) (b - 1) = r at hloop ⊢
  obtain ⟨hw, hm1, hm2, hl, hr⟩ := hloop
  have hlen : r.1.length = t.length := by rw [hw.1, hlen0]
  have hpa : ul r.1 a = ul (t.Swap a pivot) a := hw.2.1 a (by omega)
  have hml : r.2 < r.1.length := by omega
  have hal : a < r.1.length := by omega
  have f1 : ul (r.1.Swap r.2 a) r.2 = ul r.1 a := ul_Swap_left r.1 r.2 a hml hal
  have f2 : ul (r.1.Swap r.2 a) a = ul r.1 r.2 := ul_Swap_right r.1 r.2 a hml hal
  have f3 : ∀ k, k ≠ r.2 → k ≠ a → ul (r.1.Swap r.2 a) k = ul r.1 k :=
    fun k hk1 hk2 => ul_Swap_other r.1 r.2 a k hml hal hk1 hk2
  have hw2 : Within a b r.1 (r.1.Swap r.2 a) :=
    Within_Swap a b r.1 r.2 a hm1 hm2 (le_refl a) (by omega) (by omega)
  refine ⟨hw0.trans ((hw.mono (by omega) (le_refl b)).trans hw2), hm1, hm2, ?_, ?_⟩
  · intro k h1 h2
    rw [f1, hpa]
    by_cases hk : k = a
    · subst hk
      rw [f2]
      exact le_of_lt (hl r.2 (by omega) (le_refl _))
    · rw [f3 k (by omega) hk]
      exact le_of_lt (hl k (by omega) (by omega))
  · intro k h1 h2
    rw [f1, hpa, f3 k (by omega) (by omega)]
    exact hr k h1 h2

/-- The upward scan of `partitionEqual` passes only entries that are at most the pivot. -/
theorem scanUpEqual_spec (t : TypeReflects) (a j : Nat) :
    ∀ (fuel i : Nat),
      i ≤ scanUpEqual t a fuel i j
        ∧ scanUpEqual t a fuel i j ≤ max i (j + 1)
        ∧ (∀ k, i ≤ k → k < scanUpEqual t a fuel i j → ul t k ≤ ul t a) := by
  intro fuel
  induction fuel with
  | zero =>
    intro i
    simp only [scanUpEqual]
    exact ⟨le_refl i, by omega, fun k h1 h2 => by omega⟩
  | succ fuel ih =>
    intro i
    unfold scanUpEqual
    by_cases hc : (decide (i ≤ j) && !t.Less a i) = true
    · rw [if_pos hc]
      simp only [Bool.and_eq_true, decide_eq_true_eq, Less_eq, Bool.not_eq_true',
        decide_eq_false_iff_not, not_lt] at hc
      obtain ⟨h1, h2, h3⟩ := ih (i + 1)
      refine ⟨by omega, by omega, ?_⟩
      intro k hk1 hk2
      by_cases hki : k = i
      · subst hki; exact hc.2
      · exact h3 k (by omega) hk2
    · rw [if_neg hc]
      exact ⟨le_refl i, by omega, fun k h1 h2 => by omega⟩

/-- The downward scan of `partitionEqual` stops, when at or after `i`, at an entry that is at most the pivot. -/
theorem scanDownEqual_spec (t : TypeReflects) (a i : Nat) (hi : 1 ≤ i) :
    ∀ (fuel j : Nat),
      scanDownEqual t a fuel i j ≤ j
        ∧ (i ≤ j + 1 → i ≤ scanDownEqual t a fuel i j + 1)
        ∧ (j + 1 - i ≤ fuel → i ≤ scanDownEqual t a fuel i j →
            ul t (scanDownEqual t a fuel i j) ≤ ul t a) := by
  intro fuel
  induction fuel with
  | zero =>
    intro j
    simp only [scanDownEqual]
    exact ⟨le_refl j, fun h => h, fun h1 h2 => by omega⟩
  | succ fuel ih =>
    intro j
    unfold scanDownEqual
    by_cases hc : (decide (i ≤ j) && t.Less a j) = true
    · rw [if_pos hc]
      simp only [Bool.and_eq_true, decide_eq_true_eq, Less_eq] at hc
      obtain ⟨h1, h2, h3⟩ := ih (j - 1)
      exact ⟨by omega, fun _ => h2 (by omega), fun hf hr => h3 (by omega) hr⟩
    · rw [if_neg hc]
      simp only [Bool.and_eq_true, decide_eq_true_eq, Less_eq, not_and, not_lt] at hc
      exact ⟨le_refl j, fun h => h, fun _ hr => hc hr⟩

/-- The loop of `partitionEqual`, entered with the entries of `[a, i)` at most
the pivot at `a`, returns an index with the same property. -/
theorem partitionEqualLoop_spec (a b : Nat) (p : Int) :
    ∀ (fuel : Nat) (t : TypeReflects) (i j : Nat),
      a < i → i ≤ b → j < b → b ≤ t.length → ul t a = p →
      (∀ k, a ≤ k → k < i → ul t k ≤ p) →
      Within (a + 1) b t (partitionEqualLoop a fuel t i j).1
        ∧ a < (partitionEqualLoop a fuel t i j).2 ∧ (partitionEqualLoop a fuel t i j).2 ≤ b
        ∧ (∀ k, a ≤ k → k < (partitionEqualLoop a fuel t i j).2 →
            ul (partitionEqualLoop a fuel t i j).1 k ≤ p) := by
  intro fuel
  induction fuel with
  | zero =>
    intro t i j hai hij hjb hb hp hl
    simp only [partitionEqualLoop]
    exact ⟨Within.refl _ _ _, hai, by omega, hl⟩
  | succ fuel ih =>
    intro t i j hai hij hjb hb hp hl
    unfold partitionEqualLoop
    simp only []
    obtain ⟨u1, u2, u3⟩ := scanUpEqual_spec t a j (j + 1 - i) i
    generalize scanUpEqual t a (j + 1 - i) i j = i' at u1 u2 u3 ⊢
    obtain ⟨d1, d2, d4⟩ := scanDownEqual_spec t a i' (by omega) (j + 1 - i') j
    generalize scanDownEqual t a (j + 1 - i') i' j = j' at d1 d2 d4 ⊢
    have hl' : ∀ k, a ≤ k → k < i' → ul t k ≤ p := by
      intro k h1 h2
      by_cases hk : k < i
      · exact hl k h1 hk
      · rw [← hp]; exact u3 k (by omega) h2
    by_cases hgt : i' > j'
    · rw [if_pos hgt]
      exact ⟨Within.refl _ _ _, by omega, by omega, hl'⟩
    · rw [if_neg hgt]
      have hle : i' ≤ j' := by omega
      have hnj := d4 (le_refl _) hle
      have hi'l : i' < t.length := by omega
      have hj'l : j' < t.length := by omega
      have e1 : ul (t.Swap i' j') i' = ul t j' := ul_Swap_left t i' j' hi'l hj'l
      have e3 : ∀ k, k ≠ i' → k ≠ j' → ul (t.Swap i' j') k = ul t k :=
        fun k hk1 hk2 => ul_Swap_other t i' j' k hi'l hj'l hk1 hk2
      have hw : Within (a + 1) b t (t.Swap i' j') :=
        Within_Swap (a + 1) b t i' j' (by omega) (by omega) (by omega) (by omega) hb
      have hrec := ih (t.Swap i' j') (i' + 1) (j' - 1) (by omega) (by omega)
        (by omega) (by rw [length_Swap]; exact hb)
        (by rw [e3 a (by omega) (by omega)]; exact hp)
        (by
          intro k h1 h2
          by_cases hk : k = i'
          · subst hk; rw [e1, ← hp]; exact hnj
          · rw [e3 k hk (by omega)]
            exact hl' k h1 (by omega))
      exact ⟨hw.trans hrec.1, hrec.2⟩

/-- The routine `partitionEqual` on the range `[a, b)` with the pivot inside
it: limits move inside the range only, the returned index is past `a` and at
most `b`, and the entries before it are at most the pivot. -/
theorem partitionEqual_spec (t : TypeReflects) (a b pivot : Nat) (hap : a ≤ pivot)
    (hpb : pivot < b) (hb : b ≤ t.length) :
    Within a b t (partitionEqual t a b pivot).1
      ∧ a < (partitionEqual t a b pivot).2 ∧ (partitionEqual t a b pivot).2 ≤ b
      ∧ (∀ k, a ≤ k → k < (partitionEqual t a b pivot).2 →
          ul (partitionEqual t a b pivot).1 k ≤ ul t pivot) := by
  unfold partitionEqual
  have hw0 : Within a b t (t.Swap a pivot) :=
    Within_Swap a b t a pivot (le_refl a) (by omega) hap hpb hb
  have hlen0 : (t.Swap a pivot).length = t.length := length_Swap _ _ _
  have hpa : ul (t.Swap a pivot) a = ul t pivot :=
    ul_Swap_left t a pivot (by omega) (by omega)
  have hloop := partitionEqualLoop_spec a b (ul t pivot) (b - a + 1) (t.Swap a pivot)
    (a + 1) (b - 1) (by omega) (by omega) (by omega) (by rw [hlen0]; exact hb) hpa
    (by
      intro k h1 h2
      have : k = a := by omega
      subst this
      rw [hpa])
  exact ⟨hw0.trans (hloop.1.mono (by omega) (le_refl b)), hloop.2⟩

/-- Sortedness of a range depends on the limits in the range only. -/
theorem SortedOn.congr {t t' : TypeReflects} {a b : Nat} (h : SortedOn t a b)
    (e : ∀ k, a ≤ k → k < b → ul t' k = ul t k) : SortedOn t' a b := by
  intro p q hp hpq hq
  rw [e p hp (by omega), e q (by omega) hq]
  exact h p q hp hpq hq

/-- A range every entry of which is at least the entry before it is sorted. -/
theorem SortedOn_of_adjacent (t : TypeReflects) (a b : Nat)
    (h : ∀ k, a < k → k < b → ul t (k - 1) ≤ ul t k) : SortedOn t a b := by
  intro p q hp hpq hq
  induction q with
  | zero =>
    have : p = 0 := by omega
    subst this
    exact le_refl _
  | succ q ih =>
    by_cases hpq' : p = q + 1
    · subst hpq'; exact le_refl _
    · have h1 := ih (by omega) (by omega)
      have h2 := h (q + 1) (by omega) hq
      simp only [Nat.add_sub_cancel] at h2
      omega

/-- A sorted range followed by entries each at least the one before it is
sorted. -/
theorem SortedOn.extend {t : TypeReflects} {a i r : Nat} (h : SortedOn t a i)
    (hadj : ∀ k, i ≤ k → k < r → ul t (k - 1) ≤ ul t k) : SortedOn t a r := by
  apply SortedOn_of_adjacent
  intro k h1 h2
  by_cases hk : k < i
  · exact h (k - 1) k (by omega) (by omega) hk
  · exact hadj k (by omega) h2

/-- The scan of `partialInsertionSort` passes only entries that are at least the entry before them. -/
theorem scanSorted_spec (t : TypeReflects) (b : Nat) :
    ∀ (fuel i : Nat),
      i ≤ scanSorted t b fuel i
        ∧ (i ≤ b → scanSorted t b fuel i ≤ b)
        ∧ (∀ k, i ≤ k → k < scanSorted t b fuel i → ul t (k - 1) ≤ ul t k) := by
  intro fuel
  induction fuel with
  | zero =>
    intro i
    simp only [scanSorted]
    exact ⟨le_refl i, fun h => h, fun k h1 h2 => by omega⟩
  | succ fuel ih =>
    intro i
    unfold scanSorted
    by_cases hc : (decide (i < b) && !t.Less i (i - 1)) = true
    · rw [if_pos hc]
      simp only [Bool.and_eq_true, decide_eq_true_eq, Less_eq, Bool.not_eq_true',
        decide_eq_false_iff_not, not_lt] at hc
      obtain ⟨h1, h2, h3⟩ := ih (i + 1)
      refine ⟨by omega, fun _ => h2 (by omega), ?_⟩
      intro k hk1 hk2
      by_cases hki : k = i
      · subst hki; exact hc.2
      · exact h3 k (by omega) hk2
    · rw [if_neg hc]
      exact ⟨le_refl i, fun h => h, fun k h1 h2 => by omega⟩

/-- The loop that shifts to the left down to index 1 is the inner loop of the
insertion sort on `[a, ..)` when the entry before `a` is at most every entry
of the range passed. -/
theorem shiftLeft_eq (a : Nat) :
    ∀ (j : Nat) (t : TypeReflects), a ≤ j → j < t.length →
      (0 < a → ∀ k, a ≤ k → k ≤ j → ul t (a - 1) ≤ ul t k) →
      shiftLeft t j = insertionInner t a j := by
  intro j
  induction j with
  | zero => intro t _ _ _; rfl
  | succ j ih =>
    intro t haj hj hpre
    unfold shiftLeft insertionInner
    by_cases hja : j + 1 > a
    · by_cases hl : t.Less (j + 1) j = true
      · have hc : (decide (j + 1 > a) && t.Less (j + 1) j) = true := by simp [hja, hl]
        rw [if_pos hc]
        simp only [hl, Bool.not_true, Bool.false_eq_true, if_false]
        apply ih
        · omega
        · rw [length_Swap]; omega
        · intro ha k hk1 hk2
          have hjl : j < t.length := by omega
          rw [ul_Swap_other t (j + 1) j (a - 1) hj hjl (by omega) (by omega)]
          by_cases hkj : k = j
          · subst hkj
            rw [ul_Swap_right t (k + 1) k hj hjl]
            exact hpre ha (k + 1) (by omega) (le_refl _)
          · rw [ul_Swap_other t (j + 1) j k hj hjl (by omega) hkj]
            exact hpre ha k hk1 (by omega)
      · have hc : ¬ (decide (j + 1 > a) && t.Less (j + 1) j) = true := by simp [hl]
        rw [if_neg hc]
        simp [hl]
    · have hc : ¬ (decide (j + 1 > a) && t.Less (j + 1) j) = true := by simp [hja]
      rw [if_neg hc]
      have ha : a = j + 1 := by omega
      have hle := hpre (by omega) (j + 1) (by omega) (le_refl _)
      have hl : t.Less (j + 1) j = false := by
        rw [Less_eq]
        simp only [decide_eq_false_iff_not, not_lt]
        rw [ha] at hle
        simpa using hle
      simp [hl]

/-- The loop that shifts to the right from `j` moves limits inside `[j - 1, b)`
only. -/
theorem shiftRight_within (b : Nat) :
    ∀ (fuel : Nat) (t : TypeReflects) (j : Nat), 1 ≤ j → b ≤ t.length →
      Within (j - 1) b t (shiftRight b fuel t j) := by
  intro fuel
  induction fuel with
  | zero => intro t j _ _; exact Within.refl _ _ _
  | succ fuel ih =>
    intro t j hj hb
    unfold shiftRight
    by_cases hjb : j < b
    · rw [if_pos hjb]
      split_ifs
      · exact Within.refl _ _ _
      · have hw := Within_Swap (j - 1) b t j (j - 1) (by omega) hjb (le_refl _) (by omega) hb
        have hr := ih (t.Swap j (j - 1)) (j + 1) (by omega) (by rw [length_Swap]; exact hb)
        exact hw.trans (hr.mono (by omega) (le_refl b))
    · rw [if_neg hjb]
      exact Within.refl _ _ _

/-- The loop of `partialInsertionSort`, entered at `i` with `[a, i)` sorted:
limits move inside the range only, and the range is sorted when the result is
`true`. -/
theorem partialInsertionSteps_spec (a b : Nat) :
    ∀ (steps : Nat) (t : TypeReflects) (i : Nat), a < i → i ≤ b → b ≤ t.length →
      SortedOn t a i → (0 < a → ∀ k, a ≤ k → k < b → ul t (a - 1) ≤ ul t k) →
      Within a b t (partialInsertionSteps a b steps t i).1
        ∧ ((partialInsertionSteps a b steps t i).2 = true →
            SortedOn (partialInsertionSteps a b steps t i).1 a b) := by
  intro steps
  induction steps with
  | zero =>
    intro t i _ _ _ _ _
    simp only [partialInsertionSteps]
    exact ⟨Within.refl _ _ _, fun h => by simp at h⟩
  | succ steps ih =>
    intro t i hai hib hb hs hpre
    unfold partialInsertionSteps
    simp only []
    obtain ⟨s1, s2, s3⟩ := scanSorted_spec t b (b - i) i
    generalize scanSorted t b (b - i) i = i' at s1 s2 s3 ⊢
    have s2' := s2 hib
    have hs' : SortedOn t a i' := hs.extend s3
    by_cases he : i' = b
    · rw [if_pos he]
      subst he
      exact ⟨Within.refl _ _ _, fun _ => hs'⟩
    · rw [if_neg he]
      by_cases h50 : b - a < 50
      · rw [if_pos h50]
        exact ⟨Within.refl _ _ _, fun h => by simp at h⟩
      · rw [if_neg h50]
        have hi'b : i' < b := by omega
        have hi'l : i' < t.length := by omega
        have hi'1l : i' - 1 < t.length := by omega
        -- the swap
        have hw1 : Within a b t (t.Swap i' (i' - 1)) :=
          Within_Swap a b t i' (i' - 1) (by omega) hi'b (by omega) (by omega) hb
        have hl1 : (t.Swap i' (i' - 1)).length = t.length := length_Swap _ _ _
        have hpre1 : 0 < a → ∀ k, a ≤ k → k < b →
            ul (t.Swap i' (i' - 1)) (a - 1) ≤ ul (t.Swap i' (i' - 1)) k := by
          intro ha k hk1 hk2
          rw [hw1.2.1 (a - 1) (by omega)]
          exact hw1.lower _ (hpre ha) k hk1 hk2
        -- the shift to the left
        have hleft : Within a b (t.Swap i' (i' - 1))
              (if i' - a ≥ 2 then shiftLeft (t.Swap i' (i' - 1)) (i' - 1)
                else t.Swap i' (i' - 1))
            ∧ SortedOn (if i' - a ≥ 2 then shiftLeft (t.Swap i' (i' - 1)) (i' - 1)
                else t.Swap i' (i' - 1)) a i' := by
          by_cases h2 : i' - a ≥ 2
          · rw [if_pos h2]
            rw [shiftLeft_eq a (i' - 1) (t.Swap i' (i' - 1)) (by omega) (by rw [hl1]; omega)
              (fun ha k hk1 hk2 => hpre1 ha k hk1 (by omega))]
            have hin := insertionInner_spec a (i' - 1) (i' - 1) (t.Swap i' (i' - 1)) (by omega)
              (le_refl _) (by rw [hl1]; omega)
              (by
                have hsm : SortedOn t a (i' - 1) :=
                  fun p q hp hpq hq => hs' p q hp hpq (by omega)
                exact hsm.congr (fun k hk1 hk2 =>
                  ul_Swap_other t i' (i' - 1) k hi'l hi'1l (by omega) (by omega)))
              (by
                intro p q hp hpq hq
                have : p = q := by omega
                subst this
                exact le_refl _)
              (by intro p q _ h1 h2 h3; omega)
            have e : i' - 1 + 1 = i' := by omega
            rw [e] at hin
            exact ⟨hin.1.mono (le_refl a) (by omega), hin.2⟩
          · rw [if_neg h2]
            refine ⟨Within.refl _ _ _, ?_⟩
            intro p q hp hpq hq
            have : p = q := by omega
            subst this
            exact le_refl _
        generalize (if i' - a ≥ 2 then shiftLeft (t.Swap i' (i' - 1)) (i' - 1)
          else t.Swap i' (i' - 1)) = t2 at hleft ⊢
        obtain ⟨hw2, hs2⟩ := hleft
        have hl2 : t2.length = t.length := by rw [hw2.1, hl1]
        -- the shift to the right
        have hright : Within i' b t2
            (if b - i' ≥ 2 then shiftRight b (b - (i' + 1)) t2 (i' + 1) else t2) := by
          split_ifs
          · have := shiftRight_within b (b - (i' + 1)) t2 (i' + 1) (by omega)
              (by rw [hl2]; exact hb)
            simpa using this
          · exact Within.refl _ _ _
        generalize (if b - i' ≥ 2 then shiftRight b (b - (i' + 1)) t2 (i' + 1) else t2) = t3
          at hright ⊢
        have hw3 : Within a b t t3 :=
          hw1.trans (hw2.trans (hright.mono (by omega) (le_refl b)))
        have hs3 : SortedOn t3 a i' :=
          hs2.congr (fun k _ hk2 => hright.2.1 k (Or.inl hk2))
        have hpre3 : 0 < a → ∀ k, a ≤ k → k < b → ul t3 (a - 1) ≤ ul t3 k := by
          intro ha k hk1 hk2
          rw [hw3.2.1 (a - 1) (by omega)]
          exact hw3.lower _ (hpre ha) k hk1 hk2
        have hrec := ih t3 i' (by omega) s2' (by rw [hw3.1]; exact hb) hs3 hpre3
        exact ⟨hw3.trans hrec.1, hrec.2⟩

/-- The routine `partialInsertionSort` on a non-empty range `[a, b)` whose
entries are at least the entry before `a`: limits move inside the range only,
and the range is sorted when the result is `true`. -/
theorem partialInsertionSort_spec (t : TypeReflects) (a b : Nat) (hab : a < b)
    (hb : b ≤ t.length) (hpre : 0 < a → ∀ k, a ≤ k → k < b → ul t (a - 1) ≤ ul t k) :
    Within a b t (partialInsertionSort t a b).1
      ∧ ((partialInsertionSort t a b).2 = true → SortedOn (partialInsertionSort t a b).1 a b) := by
  unfold partialInsertionSort
  apply partialInsertionSteps_spec a b 5 t (a + 1) (by omega) (by omega) hb _ hpre
  intro p q hp hpq hq
  have : p = q := by omega
  subst this
  exact le_refl _

/-- The routine `siftDown` at `root`: when every node from `lo` on other than
`root` is at least its children, and the parent of `root` is at least the
children of `root`, every node from `lo` on is at least its children
afterwards. -/
theorem siftDown_spec (first hi lo : Nat) :
    ∀ (fuel : Nat) (t : TypeReflects) (root : Nat), lo ≤ root → hi ≤ root + fuel →
      first + hi ≤ t.length →
      (∀ r, lo ≤ r → r < hi → r ≠ root → HeapNode first hi t r) →
      (∀ r, lo ≤ r → root = 2 * r + 1 ∨ root = 2 * r + 2 →
        ∀ c, c = 2 * root + 1 ∨ c = 2 * root + 2 → c < hi →
          ul t (first + c) ≤ ul t (first + r)) →
      Within (first + lo) (first + hi) t (siftDown first hi fuel t root)
        ∧ ∀ r, lo ≤ r → r < hi → HeapNode first hi (siftDown first hi fuel t root) r := by
  intro fuel
  induction fuel with
  | zero =>
    intro t root _ hf _ h1 _
    simp only [siftDown]
    exact ⟨Within.refl _ _ _, fun r hr1 hr2 => h1 r hr1 hr2 (by omega)⟩
  | succ fuel ih =>
    intro t root hlo hf hlen h1 h2
    unfold siftDown
    simp only []
    by_cases hleaf : 2 * root + 1 ≥ hi
    · rw [if_pos hleaf]
      refine ⟨Within.refl _ _ _, ?_⟩
      intro r hr1 hr2
      by_cases hr : r = root
      · subst hr
        intro c hc hch
        omega
      · exact h1 r hr1 hr2 hr
    · rw [if_neg hleaf]
      have hc0 : 2 * root + 1 < hi := by omega
      -- the greater child
      have hcs : ∃ cs, (if (decide (2 * root + 1 + 1 < hi)
            && t.Less (first + (2 * root + 1)) (first + (2 * root + 1) + 1)) = true
          then 2 * root + 1 + 1 else 2 * root + 1) = cs
          ∧ (cs = 2 * root + 1 ∨ cs = 2 * root + 2) ∧ cs < hi
          ∧ ul t (first + (2 * root + 1)) ≤ ul t (first + cs)
          ∧ (2 * root + 2 < hi → ul t (first + (2 * root + 2)) ≤ ul t (first + cs)) := by
        by_cases hc : (decide (2 * root + 1 + 1 < hi)
            && t.Less (first + (2 * root + 1)) (first + (2 * root + 1) + 1)) = true
        · rw [if_pos hc]
          simp only [Bool.and_eq_true, decide_eq_true_eq, Less_eq] at hc
          refine ⟨2 * root + 1 + 1, rfl, Or.inr rfl, hc.1, ?_, fun _ => le_refl _⟩
          have := hc.2
          have e : first + (2 * root + 1) + 1 = first + (2 * root + 1 + 1) := by omega
          rw [e] at this
          exact le_of_lt this
        · rw [if_neg hc]
          simp only [Bool.and_eq_true, decide_eq_true_eq, Less_eq, not_and, not_lt] at hc
          refine ⟨2 * root + 1, rfl, Or.inl rfl, hc0, le_refl _, ?_⟩
          intro h22
          have := hc (by omega)
          have e : first + (2 * root + 1) + 1 = first + (2 * root + 2) := by omega
          rw [e] at this
          exact this
      obtain ⟨cs, ecs, hcs1, hcs2, hcs3, hcs4⟩ := hcs
      rw [ecs]
      by_cases hless : t.Less (first + root) (first + cs) = true
      · simp only [hless, Bool.not_true, Bool.false_eq_true, if_false]
        rw [Less_eq] at hless
        simp only [decide_eq_true_eq] at hless
        have hrl : first + root < t.length := by omega
        have hcl : first + cs < t.length := by omega
        have e1 : ul (t.Swap (first + root) (first + cs)) (first + root) = ul t (first + cs) :=
          ul_Swap_left t _ _ hrl hcl
        have e2 : ul (t.Swap (first + root) (first + cs)) (first + cs) = ul t (first + root) :=
          ul_Swap_right t _ _ hrl hcl
        have e3 : ∀ k, k ≠ root → k ≠ cs →
            ul (t.Swap (first + root) (first + cs)) (first + k) = ul t (first + k) :=
          fun k hk1 hk2 => ul_Swap_other t _ _ _ hrl hcl (by omega) (by omega)
        have hw : Within (first + lo) (first + hi) t (t.Swap (first + root) (first + cs)) :=
          Within_Swap _ _ t _ _ (by omega) (by omega) (by omega) (by omega) hlen
        have hrec := ih (t.Swap (first + root) (first + cs)) cs (by omega) (by omega)
          (by rw [length_Swap]; exact hlen)
          (by
            intro r hr1 hr2 hr3 c hc hch
            by_cases hrr : r = root
            · subst hrr
              rw [e1]
              by_cases hccs : c = cs
              · subst hccs
                rw [e2]
                exact le_of_lt hless
              · rw [e3 c (by omega) hccs]
                rcases hc with hc | hc
                · subst hc; exact hcs3
                · subst hc; exact hcs4 hch
            · by_cases hcr : c = root
              · -- r is the parent of root
                subst hcr
                rw [e1, e3 r hrr hr3]
                exact h2 r hr1 hc cs hcs1 hcs2
              · have hccs : c ≠ cs := by omega
                rw [e3 c hcr hccs, e3 r hrr hr3]
                exact h1 r hr1 hr2 hrr c hc hch)
          (by
            intro r hr1 hr c hc hch
            have hrr : r = root := by omega
            subst hrr
            rw [e1, e3 c (by omega) (by omega)]
            exact h1 cs (by omega) hcs2 (by omega) c hc hch)
        exact ⟨hw.trans hrec.1, hrec.2⟩
      · simp only [hless, Bool.not_false, if_true]
        rw [Less_eq] at hless
        simp only [decide_eq_true_eq, not_lt] at hless
        refine ⟨Within.refl _ _ _, ?_⟩
        intro r hr1 hr2
        by_cases hr : r = root
        · subst hr
          intro c hc hch
          rcases hc with hc | hc
          · subst hc; omega
          · subst hc
            have := hcs4 hch
            omega
        · exact h1 r hr1 hr2 hr

/-- The first loop of `heapSort` makes every node at least its children. -/
theorem heapBuild_spec (first hi : Nat) :
    ∀ (n : Nat) (t : TypeReflects), first + hi ≤ t.length →
      (∀ r, n ≤ r → r < hi → HeapNode first hi t r) →
      Within first (first + hi) t (heapBuild first hi t n)
        ∧ ∀ r, r < hi → HeapNode first hi (heapBuild first hi t n) r := by
  intro n
  induction n with
  | zero =>
    intro t _ h
    simp only [heapBuild]
    exact ⟨Within.refl _ _ _, fun r hr => h r (by omega) hr⟩
  | succ i ih =>
    intro t hlen h
    unfold heapBuild
    have hs := siftDown_spec first hi i hi t i (le_refl i) (by omega) hlen
      (fun r hr1 hr2 hr3 => h r (by omega) hr2)
      (fun r hr1 hr2 => by omega)
    have hrec := ih (siftDown first hi hi t i) (by rw [hs.1.1]; exact hlen) hs.2
    exact ⟨(hs.1.mono (by omega) (le_refl _)).trans hrec.1, hrec.2⟩

/-- In a heap the root is at least every node. -/
theorem heap_root_max (first n : Nat) (t : TypeReflects)
    (h : ∀ r, r < n → HeapNode first n t r) :
    ∀ r, r < n → ul t (first + r) ≤ ul t (first + 0) := by
  intro r
  induction r using Nat.strong_induction_on with
  | _ r ih =>
    intro hr
    by_cases h0 : r = 0
    · subst h0; exact le_refl _
    · have hq : (r - 1) / 2 < r := by omega
      have h1 := ih ((r - 1) / 2) hq (by omega)
      have h2 := h ((r - 1) / 2) (by omega) r (by omega) hr
      omega

/-- The second loop of `heapSort`, entered with a heap of `n` entries followed
by a sorted tail of greater entries, leaves the whole range sorted. -/
theorem heapPop_spec (first hi : Nat) :
    ∀ (n : Nat) (t : TypeReflects), n ≤ hi → first + hi ≤ t.length →
      (∀ r, r < n → HeapNode first n t r) →
      SortedOn t (first + n) (first + hi) →
      (∀ p q, first ≤ p → p < first + n → first + n ≤ q → q < first + hi → ul t p ≤ ul t q) →
      Within first (first + hi) t (heapPop first t n)
        ∧ SortedOn (heapPop first t n) first (first + hi) := by
  intro n
  induction n with
  | zero =>
    intro t _ _ _ hs _
    simp only [heapPop]
    exact ⟨Within.refl _ _ _, by simpa using hs⟩
  | succ i ih =>
    intro t hn hlen hheap hs hb
    unfold heapPop
    have hfl : first < t.length := by omega
    have hil : first + i < t.length := by omega
    have e1 : ul (t.Swap first (first + i)) first = ul t (first + i) :=
      ul_Swap_left t _ _ hfl hil
    have e2 : ul (t.Swap first (first + i)) (first + i) = ul t first :=
      ul_Swap_right t _ _ hfl hil
    have e3 : ∀ k, k ≠ first → k ≠ first + i → ul (t.Swap first (first + i)) k = ul t k :=
      fun k hk1 hk2 => ul_Swap_other t _ _ _ hfl hil hk1 hk2
    have hmax : ∀ r, r < i + 1 → ul t (first + r) ≤ ul t first := by
      intro r hr
      have := heap_root_max first (i + 1) t hheap r hr
      simpa using this
    have hw1 : Within first (first + hi) t (t.Swap first (first + i)) :=
      Within_Swap _ _ t _ _ (le_refl _) (by omega) (by omega) (by omega) hlen
    have hl1 : (t.Swap first (first + i)).length = t.length := length_Swap _ _ _
    have hsift := siftDown_spec first i 0 i (t.Swap first (first + i)) 0 (le_refl 0)
      (by omega) (by rw [hl1]; omega)
      (by
        intro r _ hr2 hr3 c hc hch
        rw [e3 (first + c) (by omega) (by omega), e3 (first + r) (by omega) (by omega)]
        exact hheap r (by omega) c hc (by omega))
      (fun r _ hr => by omega)
    generalize siftDown first i i (t.Swap first (first + i)) 0 = t2 at hsift ⊢
    obtain ⟨hw2, hheap2⟩ := hsift
    simp only [Nat.add_zero] at hw2
    have hl2 : t2.length = t.length := by rw [hw2.1, hl1]
    have hout : ∀ k, first + i ≤ k → ul t2 k = ul (t.Swap first (first + i)) k :=
      fun k hk => hw2.2.1 k (Or.inr hk)
    have hrec := ih t2 (by omega) (by rw [hl2]; exact hlen)
      (fun r hr => hheap2 r (Nat.zero_le r) hr)
      (by
        intro p q hp hpq hq
        rw [hout p hp, hout q (by omega)]
        by_cases hpi : p = first + i
        · subst hpi
          rw [e2]
          by_cases hqi : q = first + i
          · subst hqi; rw [e2]
          · rw [e3 q (by omega) hqi]
            exact hb first q (le_refl _) (by omega) (by omega) hq
        · rw [e3 p (by omega) hpi, e3 q (by omega) (by omega)]
          exact hs p q (by omega) hpq hq)
      (by
        intro p q hp1 hp2 hq1 hq2
        obtain ⟨p', hp'1, hp'2, ep⟩ := hw2.2.2 p hp1 hp2
        rw [ep, hout q hq1]
        have hle : ul (t.Swap first (first + i)) p' ≤ ul t first := by
          by_cases hpf : p' = first
          · subst hpf
            rw [e1]
            exact hmax i (by omega)
          · rw [e3 p' hpf (by omega)]
            have := hmax (p' - first) (by omega)
            have e : first + (p' - first) = p' := by omega
            rw [e] at this
            exact this
        have hge : ul t first ≤ ul (t.Swap first (first + i)) q := by
          by_cases hqi : q = first + i
          · subst hqi; rw [e2]
          · rw [e3 q (by omega) hqi]
            exact hb first q (le_refl _) (by omega) (by omega) hq2
        omega)
    exact ⟨hw1.trans ((hw2.mono (le_refl _) (by omega)).trans hrec.1), hrec.2⟩

/-- The routine `heapSort` leaves the limits of `[a, b)` in ascending order and
moves limits inside that range only. -/
theorem heapSort_spec (t : TypeReflects) (a b : Nat) (hab : a ≤ b) (hb : b ≤ t.length) :
    Within a b t (heapSort t a b) ∧ SortedOn (heapSort t a b) a b := by
  unfold heapSort
  simp only []
  have e : a + (b - a) = b := by omega
  have hbuild := heapBuild_spec a (b - a) ((b - a - 1) / 2 + 1) t (by omega)
    (by
      intro r hr1 hr2 c hc hch
      omega)
  generalize heapBuild a (b - a) t ((b - a - 1) / 2 + 1) = t1 at hbuild ⊢
  obtain ⟨hw1, hheap⟩ := hbuild
  have hpop := heapPop_spec a (b - a) (b - a) t1 (le_refl _) (by rw [hw1.1]; omega) hheap
    (by intro p q hp hpq hq; omega)
    (by intro p q _ _ hq1 hq2; omega)
  rw [e] at hw1 hpop
  exact ⟨hw1.trans hpop.1, hpop.2⟩

/-- Two sorted ranges around an index whose entry is between them make one
sorted range. -/
theorem SortedOn_join (t : TypeReflects) (a m b : Nat) (p : Int) (hm : ul t m = p)
    (hl : ∀ k, a ≤ k → k < m → ul t k ≤ p) (hr : ∀ k, m < k → k < b → p ≤ ul t k)
    (hsl : SortedOn t a m) (hsr : SortedOn t (m + 1) b) : SortedOn t a b := by
  intro i j hi hij hj
  by_cases h1 : j < m
  · exact hsl i j hi hij h1
  · by_cases h2 : m < i
    · exact hsr i j (by omega) hij hj
    · by_cases h3 : i = m
      · subst h3
        by_cases h4 : j = i
        · subst h4; exact le_refl _
        · rw [hm]; exact hr j (by omega) hj
      · have hli := hl i hi (by omega)
        by_cases h4 : j = m
        · subst h4; rw [hm]; exact hli
        · have := hr j (by omega) hj
          omega

/-- Moving limits inside a range keeps the entry before the range at most every entry of the range. -/
theorem BoundedBelow.within {t t' : TypeReflects} {a b : Nat} (h : BoundedBelow t a b)
    (hw : Within a b t t') : BoundedBelow t' a b := by
  intro ha k hk1 hk2
  rw [hw.2.1 (a - 1) (by omega)]
  exact hw.lower _ (h ha) k hk1 hk2

/-- The routine `pdqsort` on the range `[a, b)` whose entries are at least the
entry before `a`, with fuel above the length of the range: limits move inside
the range only and the range is left sorted, whatever the generator gives. -/
theorem pdqsort_spec (next : Nat → Nat) :
    ∀ (fuel : Nat) (t : TypeReflects) (a b limit : Nat) (wasBalanced wasPartitioned : Bool),
      a ≤ b → b ≤ t.length → b - a < fuel → BoundedBelow t a b →
      Within a b t (pdqsort next fuel t a b limit wasBalanced wasPartitioned)
        ∧ SortedOn (pdqsort next fuel t a b limit wasBalanced wasPartitioned) a b := by
  intro fuel
  induction fuel with
  | zero => intro t a b limit wb wp _ _ hf _; omega
  | succ fuel ih =>
    intro t a b limit wasBalanced wasPartitioned hab hb hf hpre
    unfold pdqsort
    simp only []
    by_cases h12 : b - a ≤ 12
    · rw [if_pos h12]
      exact insertionSort_spec t a b hb
    rw [if_neg h12]
    by_cases hlim : limit = 0
    · rw [if_pos hlim]
      exact heapSort_spec t a b hab hb
    rw [if_neg hlim]
    -- breakPatterns
    have hw1 : Within a b t (if (!wasBalanced) = true then breakPatterns next t a b else t) := by
      split_ifs
      · exact breakPatterns_within next t a b hab hb
      · exact Within.refl _ _ _
    generalize (if (!wasBalanced) = true then breakPatterns next t a b else t) = t1 at hw1 ⊢
    generalize (if (!wasBalanced) = true then limit - 1 else limit) = limit1
    have hl1 : t1.length = t.length := hw1.1
    -- choosePivot
    have hpiv := choosePivot_mem t1 a b (by omega)
    generalize choosePivot t1 a b = ph at hpiv ⊢
    -- reverseRange
    have hw2 : Within a b t1
        (if ph.2 = sortedHint.decreasingHint then reverseRange t1 a b else t1) := by
      split_ifs
      · exact reverseRange_within t1 a b (by omega) (by rw [hl1]; exact hb)
      · exact Within.refl _ _ _
    generalize (if ph.2 = sortedHint.decreasingHint then reverseRange t1 a b else t1) = t2
      at hw2 ⊢
    have hpivot : a ≤ (if ph.2 = sortedHint.decreasingHint then b - 1 - (ph.1 - a) else ph.1)
        ∧ (if ph.2 = sortedHint.decreasingHint then b - 1 - (ph.1 - a) else ph.1) < b := by
      split_ifs <;> omega
    generalize (if ph.2 = sortedHint.decreasingHint then b - 1 - (ph.1 - a) else ph.1) = pivot
      at hpivot ⊢
    generalize (if ph.2 = sortedHint.decreasingHint then sortedHint.increasingHint else ph.2)
      = hint
    have hw12 : Within a b t t2 := hw1.trans hw2
    have hl2 : t2.length = t.length := hw12.1
    have hpre2 : BoundedBelow t2 a b := hpre.within hw12
    -- partialInsertionSort
    have hpis : Within a b t2
          (if (wasBalanced && wasPartitioned && decide (hint = sortedHint.increasingHint)) = true
            then partialInsertionSort t2 a b else (t2, false)).1
        ∧ ((if (wasBalanced && wasPartitioned && decide (hint = sortedHint.increasingHint)) = true
            then partialInsertionSort t2 a b else (t2, false)).2 = true →
          SortedOn (if (wasBalanced && wasPartitioned
              && decide (hint = sortedHint.increasingHint)) = true
            then partialInsertionSort t2 a b else (t2, false)).1 a b) := by
      split_ifs
      · exact partialInsertionSort_spec t2 a b (by omega) (by rw [hl2]; exact hb) hpre2
      · exact ⟨Within.refl _ _ _, fun h => by simp at h⟩
    generalize (if (wasBalanced && wasPartitioned
        && decide (hint = sortedHint.increasingHint)) = true
      then partialInsertionSort t2 a b else (t2, false)) = pis at hpis ⊢
    obtain ⟨hw3, hsorted3⟩ := hpis
    by_cases hdone : pis.2 = true
    · rw [if_pos hdone]
      exact ⟨hw12.trans hw3, hsorted3 hdone⟩
    rw [if_neg hdone]
    have hw13 : Within a b t pis.1 := hw12.trans hw3
    have hl3 : pis.1.length = t.length := hw13.1
    have hpre3 : BoundedBelow pis.1 a b := hpre.within hw13
    generalize pis.1 = t3 at hw13 hl3 hpre3 ⊢
    by_cases heq : (decide (a > 0) && !t3.Less (a - 1) pivot) = true
    · -- partitionEqual
      rw [if_pos heq]
      simp only [Bool.and_eq_true, decide_eq_true_eq, Less_eq, Bool.not_eq_true',
        decide_eq_false_iff_not, not_lt] at heq
      obtain ⟨ha0, hple⟩ := heq
      obtain ⟨hw4, hm1, hm2, hleft⟩ :=
        partitionEqual_spec t3 a b pivot hpivot.1 hpivot.2 (by rw [hl3]; exact hb)
      generalize partitionEqual t3 a b pivot = r at hw4 hm1 hm2 hleft ⊢
      have hl4 : r.1.length = t.length := by rw [hw4.1, hl3]
      have hpre4 : BoundedBelow r.1 a b := hpre3.within hw4
      have ha1 : ul r.1 (a - 1) = ul t3 (a - 1) := hw4.2.1 (a - 1) (by omega)
      have hlow : ∀ k, a ≤ k → k < b → ul t3 pivot ≤ ul r.1 k := by
        intro k hk1 hk2
        have := hpre4 ha0 k hk1 hk2
        omega
      have hrec := ih r.1 r.2 b limit1 wasBalanced wasPartitioned hm2 (by rw [hl4]; exact hb)
        (by omega)
        (by
          intro _ k hk1 hk2
          have h1 := hleft (r.2 - 1) (by omega) (by omega)
          have h2 := hlow k (by omega) hk2
          omega)
      generalize pdqsort next fuel r.1 r.2 b limit1 wasBalanced wasPartitioned = t5 at hrec ⊢
      obtain ⟨hw5, hs5⟩ := hrec
      refine ⟨hw13.trans (hw4.trans (hw5.mono (by omega) (le_refl b))), ?_⟩
      have hout : ∀ k, k < r.2 → ul t5 k = ul r.1 k := fun k hk => hw5.2.1 k (Or.inl hk)
      have hlow5 : ∀ k, r.2 ≤ k → k < b → ul t3 pivot ≤ ul t5 k :=
        hw5.lower _ (fun k hk1 hk2 => hlow k (by omega) hk2)
      intro i j hi hij hj
      by_cases hj2 : j < r.2
      · rw [hout i (by omega), hout j hj2]
        have h1 := hleft i hi (by omega)
        have h2 := hlow i hi (by omega)
        have h3 := hleft j (by omega) hj2
        have h4 := hlow j (by omega) hj
        omega
      · by_cases hi2 : r.2 ≤ i
        · exact hs5 i j hi2 hij hj
        · rw [hout i (by omega)]
          have h1 := hleft i hi (by omega)
          have h2 := hlow5 j (by omega) hj
          omega
    · -- partition
      rw [if_neg heq]
      obtain ⟨hw4, hm1, hm2, hleft, hright⟩ :=
        partition_spec t3 a b pivot hpivot.1 hpivot.2 (by rw [hl3]; exact hb)
      generalize partition t3 a b pivot = r at hw4 hm1 hm2 hleft hright ⊢
      have hl4 : r.1.length = t.length := by rw [hw4.1, hl3]
      have hpre4 : BoundedBelow r.1 a b := hpre3.within hw4
      have hw14 : Within a b t r.1 := hw13.trans hw4
      by_cases hside : r.2.1 - a < b - r.2.1
      · rw [if_pos hside]
        have hrec1 := ih r.1 a r.2.1 limit1 true true hm1 (by rw [hl4]; omega) (by omega)
          (fun ha k hk1 hk2 => hpre4 ha k hk1 (by omega))
        generalize pdqsort next fuel r.1 a r.2.1 limit1 true true = t5 at hrec1 ⊢
        obtain ⟨hw5, hs5⟩ := hrec1
        have hl5 : t5.length = t.length := by rw [hw5.1, hl4]
        have hout5 : ∀ k, r.2.1 ≤ k → ul t5 k = ul r.1 k := fun k hk => hw5.2.1 k (Or.inr hk)
        have hrec2 := ih t5 (r.2.1 + 1) b limit1 (decide (r.2.1 - a ≥ (b - a) / 8)) r.2.2
          (by omega) (by rw [hl5]; exact hb) (by omega)
          (by
            intro _ k hk1 hk2
            simp only [Nat.add_sub_cancel]
            rw [hout5 r.2.1 (le_refl _), hout5 k (by omega)]
            exact hright k (by omega) hk2)
        generalize pdqsort next fuel t5 (r.2.1 + 1) b limit1 (decide (r.2.1 - a ≥ (b - a) / 8)) r.2.2
          = t6 at hrec2 ⊢
        obtain ⟨hw6, hs6⟩ := hrec2
        have hout6 : ∀ k, k < r.2.1 + 1 → ul t6 k = ul t5 k := fun k hk => hw6.2.1 k (Or.inl hk)
        refine ⟨hw14.trans ((hw5.mono (le_refl a) (by omega)).trans
          (hw6.mono (by omega) (le_refl b))), ?_⟩
        apply SortedOn_join t6 a r.2.1 b (ul r.1 r.2.1)
        · rw [hout6 r.2.1 (by omega), hout5 r.2.1 (le_refl _)]
        · intro k hk1 hk2
          rw [hout6 k (by omega)]
          exact hw5.upper _ (fun k hk1 hk2 => hleft k hk1 hk2) k hk1 hk2
        · intro k hk1 hk2
          exact hw6.lower _ (fun k hk1 hk2 => by
            rw [hout5 k (by omega)]
            exact hright k (by omega) hk2) k (by omega) hk2
        · exact hs5.congr (fun k hk1 hk2 => hout6 k (by omega))
        · exact hs6
      · rw [if_neg hside]
        have hrec1 := ih r.1 (r.2.1 + 1) b limit1 true true (by omega) (by rw [hl4]; exact hb)
          (by omega)
          (by
            intro _ k hk1 hk2
            simp only [Nat.add_sub_cancel]
            exact hright k (by omega) hk2)
        generalize pdqsort next fuel r.1 (r.2.1 + 1) b limit1 true true = t5 at hrec1 ⊢
        obtain ⟨hw5, hs5⟩ := hrec1
        have hl5 : t5.length = t.length := by rw [hw5.1, hl4]
        have hout5 : ∀ k, k < r.2.1 + 1 → ul t5 k = ul r.1 k := fun k hk => hw5.2.1 k (Or.inl hk)
        have hrec2 := ih t5 a r.2.1 limit1 (decide (b - r.2.1 ≥ (b - a) / 8)) r.2.2
          hm1 (by rw [hl5]; omega) (by omega)
          (by
            intro ha k hk1 hk2
            rw [hout5 (a - 1) (by omega), hout5 k (by omega)]
            exact hpre4 ha k hk1 (by omega))
        generalize pdqsort next fuel t5 a r.2.1 limit1 (decide (b - r.2.1 ≥ (b - a) / 8)) r.2.2
          = t6 at hrec2 ⊢
        obtain ⟨hw6, hs6⟩ := hrec2
        have hout6 : ∀ k, r.2.1 ≤ k → ul t6 k = ul t5 k := fun k hk => hw6.2.1 k (Or.inr hk)
        refine ⟨hw14.trans ((hw5.mono (by omega) (le_refl b)).trans
          (hw6.mono (le_refl a) (by omega))), ?_⟩
        apply SortedOn_join t6 a r.2.1 b (ul r.1 r.2.1)
        · rw [hout6 r.2.1 (le_refl _), hout5 r.2.1 (by omega)]
        · intro k hk1 hk2
          exact hw6.upper _ (fun k hk1 hk2 => by
            rw [hout5 k (by omega)]
            exact hleft k hk1 hk2) k hk1 hk2
        · intro k hk1 hk2
          rw [hout6 k (by omega)]
          exact hw5.lower _ (fun k hk1 hk2 => hright k (by omega) hk2) k (by omega) hk2
        · exact hs6
        · exact hs5.congr (fun k hk1 hk2 => hout6 k (by omega))

/-- The limit at an index of the table. -/
theorem ul_eq_getElem (t : TypeReflects) (k : Nat) (hk : k < t.length) :
    ul t k = t[k].UpperLimit := by
  unfold ul TypeReflects.at
  rw [List.getD_eq_getElem t TypeReflect.zero hk]

/-- A table is ascending exactly when its whole range is sorted. -/
theorem Ascending_iff_SortedOn (t : TypeReflects) : Ascending t ↔ SortedOn t 0 t.length := by
  unfold Ascending SortedOn
  rw [List.pairwise_iff_getElem]
  constructor
  · intro h i j _ hij hj
    by_cases he : i = j
    · subst he; exact le_refl _
    · rw [ul_eq_getElem t i (by omega), ul_eq_getElem t j hj]
      exact h i j (by omega) hj (by omega)
  · intro h i j hi hj hij
    have := h i j (Nat.zero_le i) (by omega) hj
    rw [ul_eq_getElem t i hi, ul_eq_getElem t j hj] at this
    exact this

/-- The limits of the sorted table are in ascending order, and the sorted table
has the length of the table. -/
theorem sortSort_sorted (t : TypeReflects) :
    Within 0 t.length t (sortSort t) ∧ SortedOn (sortSort t) 0 t.length := by
  unfold sortSort
  simp only []
  split_ifs with h
  · refine ⟨Within.refl _ _ _, ?_⟩
    intro i j _ hij hj
    have : i = j := by omega
    subst this
    exact le_refl _
  · exact pdqsort_spec xorshiftNext (t.length + 1) t 0 t.length (bitsLen t.length t.length) true true
      (Nat.zero_le _) (le_refl _) (by omega) (fun h => by omega)

/-- The inner loop of the insertion sort does nothing at an entry that is not
less than the entry before it. -/
theorem insertionInner_of_not_less (t : TypeReflects) (a i : Nat)
    (h : 0 < i → ul t (i - 1) ≤ ul t i) : insertionInner t a i = t := by
  cases i with
  | zero => rfl
  | succ j =>
    unfold insertionInner
    have hl : t.Less (j + 1) j = false := by
      rw [Less_eq]
      simp only [decide_eq_false_iff_not, not_lt]
      simpa using h (by omega)
    simp [hl]

/-- The outer loop of the insertion sort does nothing on a sorted range. -/
theorem insertionOuter_of_sorted (t : TypeReflects) (a b : Nat) (hs : SortedOn t a b) :
    ∀ n i, a < i → i + n ≤ b → insertionOuter t a i n = t := by
  intro n
  induction n with
  | zero => intro i _ _; rfl
  | succ n ih =>
    intro i hai hin
    unfold insertionOuter
    rw [insertionInner_of_not_less t a i (fun _ => hs (i - 1) i (by omega) (by omega) (by omega))]
    exact ih (i + 1) (by omega) (by omega)

/-- The insertion sort leaves a sorted range as it is. -/
theorem insertionSort_of_sorted (t : TypeReflects) (a b : Nat) (hs : SortedOn t a b) :
    insertionSort t a b = t := by
  unfold insertionSort
  by_cases hab : a + 1 ≤ b
  · exact insertionOuter_of_sorted t a b hs (b - (a + 1)) (a + 1) (by omega) (by omega)
  · have e : b - (a + 1) = 0 := by omega
    rw [e]
    rfl

/-- On a sorted range `order2` keeps two indexes that are in order and counts
no swap. -/
theorem order2_of_sorted (t : TypeReflects) (a b x y s : Nat) (hs : SortedOn t a b)
    (hx : a ≤ x) (hxy : x ≤ y) (hy : y < b) : order2 t x y s = (x, y, s) := by
  unfold order2
  have hl : t.Less y x = false := by
    rw [Less_eq]
    simp only [decide_eq_false_iff_not, not_lt]
    exact hs x y hx hxy hy
  simp [hl]

/-- On a sorted range `median` of three indexes in order is the middle one,
with no swap counted. -/
theorem median_of_sorted (t : TypeReflects) (a b x y z s : Nat) (hs : SortedOn t a b)
    (hx : a ≤ x) (hxy : x ≤ y) (hyz : y ≤ z) (hz : z < b) : median t x y z s = (y, s) := by
  unfold median
  simp only [order2_of_sorted t a b x y s hs hx hxy (by omega),
    order2_of_sorted t a b y z s hs (by omega) hyz hz]

/-- On a sorted range of at least 8 entries `choosePivot` gives the hint
`increasingHint`. -/
theorem choosePivot_of_sorted (t : TypeReflects) (a b : Nat) (hs : SortedOn t a b)
    (h8 : 8 ≤ b - a) : (choosePivot t a b).2 = sortedHint.increasingHint := by
  have hq : 2 ≤ (b - a) / 4 := by omega
  have hq3 : (b - a) / 4 * 3 < b - a := by omega
  unfold choosePivot
  simp only []
  rw [if_pos h8]
  by_cases h50 : b - a ≥ 50
  · rw [if_pos h50]
    simp only [medianAdjacent]
    rw [median_of_sorted t a b _ _ _ 0 hs (by omega) (by omega) (by omega) (by omega)]
    simp only []
    rw [median_of_sorted t a b _ _ _ 0 hs (by omega) (by omega) (by omega) (by omega)]
    simp only []
    rw [median_of_sorted t a b _ _ _ 0 hs (by omega) (by omega) (by omega) (by omega)]
    simp only []
    rw [median_of_sorted t a b _ _ _ 0 hs (by omega) (by omega) (by omega) (by omega)]
    simp
  · rw [if_neg h50]
    rw [median_of_sorted t a b _ _ _ 0 hs (by omega) (by omega) (by omega) (by omega)]
    simp

/-- On a sorted range the scan of `partialInsertionSort` runs to the end. -/
theorem scanSorted_of_sorted (t : TypeReflects) (a b : Nat) (hs : SortedOn t a b) :
    ∀ (fuel i : Nat), a < i → i ≤ b → b - i ≤ fuel → scanSorted t b fuel i = b := by
  intro fuel
  induction fuel with
  | zero => intro i _ _ hf; simp only [scanSorted]; omega
  | succ fuel ih =>
    intro i hai hib hf
    unfold scanSorted
    by_cases hlt : i < b
    · have hl : t.Less i (i - 1) = false := by
        rw [Less_eq]
        simp only [decide_eq_false_iff_not, not_lt]
        exact hs (i - 1) i (by omega) (by omega) hlt
      simp only [hlt, hl, decide_True, Bool.not_false, Bool.and_self, if_true]
      exact ih (i + 1) (by omega) (by omega) (by omega)
    · simp only [hlt, decide_False, Bool.false_and, Bool.false_eq_true, if_false]
      omega

/-- On a sorted non-empty range `partialInsertionSort` changes nothing and
returns `true`. -/
theorem partialInsertionSort_of_sorted (t : TypeReflects) (a b : Nat) (hab : a < b)
    (hs : SortedOn t a b) : partialInsertionSort t a b = (t, true) := by
  unfold partialInsertionSort partialInsertionSteps
  simp only []
  rw [scanSorted_of_sorted t a b hs (b - (a + 1)) (a + 1) (by omega) (by omega) (le_refl _)]
  simp

/-- The number of bits of a positive number is not zero. -/
theorem bitsLen_ne_zero (n : Nat) (hn : 1 ≤ n) : bitsLen n n ≠ 0 := by
  cases n with
  | zero => omega
  | succ m =>
    unfold bitsLen
    simp

/-- The sort makes no swap on a table whose limits are in ascending order:
such a table is left as it is. -/
theorem sortSort_of_sorted (t : TypeReflects) (hs : SortedOn t 0 t.length) : sortSort t = t := by
  unfold sortSort
  simp only []
  split_ifs with h
  · rfl
  · unfold pdqsort
    simp only []
    by_cases h12 : t.length - 0 ≤ 12
    · rw [if_pos h12]
      exact insertionSort_of_sorted t 0 t.length hs
    · rw [if_neg h12, if_neg (bitsLen_ne_zero t.length (by omega))]
      simp only [Bool.not_true, Bool.false_eq_true, if_false]
      rw [choosePivot_of_sorted t 0 t.length hs (by omega)]
      simp only [reduceCtorEq, if_false, Bool.and_self, decide_True, if_true]
      rw [partialInsertionSort_of_sorted t 0 t.length (by omega) hs]
      simp

/-- The sorted table has its limits in ascending order and the length of the
table. -/
theorem sortSort_ascending (t : TypeReflects) :
    Ascending (sortSort t) ∧ (sortSort t).length = t.length := by
  have h := sortSort_sorted t
  refine ⟨?_, h.1.1⟩
  rw [Ascending_iff_SortedOn, h.1.1]
  exact h.2

/-- The sort leaves an ascending table as it is. -/
theorem sortSort_of_Ascending (t : TypeReflects) (h : Ascending t) : sortSort t = t :=
  sortSort_of_sorted t ((Ascending_iff_SortedOn t).mp h)

/-- Sorting a sorted table changes nothing. -/
theorem sortSort_idempotent (t : TypeReflects) : sortSort (sortSort t) = sortSort t :=
  sortSort_of_Ascending (sortSort t) (sortSort_ascending t).1

/-- The sort leaves as it is a table in which every entry is at least the entry
before it. -/
theorem sortSort_of_ascending (t : TypeReflects)
    (h : ∀ j, j + 1 < t.length → (t.at j).UpperLimit ≤ (t.at (j + 1)).UpperLimit) :
    sortSort t = t := by
  apply sortSort_of_sorted
  apply SortedOn_of_adjacent
  intro k hk1 hk2
  have := h (k - 1) (by omega)
  have e : k - 1 + 1 = k := by omega
  rw [e] at this
  exact this

/-! ## Tier lookups -/

/-- C1 (evaluation at the failing input): on the table `[(10, b), (5, a)]` and
the target 3 the sort swaps the two entries with `Swap`, which copies entry
`(10, b)` over `(5, a)` and restores only the limit 5; the lookup returns
`(5, b)`, which is not an entry of the table as it was, whereas the entry with
the smallest sufficient limit is `(5, a)`. -/
theorem C1_lookup_returns_entry_not_in_table :
    (descendingTable.GetByUpperLimitWithDefault 3).1
        = some { UpperLimit := 5, DBType := "b", IsDefault := false, Size := 0,
                 NoDefaultValue := false }
      ∧ (∀ t ∈ descendingTable, some t ≠ (descendingTable.GetByUpperLimitWithDefault 3).1)
      ∧ ({ UpperLimit := 5, DBType := "a", IsDefault := false, Size := 0,
           NoDefaultValue := false } : TypeReflect) ∈ descendingTable
      ∧ (descendingTable.GetByUpperLimitWithDefault 3).2
        = [ { UpperLimit := 5, DBType := "b", IsDefault := false, Size := 0,
              NoDefaultValue := false },
            { UpperLimit := 10, DBType := "b", IsDefault := false, Size := 0,
              NoDefaultValue := false } ] := by
  decide

/-- C2 (evaluation at the failing input): on the table `[(10, b, flagged),
(5, a)]` the sort run by `GetDefault` leaves `(5, b, flagged)` in front, and
`GetDefault` returns it: an entry that the table did not contain, although its
only flagged entry is `(10, b, flagged)`. -/
theorem C2_getDefault_returns_entry_not_in_table :
    flaggedTable.GetDefault.1
        = some { UpperLimit := 5, DBType := "b", IsDefault := true, Size := 0,
                 NoDefaultValue := false }
      ∧ (∀ t ∈ flaggedTable, some t ≠ flaggedTable.GetDefault.1)
      ∧ flaggedTable.filter (fun t => t.IsDefault)
        = [ { UpperLimit := 10, DBType := "b", IsDefault := true, Size := 0,
              NoDefaultValue := false } ] := by
  decide

/-! ## Column rendering: the two scenarios -/

/-- A column without tags has no tag. -/
theorem HastTag_nil (tag : String) : HastTag [] tag = false := rfl

/-- Sorting leaves each declared table as it is. -/
theorem sortSort_declared :
    sortSort TypeReflectsString = TypeReflectsString
      ∧ sortSort TypeReflectsUnsinedInt = TypeReflectsUnsinedInt
      ∧ sortSort TypeReflectsInt = TypeReflectsInt := by
  decide

/-- The switch on the column `name` resolves the type `char(50)` and the quoted
empty default. -/
theorem resolveType_nameColumn :
    resolveType Tables.declared nameColumn
      = ⟨"char(50)", Any.str "\"\"", nameColumn, Tables.declared⟩ := by
  decide

/-- The switch on the column `id` resolves the type `int(11) unsigned` and the
default 0, and sets the size of the column to 11. -/
theorem resolveType_idColumn :
    resolveType Tables.declared idColumn
      = ⟨"int(11) unsigned", Any.int 0, { idColumn with Size := 11 }, Tables.declared⟩ := by
  decide

/-- C3 (counterexample): for the column `name` of the scenario the type segment
is not `varchar(50)`, the not-null marker is not empty and the default clause
is not empty. -/
theorem C3_name_column_counterexample :
    (Column2DDLMysqlSegments Imports.sample Tables.declared nameColumn).1.typ ≠ "varchar(50)"
      ∧ (Column2DDLMysqlSegments Imports.sample Tables.declared nameColumn).1.notNil ≠ ""
      ∧ (Column2DDLMysqlSegments Imports.sample Tables.declared nameColumn).1.defaulStr ≠ "" := by
  decide

/-- C3 (amended): the column `name` (string, `MaxLength` 50, no default, no
enums, no tags) renders the six segments `name`, `char(50)`, the not-null
marker, no auto-increment keyword, the default clause of the quoted empty string
and no comment, joined by single spaces; the length 50 selects the tier `char`
of limit 64. -/
theorem C3_name_column_renders_char (I : Imports) :
    (Column2DDLMysqlSegments I Tables.declared nameColumn).1
        = ⟨"name", "char(50)", " not null ", "", "default \"\"", ""⟩
      ∧ (Column2DDLMysql I Tables.declared nameColumn).1
        = "name char(50)  not null   default \"\" " := by
  have h : (Column2DDLMysqlSegments I Tables.declared nameColumn).1
      = ⟨"name", "char(50)", " not null ", "", "default \"\"", ""⟩ := by
    have e : applyEnums nameColumn = nameColumn := rfl
    have t : nameColumn.Tags = [] := rfl
    simp only [Column2DDLMysqlSegments, e, resolveType_nameColumn, t, HastTag_nil]
    decide
  refine ⟨h, ?_⟩
  simp only [Column2DDLMysql, h]
  decide

/-- C4: the column `id` (int, unsigned, `Maximum` 4294967295, auto-increment,
primary, size unset) renders the type segment `int(11) unsigned`, the
auto-increment segment `AUTO_INCREMENT` and an empty default clause, and its
primary-key clause for the mysql driver is `PRIMARY KEY (id)`. -/
theorem C4_id_column_scenario (I : Imports) :
    (Column2DDLMysqlSegments I Tables.declared idColumn).1.typ = "int(11) unsigned"
      ∧ (Column2DDLMysqlSegments I Tables.declared idColumn).1.autoIncrement = "AUTO_INCREMENT"
      ∧ (Column2DDLMysqlSegments I Tables.declared idColumn).1.defaulStr = ""
      ∧ (Column2DDLMysql I Tables.declared idColumn).1
        = "id int(11) unsigned  not null  AUTO_INCREMENT  "
      ∧ idColumn.PrimaryDDL I I.Driver_mysql = Except.ok "PRIMARY KEY (id)" := by
  have h : (Column2DDLMysqlSegments I Tables.declared idColumn).1
      = ⟨"id", "int(11) unsigned", " not null ", "AUTO_INCREMENT", "", ""⟩ := by
    have e : applyEnums idColumn = idColumn := rfl
    have t : idColumn.Tags = [] := rfl
    simp only [Column2DDLMysqlSegments, e, resolveType_idColumn, t, HastTag_nil]
    decide
  refine ⟨by rw [h], by rw [h], by rw [h], ?_, ?_⟩
  · simp only [Column2DDLMysql, h]
    decide
  · simp only [Column.PrimaryDDL, if_true]
    rfl

/-! ## Column rendering: the segments in general -/

/-- The enums overwrite neither the auto-increment flag nor the tags. -/
theorem applyEnums_keeps (col : Column) :
    (applyEnums col).AutoIncrement = col.AutoIncrement ∧ (applyEnums col).Tags = col.Tags := by
  unfold applyEnums
  cases col.Enums <;> exact ⟨rfl, rfl⟩

/-- Without enums the first statement changes nothing. -/
theorem applyEnums_none (col : Column) (h : col.Enums = none) : applyEnums col = col := by
  unfold applyEnums
  rw [h]

/-- The switch writes only `MaxLength` and `Size` of the column: the
auto-increment flag and the tags stay. -/
theorem resolveType_keeps (g : Tables) (col : Column) :
    (resolveType g col).col.AutoIncrement = col.AutoIncrement
      ∧ (resolveType g col).col.Tags = col.Tags := by
  unfold resolveType
  split_ifs
  · unfold resolveString
    by_cases h : col.MaxLength < 1 <;> simp only [h, if_true, if_false] <;> split <;>
      exact ⟨rfl, rfl⟩
  · unfold resolveInt
    by_cases h : col.Size < 1 <;> simp only [h, if_true, if_false] <;> split_ifs <;>
      split <;> exact ⟨rfl, rfl⟩
  · exact ⟨rfl, rfl⟩

/-- The type segment: `datetime` under either tag, else the resolved type. -/
theorem segments_typ (I : Imports) (g : Tables) (col : Column) :
    (Column2DDLMysqlSegments I g col).1.typ
      = if HastTag col.Tags I.Tag_createdAt then "datetime"
        else if HastTag col.Tags I.Tag_updatedAt then "datetime"
        else (resolveType g (applyEnums col)).typ := by
  simp only [Column2DDLMysqlSegments, (resolveType_keeps g (applyEnums col)).2,
    (applyEnums_keeps col).2]

/-- The default-clause segment: the fixed clause of a tag, else nothing for an
auto-increment column, else the resolved default when there is one. -/
theorem segments_defaulStr (I : Imports) (g : Tables) (col : Column) :
    (Column2DDLMysqlSegments I g col).1.defaulStr
      = if HastTag col.Tags I.Tag_createdAt then "default CURRENT_TIMESTAMP"
        else if HastTag col.Tags I.Tag_updatedAt then
          "default  CURRENT_TIMESTAMP ON UPDATE CURRENT_TIMESTAMP"
        else if col.AutoIncrement then ""
        else if (resolveType g (applyEnums col)).defaul ≠ Any.nil then
          "default " ++ castToString (resolveType g (applyEnums col)).defaul
        else "" := by
  simp only [Column2DDLMysqlSegments, (resolveType_keeps g (applyEnums col)).1,
    (resolveType_keeps g (applyEnums col)).2, (applyEnums_keeps col).1, (applyEnums_keeps col).2]

/-- The not-null segment: the marker exactly when the resolved default is not
`nil`. -/
theorem segments_notNil (I : Imports) (g : Tables) (col : Column) :
    (Column2DDLMysqlSegments I g col).1.notNil
      = if (resolveType g (applyEnums col)).defaul ≠ Any.nil then " not null " else "" := by
  simp only [Column2DDLMysqlSegments]

/-- A default clause that is written is not the empty text. -/
theorem default_clause_ne_empty (s : String) : "default " ++ s ≠ "" := by
  intro h
  have hl := congrArg String.length h
  rw [String.length_append] at hl
  have h8 : "default ".length = 8 := by decide
  have h0 : "".length = 0 := by decide
  omega

/-- The lookup of a positive length in the declared string table: the first
tier that holds it, the flagged tier `varchar` beyond the last limit, and the
table unchanged. -/
theorem lookup_string (v : Int) (hv : 0 < v) :
    TypeReflectsString.GetByUpperLimitWithDefault v
      = (some
          (if v ≤ 64 then ⟨64, "char", false, 0, false⟩
           else if v ≤ 255 then ⟨255, "varchar", true, 0, false⟩
           else if v ≤ 65535 then ⟨65535, "TEXT", false, -1, true⟩
           else if v ≤ 16777215 then ⟨16777215, "MEDIUMTEXT", false, -1, true⟩
           else if v ≤ 4294967295 then ⟨4294967295, "LONGTEXT", false, -1, true⟩
           else ⟨255, "varchar", true, 0, false⟩),
         TypeReflectsString) := by
  have hs : sortSort TypeReflectsString = TypeReflectsString := sortSort_declared.1
  have hd : TypeReflects.GetDefault TypeReflectsString
      = (some ⟨255, "varchar", true, 0, false⟩, TypeReflectsString) := by decide
  unfold TypeReflects.GetByUpperLimitWithDefault
  rw [if_pos hv]
  simp only [hs, hd]
  simp only [TypeReflectsString, List.find?_cons, List.find?_nil, ge_iff_le]
  by_cases h1 : v ≤ 64
  · simp [h1]
  · by_cases h2 : v ≤ 255
    · simp [h1, h2]
    · by_cases h3 : v ≤ 65535
      · simp [h1, h2, h3]
      · by_cases h4 : v ≤ 16777215
        · simp [h1, h2, h3, h4]
        · by_cases h5 : v ≤ 4294967295
          · simp [h1, h2, h3, h4, h5]
          · simp [h1, h2, h3, h4, h5]

/-- A string column without enums whose `MaxLength` lies between 256 and
4294967295 resolves to no default, whatever default it was given. -/
theorem resolveType_text_defaul (col : Column) (ht : col.Type_ = "string")
    (h1 : 256 ≤ col.MaxLength) (h2 : col.MaxLength ≤ 4294967295) :
    (resolveType Tables.declared col).defaul = Any.nil := by
  have hn : ¬ col.MaxLength < 1 := by omega
  have hv : 0 < col.MaxLength := by omega
  have e1 : ¬ col.MaxLength ≤ 64 := by omega
  have e2 : ¬ col.MaxLength ≤ 255 := by omega
  unfold resolveType resolveString
  simp only [ht, if_true, if_neg hn]
  have hl : Tables.declared.TypeReflectsString = TypeReflectsString := rfl
  rw [hl, lookup_string col.MaxLength hv]
  simp only [if_neg e1, if_neg e2]
  by_cases h3 : col.MaxLength ≤ 65535
  · simp [h3]
  · by_cases h4 : col.MaxLength ≤ 16777215
    · simp [h3, h4]
    · simp [h3, h4, h2]

/-! ## Column rendering: default clause, tags and the not-null marker -/

/-- C5 (counterexample): the auto-increment column `id` carrying the created-at
tag renders the default clause `default CURRENT_TIMESTAMP`, which is not empty. -/
theorem C5_auto_increment_tagged_counterexample :
    idCreatedColumn.AutoIncrement = true
      ∧ (Column2DDLMysqlSegments Imports.sample Tables.declared idCreatedColumn).1.defaulStr
        = "default CURRENT_TIMESTAMP"
      ∧ (Column2DDLMysqlSegments Imports.sample Tables.declared idCreatedColumn).1.defaulStr
        ≠ "" := by
  decide

/-- C5 (amended): for every column with `AutoIncrement` set that carries neither
the created-at nor the updated-at tag, whatever its type, default, bounds, enums
and other tags and whatever the state of the tier tables, the default-clause
segment is empty. -/
theorem C5_auto_increment_no_default (I : Imports) (g : Tables) (col : Column)
    (ha : col.AutoIncrement = true)
    (hc : HastTag col.Tags I.Tag_createdAt = false)
    (hu : HastTag col.Tags I.Tag_updatedAt = false) :
    (Column2DDLMysqlSegments I g col).1.defaulStr = "" := by
  rw [segments_defaulStr]
  simp [ha, hc, hu]

/-- C5 (witness): the column `id` of the scenario. -/
theorem C5_auto_increment_no_default_witness :
    (Column2DDLMysqlSegments Imports.sample Tables.declared idColumn).1.defaulStr = "" :=
  C5_auto_increment_no_default Imports.sample Tables.declared idColumn (by decide) (by decide)
    (by decide)

/-- C6 (counterexample): the string column `body` of `MaxLength` 300, which
selects the tier `TEXT`, carrying the created-at tag renders the default clause
`default CURRENT_TIMESTAMP`, which is not empty. -/
theorem C6_text_tagged_counterexample :
    bodyCreatedColumn.Type_ = "string" ∧ bodyCreatedColumn.Enums = none
      ∧ (256 : Int) ≤ bodyCreatedColumn.MaxLength ∧ bodyCreatedColumn.MaxLength ≤ 4294967295
      ∧ (Column2DDLMysqlSegments Imports.sample Tables.declared bodyCreatedColumn).1.typ
        = "datetime"
      ∧ (Column2DDLMysqlSegments Imports.sample Tables.declared bodyCreatedColumn).1.defaulStr
        = "default CURRENT_TIMESTAMP"
      ∧ (Column2DDLMysqlSegments Imports.sample Tables.declared bodyCreatedColumn).1.defaulStr
        ≠ "" := by
  decide

/-- C6 (amended): for every column of type `string` without enums whose
`MaxLength` lies between 256 and 4294967295 (the tiers `TEXT`, `MEDIUMTEXT` and
`LONGTEXT`, flagged `NoDefaultValue`) and that carries neither the created-at
nor the updated-at tag, and for every supplied default, the default-clause
segment is empty. -/
theorem C6_text_tier_no_default (I : Imports) (col : Column)
    (ht : col.Type_ = "string") (he : col.Enums = none)
    (h1 : 256 ≤ col.MaxLength) (h2 : col.MaxLength ≤ 4294967295)
    (hc : HastTag col.Tags I.Tag_createdAt = false)
    (hu : HastTag col.Tags I.Tag_updatedAt = false) :
    (Column2DDLMysqlSegments I Tables.declared col).1.defaulStr = "" := by
  rw [segments_defaulStr, applyEnums_none col he, resolveType_text_defaul col ht h1 h2]
  simp [hc, hu]

/-- C6 (witness): the column `body` with the supplied default `x`. -/
theorem C6_text_tier_no_default_witness :
    bodyColumn.Default = Any.str "x"
      ∧ (Column2DDLMysqlSegments Imports.sample Tables.declared bodyColumn).1.defaulStr = "" :=
  ⟨rfl, C6_text_tier_no_default Imports.sample bodyColumn (by decide) (by decide) (by decide)
    (by decide) (by decide) (by decide)⟩

/-- C7: for every column whose tags include the created-at tag, whatever its
type, default, bounds, enums, auto-increment flag and other tags and whatever
the state of the tier tables, the type segment is `datetime` and the
default-clause segment is `default CURRENT_TIMESTAMP`. -/
theorem C7_created_at_tag (I : Imports) (g : Tables) (col : Column)
    (hc : HastTag col.Tags I.Tag_createdAt = true) :
    (Column2DDLMysqlSegments I g col).1.typ = "datetime"
      ∧ (Column2DDLMysqlSegments I g col).1.defaulStr = "default CURRENT_TIMESTAMP" := by
  rw [segments_typ, segments_defaulStr]
  simp [hc]

/-- C7 (witness): the auto-increment column `id` with the created-at tag. -/
theorem C7_created_at_tag_witness :
    (Column2DDLMysqlSegments Imports.sample Tables.declared idCreatedColumn).1.typ = "datetime"
      ∧ (Column2DDLMysqlSegments Imports.sample Tables.declared idCreatedColumn).1.defaulStr
        = "default CURRENT_TIMESTAMP" :=
  C7_created_at_tag Imports.sample Tables.declared idCreatedColumn (by decide)

/-- C8 (counterexample): the auto-increment column `id` carries the not-null
marker with an empty default clause, and the tagged column `created_at` of a raw
type has a default clause without the not-null marker. -/
theorem C8_not_null_counterexample :
    ((Column2DDLMysqlSegments Imports.sample Tables.declared idColumn).1.notNil = " not null "
        ∧ (Column2DDLMysqlSegments Imports.sample Tables.declared idColumn).1.defaulStr = "")
      ∧ ((Column2DDLMysqlSegments Imports.sample Tables.declared createdAtColumn).1.notNil = ""
        ∧ (Column2DDLMysqlSegments Imports.sample Tables.declared createdAtColumn).1.defaulStr
          = "default CURRENT_TIMESTAMP")
      ∧ ¬ ((Column2DDLMysqlSegments Imports.sample Tables.declared idColumn).1.notNil
            = " not null "
          ↔ (Column2DDLMysqlSegments Imports.sample Tables.declared idColumn).1.defaulStr
            ≠ "") := by
  decide

/-- C8 (amended): for every column that is not auto-increment and carries
neither the created-at nor the updated-at tag, the clause carries the not-null
marker if and only if its default-clause segment is non-empty; without the
marker the not-null segment is empty. -/
theorem C8_not_null_iff_default (I : Imports) (g : Tables) (col : Column)
    (ha : col.AutoIncrement = false)
    (hc : HastTag col.Tags I.Tag_createdAt = false)
    (hu : HastTag col.Tags I.Tag_updatedAt = false) :
    ((Column2DDLMysqlSegments I g col).1.notNil = " not null "
        ↔ (Column2DDLMysqlSegments I g col).1.defaulStr ≠ "")
      ∧ ((Column2DDLMysqlSegments I g col).1.notNil = " not null "
        ∨ (Column2DDLMysqlSegments I g col).1.notNil = "") := by
  rw [segments_notNil, segments_defaulStr]
  have hm : (" not null " : String) ≠ "" := by decide
  by_cases hd : (resolveType g (applyEnums col)).defaul = Any.nil
  · simp [ha, hc, hu, hd]
  · have hne := default_clause_ne_empty (castToString (resolveType g (applyEnums col)).defaul)
    simp [ha, hc, hu, hd, hne]

/-- C8 (witness): the column `name`, which has both the marker and a default
clause. -/
theorem C8_not_null_iff_default_witness :
    ((Column2DDLMysqlSegments Imports.sample Tables.declared nameColumn).1.notNil = " not null "
        ↔ (Column2DDLMysqlSegments Imports.sample Tables.declared nameColumn).1.defaulStr ≠ "")
      ∧ ((Column2DDLMysqlSegments Imports.sample Tables.declared nameColumn).1.notNil
          = " not null "
        ∨ (Column2DDLMysqlSegments Imports.sample Tables.declared nameColumn).1.notNil = "") :=
  C8_not_null_iff_default Imports.sample Tables.declared nameColumn (by decide) (by decide)
    (by decide)

/-! ## Migration options and migrations -/

/-- The loop of `GetMigrateOpion` is the search for the first candidate that
satisfies its condition. -/
theorem GetMigrateOpion_eq_find (I : Imports) (target : MigrateOptionI)
    (ops : List MigrateOptionI) :
    GetMigrateOpion I target ops = ((ops.find? (optionMatches I target)).getD target) := by
  induction ops with
  | nil => rfl
  | cons op ops ih =>
    unfold GetMigrateOpion
    by_cases h : optionMatches I target op = true
    · simp [h, List.find?_cons]
    · simp [h, List.find?_cons, ih]

/-- C9: `GetMigrateOpion(target, ops...)` returns the first element of `ops`, in
list order, whose driver is the same as the target's (`Driver.IsSame`) and whose
token is the same as the target's (`Token.IsSame`, that is `strings.EqualFold`):
an element that matches and is preceded only by elements that do not; it returns
the target when no element matches. With no candidate it returns the target;
with the single candidate `opt` it returns `opt` when `opt` matches and the
target otherwise, so that, the two comparisons being reflexive, it returns `opt`
if and only if `opt` matches. -/
theorem C9_getMigrateOpion_first_match (I : Imports) (target opt : MigrateOptionI)
    (ops : List MigrateOptionI) :
    GetMigrateOpion I target ops = ((ops.find? (optionMatches I target)).getD target)
      ∧ (∀ pre op post, ops = pre ++ op :: post → (∀ x ∈ pre, optionMatches I target x = false) →
          optionMatches I target op = true → GetMigrateOpion I target ops = op)
      ∧ ((∀ x ∈ ops, optionMatches I target x = false) → GetMigrateOpion I target ops = target)
      ∧ GetMigrateOpion I target [] = target
      ∧ GetMigrateOpion I target [opt] = (if optionMatches I target opt then opt else target)
      ∧ ((∀ d, I.DriverIsSame d d = true) → (∀ t, I.EqualFold t t = true) →
          (GetMigrateOpion I target [opt] = opt ↔ optionMatches I target opt = true))
      ∧ (optionMatches I target opt = true
          ↔ I.DriverIsSame opt.Driver target.Driver = true
            ∧ I.EqualFold opt.Token target.Token = true) := by
  refine ⟨GetMigrateOpion_eq_find I target ops, ?_, ?_, rfl, ?_, ?_, ?_⟩
  · intro pre op post hops hpre hop
    subst hops
    induction pre with
    | nil =>
      simp [GetMigrateOpion, hop]
    | cons x pre ih =>
      have hx : optionMatches I target x = false := hpre x (List.mem_cons_self x pre)
      have hrest : ∀ y ∈ pre, optionMatches I target y = false :=
        fun y hy => hpre y (List.mem_cons_of_mem x hy)
      simp only [List.cons_append, GetMigrateOpion, hx]
      simpa using ih hrest
  · intro hnone
    induction ops with
    | nil => rfl
    | cons x ops ih =>
      have hx : optionMatches I target x = false := hnone x (List.mem_cons_self x ops)
      have hrest : ∀ y ∈ ops, optionMatches I target y = false :=
        fun y hy => hnone y (List.mem_cons_of_mem x hy)
      simp only [GetMigrateOpion, hx]
      simpa using ih hrest
  · simp [GetMigrateOpion]
  · intro hD hE
    by_cases h : optionMatches I target opt = true
    · simp [GetMigrateOpion, h]
    · constructor
      · intro hr
        have ht : target = opt := by simpa [GetMigrateOpion, h] using hr
        subst ht
        simp [optionMatches, Token.IsSame, hD, hE]
      · intro hm
        exact absurd hm h
  · simp [optionMatches, Token.IsSame]

/-- C9 (witness): with `Imports.sample`, the target `AFTER` and the candidates
`FIRST`, `after`, `AFTER`, the result is the candidate `after`, the first that
matches ignoring case; with no candidate the result is the target. -/
theorem C9_getMigrateOpion_first_match_witness :
    GetMigrateOpion Imports.sample afterUpper [firstOption, afterLower, afterUpper] = afterLower
      ∧ GetMigrateOpion Imports.sample afterUpper [] = afterUpper
      ∧ GetMigrateOpion Imports.sample afterUpper [firstOption] = afterUpper :=
  ⟨(C9_getMigrateOpion_first_match Imports.sample afterUpper afterLower
      [firstOption, afterLower, afterUpper]).2.1 [firstOption] afterLower [afterUpper] rfl
      (by decide) (by decide),
    (C9_getMigrateOpion_first_match Imports.sample afterUpper afterLower []).2.2.2.1,
    by decide⟩

/-- The loop of `Migrates.GetByScene` started with the result `acc` appends the
matching entries to it, in order. -/
theorem getByScene_loop (p : Migrate → Bool) (ms acc : Migrates) :
    ms.foldl (fun subMs m => if p m then subMs ++ [m] else subMs) acc = acc ++ ms.filter p := by
  induction ms generalizing acc with
  | nil => simp
  | cons m ms ih =>
    by_cases h : p m = true
    · simp [List.foldl_cons, List.filter_cons, h, ih]
    · simp [List.foldl_cons, List.filter_cons, h, ih]

/-- C10: `ms.GetByScene(d, s)` is the order-preserving filter of `ms` by the
condition `d.IsSame(m.Dialect) && s.Is(m.Scene)`: an entry is in the result
exactly when it is in `ms` and both its dialect and its scene match, the result
is a sublist of `ms` (same relative order), and every matching entry occurs in
the result as many times as in `ms`. -/
theorem C10_getByScene_is_filter (I : Imports) (ms : Migrates) (d s : String) :
    ms.GetByScene I d s
        = ms.filter (fun m => I.DriverIsSame d m.Dialect && I.SceneIs s m.Scene)
      ∧ (∀ m, m ∈ ms.GetByScene I d s
          ↔ m ∈ ms ∧ I.DriverIsSame d m.Dialect = true ∧ I.SceneIs s m.Scene = true)
      ∧ (∀ m ∈ ms, I.DriverIsSame d m.Dialect = false ∨ I.SceneIs s m.Scene = false →
          m ∉ ms.GetByScene I d s)
      ∧ List.Sublist (ms.GetByScene I d s) ms
      ∧ (∀ m, I.DriverIsSame d m.Dialect = true → I.SceneIs s m.Scene = true →
          (ms.GetByScene I d s).count m = ms.count m) := by
  have h : ms.GetByScene I d s
      = ms.filter (fun m => I.DriverIsSame d m.Dialect && I.SceneIs s m.Scene) := by
    unfold Migrates.GetByScene
    have hl := getByScene_loop (fun m => I.DriverIsSame d m.Dialect && I.SceneIs s m.Scene) ms []
    simpa using hl
  refine ⟨h, ?_, ?_, ?_, ?_⟩
  · intro m
    rw [h]
    simp [List.mem_filter]
  · intro m _ hm
    rw [h]
    rcases hm with hm | hm <;> simp [List.mem_filter, hm]
  · rw [h]
    exact List.filter_sublist ms
  · intro m hd hs
    rw [h]
    exact List.count_filter (by simp [hd, hs])

/-- C10 (witness): of the three sample migrations the filter for the driver
`mysql` and the scene `create` keeps the first and the third, in that order. -/
theorem C10_getByScene_is_filter_witness :
    sampleMigrates.GetByScene Imports.sample "mysql" "create"
        = [⟨"mysql", "create", [], "a"⟩, ⟨"MySQL", "create", [], "c"⟩]
      ∧ List.Sublist (sampleMigrates.GetByScene Imports.sample "mysql" "create") sampleMigrates :=
  ⟨by decide, (C10_getByScene_is_filter Imports.sample sampleMigrates "mysql" "create").2.2.2.1⟩

/-! ## The table after a lookup -/

/-- After `GetDefault` the table is the sorted table. -/
theorem GetDefault_table (t : TypeReflects) : t.GetDefault.2 = sortSort t := by
  unfold TypeReflects.GetDefault
  simp only []
  split
  · rfl
  · split_ifs <;> rfl

/-- After `GetByUpperLimit` the table is the sorted table. -/
theorem GetByUpperLimit_table (t : TypeReflects) (v : Int) :
    (t.GetByUpperLimit v).2 = sortSort t := by
  unfold TypeReflects.GetByUpperLimit
  simp only []
  split <;> rfl

/-- After `GetByUpperLimitWithDefault` the table is the sorted table. -/
theorem GetByUpperLimitWithDefault_table (t : TypeReflects) (v : Int) :
    (t.GetByUpperLimitWithDefault v).2 = sortSort t := by
  unfold TypeReflects.GetByUpperLimitWithDefault
  split_ifs
  · simp only []
    split
    · rfl
    · rw [GetDefault_table, sortSort_idempotent]
  · exact GetDefault_table t

/-! ## Scripts, indexes, tables, frame conditions and the declared tables -/

/-- The loop of `Migrates.DDLs` started with `acc` appends the DDL texts in
order. -/
theorem DDLs_loop (ms : Migrates) (acc : List String) :
    ms.foldl (fun ddls m => ddls ++ [m.DDL]) acc = acc ++ ms.map (fun m => m.DDL) := by
  induction ms generalizing acc with
  | nil => simp
  | cons m ms ih => simp [List.foldl_cons, ih]

/-- The method `DDLs` lists the DDL text of each entry, in order. -/
theorem DDLs_eq_map (ms : Migrates) : ms.DDLs = ms.map (fun m => m.DDL) := by
  unfold Migrates.DDLs
  simpa using DDLs_loop ms []

/-- The loop of `Migrates.String`, entered with a buffer that ends in a
newline, leaves the texts joined by newlines, followed by a newline. -/
theorem String_loop (ms : Migrates) (acc : String) :
    ms.foldl (fun w m => (w ++ m.DDL) ++ "\n") (acc ++ "\n")
      = String.intercalate.go acc "\n" (ms.map (fun m => m.DDL)) ++ "\n" := by
  induction ms generalizing acc with
  | nil => simp [String.intercalate.go]
  | cons m ms ih =>
    simp only [List.foldl_cons, List.map_cons, String.intercalate.go]
    exact ih (acc ++ "\n" ++ m.DDL)

/-- C11 (counterexample): for the single migration with the DDL text `a`,
`String()` is `a` followed by a newline, whereas the texts joined with a newline
as separator give `a`. -/
theorem C11_script_counterexample :
    oneMigrate.String = "a\n"
      ∧ String.intercalate "\n" oneMigrate.DDLs = "a"
      ∧ oneMigrate.String ≠ String.intercalate "\n" oneMigrate.DDLs := by
  decide

/-- C11 (amended): `ms.String()` is the DDL texts of `ms` in order, each
followed by a newline: for a non-empty `ms` the texts `ms.DDLs()` joined with a
newline and then one more newline, for an empty `ms` the empty text; and
`ms.DDLs()` has the length of `ms`, its i-th element being the DDL of the i-th
entry. -/
theorem C11_script_terminated (ms : Migrates) :
    (ms ≠ [] → ms.String = String.intercalate "\n" ms.DDLs ++ "\n")
      ∧ (ms = [] → ms.String = "")
      ∧ ms.DDLs = ms.map (fun m => m.DDL)
      ∧ ms.DDLs.length = ms.length
      ∧ (∀ i : Nat, ms.DDLs[i]? = Option.map (fun m : Migrate => m.DDL) ms[i]?) := by
  refine ⟨?_, ?_, DDLs_eq_map ms, ?_, ?_⟩
  · intro hne
    rw [DDLs_eq_map]
    cases ms with
    | nil => exact absurd rfl hne
    | cons m ms =>
      unfold Migrates.String
      simp only [List.foldl_cons, List.map_cons, String.intercalate]
      have h := String_loop ms m.DDL
      simpa using h
  · intro h
    subst h
    rfl
  · rw [DDLs_eq_map]; simp
  · intro i
    rw [DDLs_eq_map]; simp

/-- C11 (witness): the single migration with the DDL text `a`. -/
theorem C11_script_terminated_witness :
    oneMigrate.String = String.intercalate "\n" oneMigrate.DDLs ++ "\n" :=
  (C11_script_terminated oneMigrate).1 (by decide)

/-- A text that starts with a character that is not a space is not blank. -/
theorem isBlank_append_of_head (a b : String) (c : Char) (cs : List Char)
    (ha : a.data = c :: cs) (hc : isSpace c = false) : isBlank (a ++ b) = false := by
  unfold isBlank
  rw [String.data_append, ha]
  simp [hc]

/-- The clause of an index is blank exactly when the index has no column. -/
theorem isBlank_Index_DDL (index : Index) :
    isBlank (Index.DDL index) = decide (index.Columns = []) := by
  unfold Index.DDL
  cases hcols : index.Columns with
  | nil => simp; rfl
  | cons col cols =>
    simp only [List.length_cons, Nat.succ_ne_zero, if_false, Nat.add_one_ne_zero]
    cases index.Unique
    · simp only [Bool.false_eq_true, if_false, String.append_assoc]
      rw [isBlank_append_of_head "index" _ 'i' ['n', 'd', 'e', 'x'] rfl (by decide)]
      simp
    · simp only [if_true, String.append_assoc]
      rw [isBlank_append_of_head "unique" _ 'u' ['n', 'i', 'q', 'u', 'e'] rfl (by decide)]
      simp

/-- C13: an index with at least one column renders `<kind> <prefix>_<names
joined by _>(<names joined by ,>)`, the names in declaration order, the kind
and prefix being `unique`, `uk` when `Unique` is set and `index`, `idx`
otherwise; an index without columns renders the empty text; and `Indexs.DDL`
lists the clauses of the indexes that have a column, in order, dropping the
others. -/
theorem C13_index_clause (index : Index) (indexs : List Index) :
    (index.Columns ≠ [] →
        Index.DDL index
          = (if index.Unique then "unique" else "index") ++ " "
            ++ ((if index.Unique then "uk" else "idx") ++ "_"
              ++ String.intercalate "_" (index.Columns.map (fun col => col.Name)))
            ++ "(" ++ String.intercalate "," (index.Columns.map (fun col => col.Name)) ++ ")")
      ∧ (index.Columns = [] → Index.DDL index = "")
      ∧ Indexs.DDL indexs
        = (indexs.filter (fun ix => decide (ix.Columns ≠ []))).map Index.DDL := by
  refine ⟨?_, ?_, ?_⟩
  · intro hne
    have hl : ¬ index.Columns.length = 0 := by
      intro h
      exact hne (List.length_eq_zero.mp h)
    unfold Index.DDL
    rw [if_neg hl]
  · intro he
    unfold Index.DDL
    simp [he]
  · unfold Indexs.DDL nonBlankLines
    rw [List.filter_map]
    congr 1
    apply List.filter_congr
    intro ix _
    simp [isBlank_Index_DDL]

/-- C13 (witness): the unique index over `a`, `b`, the plain index over `a` and
the index without columns. -/
theorem C13_index_clause_witness :
    Index.DDL uniqueIndex = "unique uk_a_b(a,b)"
      ∧ Index.DDL plainIndex = "index idx_a(a)"
      ∧ Index.DDL emptyIndex = ""
      ∧ Indexs.DDL [emptyIndex, uniqueIndex, emptyIndex, plainIndex]
        = ["unique uk_a_b(a,b)", "index idx_a(a)"] :=
  ⟨by decide, by decide, (C13_index_clause emptyIndex []).2.1 rfl, by decide⟩

/-- A lookup leaves a declared table as it is. -/
theorem lookup_declared (v : Int) :
    (TypeReflectsString.GetByUpperLimitWithDefault v).2 = TypeReflectsString
      ∧ (TypeReflectsUnsinedInt.GetByUpperLimitWithDefault v).2 = TypeReflectsUnsinedInt
      ∧ (TypeReflectsInt.GetByUpperLimitWithDefault v).2 = TypeReflectsInt := by
  simp only [GetByUpperLimitWithDefault_table, sortSort_declared, and_self]

/-- The switch leaves the declared tier tables as they are. -/
theorem resolveType_tables_declared (col : Column) :
    (resolveType Tables.declared col).tables = Tables.declared := by
  have hs : Tables.declared.TypeReflectsString = TypeReflectsString := rfl
  have hu : Tables.declared.TypeReflectsUnsinedInt = TypeReflectsUnsinedInt := rfl
  have hi : Tables.declared.TypeReflectsInt = TypeReflectsInt := rfl
  unfold resolveType
  split_ifs
  · unfold resolveString
    by_cases h : col.MaxLength < 1 <;> simp only [h, if_true, if_false] <;> split <;>
      simp only [hs, (lookup_declared _).1] <;> rfl
  · unfold resolveInt
    by_cases h : col.Size < 1 <;> simp only [h, if_true, if_false] <;> split_ifs <;>
      split <;> simp only [hu, hi, (lookup_declared _).2.1, (lookup_declared _).2.2] <;> rfl
  · rfl

/-- Rendering a column leaves the declared tier tables as they are. -/
theorem Column2DDLMysql_tables_declared (I : Imports) (col : Column) :
    (Column2DDLMysql I Tables.declared col).2.2 = Tables.declared := by
  simp only [Column2DDLMysql, Column2DDLMysqlSegments, resolveType_tables_declared]

/-- For the mysql driver the first loop of `Columns.DDL` lists the clause of
each column and leaves the declared tier tables as they are. -/
theorem columnClauses_mysql (I : Imports) (cols : List Column) :
    columnClauses I I.Driver_mysql Tables.declared cols
      = Except.ok (cols.map (fun col => (Column2DDLMysql I Tables.declared col).1),
          Tables.declared) := by
  induction cols with
  | nil => rfl
  | cons col cols ih =>
    simp only [columnClauses, Column.DDL, if_true, Column2DDLMysql_tables_declared, ih,
      List.map_cons]

/-- For the mysql driver the second loop of `Columns.DDL` lists the primary-key
clause of each column. -/
theorem primaryClauses_mysql (I : Imports) (cols : List Column) :
    primaryClauses I I.Driver_mysql cols = Except.ok (cols.map primaryText) := by
  induction cols with
  | nil => rfl
  | cons col cols ih =>
    simp only [primaryClauses, Column.PrimaryDDL, if_true, ih, List.map_cons, primaryText]
    split_ifs <;> rfl

/-- For the mysql driver and the declared tier tables `Table.DDL` returns the
drop statement when the flag is set, then the create statement. -/
theorem Table_DDL_mysql (I : Imports) (t : Table) (ht : t.Driver = I.Driver_mysql) :
    Table.DDL I Tables.declared t
      = Except.ok ((if t.withDrop then specDrop t else "") ++ specCreate I t,
          Tables.declared) := by
  unfold Table.DDL Columns.DDL
  rw [ht, columnClauses_mysql, primaryClauses_mysql]
  simp only [specCreate, specBody, specDrop, Indexs.DDL, nonBlankLines, List.filter_append,
    String.append_assoc]
  split_ifs <;> simp [String.append_assoc]

set_option maxRecDepth 8192

/-- C12 (counterexample): in the table whose one column is the primary column
`id`, the column clause is followed by `PRIMARY KEY (id)` and only then by
`unique uk_a_b(a,b)`; and in the table whose one column has a blank clause the
body is the index clause alone. -/
theorem C12_table_counterexample :
    Table.DDL Imports.sample Tables.declared idTable
        = Except.ok ("DROP TABLE IF EXISTS `t`;\nCREATE TABLE IF NOT EXISTS `t`(\n"
            ++ "id int(11) unsigned  not null  AUTO_INCREMENT  ,\nPRIMARY KEY (id),\n"
            ++ "unique uk_a_b(a,b)\n"
            ++ ")ENGINE=InnoDB AUTO_INCREMENT=1 DEFAULT CHARSET=utf8 COMMENT=\"c\";",
            Tables.declared)
      ∧ specBody Imports.sample idTable
        ≠ (Column2DDLMysql Imports.sample Tables.declared idColumn).1 ++ ",\n"
          ++ "unique uk_a_b(a,b)"
      ∧ specBody Imports.sample blankTable = "unique uk_a_b(a,b)" := by
  refine ⟨?_, ?_, ?_⟩
  · rw [Table_DDL_mysql Imports.sample idTable rfl]
    have h : (if idTable.withDrop then specDrop idTable else "") ++ specCreate Imports.sample idTable
        = "DROP TABLE IF EXISTS `t`;\nCREATE TABLE IF NOT EXISTS `t`(\n"
            ++ "id int(11) unsigned  not null  AUTO_INCREMENT  ,\nPRIMARY KEY (id),\n"
            ++ "unique uk_a_b(a,b)\n"
            ++ ")ENGINE=InnoDB AUTO_INCREMENT=1 DEFAULT CHARSET=utf8 COMMENT=\"c\";" := by
      decide
    rw [h]
  · decide
  · decide

/-- C12 (amended): for every table whose driver is mysql, on the declared tier
tables, `Table.DDL()` is the drop statement when the flag is set, then the
opening, the body, a newline and the trailer, the body being the non-blank
column clauses, then the non-blank primary-key clauses, then the non-blank
index clauses, joined with a comma and a newline; the DDL after `WithDrop()` is
the drop statement followed by the DDL without the flag; and in a table with
one column that is not primary and whose clause is not blank and one unique
index over the columns `a`, `b`, the body is the column clause immediately
followed by `unique uk_a_b(a,b)`. -/
theorem C12_table_ddl (I : Imports) (t : Table) (ht : t.Driver = I.Driver_mysql) :
    Table.DDL I Tables.declared t
        = Except.ok ((if t.withDrop then specDrop t else "") ++ specCreate I t, Tables.declared)
      ∧ Table.DDL I Tables.declared t.WithDrop
        = Except.ok (specDrop t ++ specCreate I t, Tables.declared)
      ∧ Table.DDL I Tables.declared { t with withDrop := false }
        = Except.ok (specCreate I t, Tables.declared)
      ∧ (∀ col ix, t.Columns = [col] → t.Indexs = [ix] → ix.Unique = true →
          ix.Columns.map (fun c => c.Name) = ["a", "b"] → col.Primary = false →
          isBlank (Column2DDLMysql I Tables.declared col).1 = false →
          specBody I t
            = (Column2DDLMysql I Tables.declared col).1 ++ ",\n" ++ "unique uk_a_b(a,b)") := by
  refine ⟨Table_DDL_mysql I t ht, ?_, ?_, ?_⟩
  · have h := Table_DDL_mysql I t.WithDrop ht
    simpa [Table.WithDrop, specDrop, specCreate, specBody] using h
  · have h := Table_DDL_mysql I { t with withDrop := false } ht
    simpa [specDrop, specCreate, specBody] using h
  · intro col ix hc hi hu hn hp hb
    have hlen : ¬ ix.Columns.length = 0 := by
      intro h0
      have := congrArg List.length hn
      simp [h0] at this
    have hix : Index.DDL ix = "unique uk_a_b(a,b)" := by
      unfold Index.DDL
      simp only [if_neg hlen, hu, if_true, hn]
      decide
    have hpt : primaryText col = "" := by simp [primaryText, hp]
    have hbi : isBlank "unique uk_a_b(a,b)" = false := by decide
    have hbe : isBlank "" = true := by decide
    simp only [specBody, hc, hi, List.map_cons, List.map_nil, nonBlankLines, hix, hpt]
    simp [List.filter_cons, hb, hbi, hbe, String.intercalate, String.intercalate.go,
      String.append_assoc]

/-- C12 (witness): the table with the drop flag, the column `name` and the
unique index over `a`, `b`. -/
theorem C12_table_ddl_witness :
    Table.DDL Imports.sample Tables.declared nameTable
        = Except.ok (specDrop nameTable ++ specCreate Imports.sample nameTable, Tables.declared)
      ∧ specBody Imports.sample nameTable
        = "name char(50)  not null   default \"\" ,\nunique uk_a_b(a,b)" :=
  ⟨(C12_table_ddl Imports.sample nameTable rfl).1,
    ((C12_table_ddl Imports.sample nameTable rfl).2.2.2 nameColumn uniqueIndex rfl rfl rfl
      (by decide) rfl (by decide)).trans (by decide)⟩

/-- For a driver other than the mysql driver `Column.DDL` and
`Column.PrimaryDDL` panic, for every column. -/
theorem Column_DDL_foreign (I : Imports) (g : Tables) (col : Column) (driver : String)
    (hd : driver ≠ I.Driver_mysql) :
    col.DDL I g driver = Except.error ("unsport driver:" ++ driver)
      ∧ col.PrimaryDDL I driver = Except.error ("unsport driver:" ++ driver) := by
  simp [Column.DDL, Column.PrimaryDDL, hd]

/-- For the mysql driver `Column.DDL` and `Column.PrimaryDDL` return a text. -/
theorem Column_DDL_mysql (I : Imports) (g : Tables) (col : Column) :
    col.DDL I g I.Driver_mysql = Except.ok (Column2DDLMysql I g col)
      ∧ col.PrimaryDDL I I.Driver_mysql = Except.ok (primaryText col) := by
  constructor
  · simp [Column.DDL]
  · simp only [Column.PrimaryDDL, if_true, primaryText]
    split_ifs <;> rfl

/-- For a driver other than the mysql driver `Table.DDL` panics on every table
that has a column: the panic is that of the first column. -/
theorem Table_DDL_foreign (I : Imports) (g : Tables) (t : Table) (col : Column)
    (cols : List Column) (hc : t.Columns = col :: cols) (hd : t.Driver ≠ I.Driver_mysql) :
    Table.DDL I g t = Except.error ("unsport driver:" ++ t.Driver) := by
  simp [Table.DDL, Columns.DDL, hc, columnClauses, Column.DDL, hd]

/-- A table without columns never reaches the driver switch: `Table.DDL`
returns a text whatever the driver. -/
theorem Table_DDL_no_columns (I : Imports) (g : Tables) (t : Table) (hc : t.Columns = []) :
    ∃ text, Table.DDL I g t = Except.ok (text, g) := by
  simp [Table.DDL, Columns.DDL, hc, columnClauses, primaryClauses]

/-- C14 (evaluation at the failing input): for the table without columns whose
driver is `sqlite`, not the mysql driver, `Table.DDL()` does not panic: it
returns the create statement with an empty body. -/
theorem C14_table_without_columns_returns_text :
    emptyTable.Driver ≠ Imports.sample.Driver_mysql
      ∧ Table.DDL Imports.sample Tables.declared emptyTable
        = Except.ok ("CREATE TABLE IF NOT EXISTS `t`(\n\n"
            ++ ")ENGINE=InnoDB AUTO_INCREMENT=1 DEFAULT CHARSET=utf8 COMMENT=\"\";",
            Tables.declared) := by
  refine ⟨by decide, ?_⟩
  simp only [Table.DDL, Columns.DDL, emptyTable, columnClauses, primaryClauses]
  have h : ("" ++ ("CREATE TABLE IF NOT EXISTS `" ++ "t" ++ "`(\n")
      ++ String.intercalate ",\n" (nonBlankLines ([] ++ []) ++ Indexs.DDL []) ++ "\n"
      ++ (")ENGINE=InnoDB AUTO_INCREMENT=1 DEFAULT CHARSET=utf8 COMMENT=\"" ++ "" ++ "\";"))
      = "CREATE TABLE IF NOT EXISTS `t`(\n\n"
            ++ ")ENGINE=InnoDB AUTO_INCREMENT=1 DEFAULT CHARSET=utf8 COMMENT=\"\";" := by
    decide
  simp only [Bool.false_eq_true, if_false, h]

/-- C15 (counterexample): each of the three lookups on the table declared with
the limits 10, 5 leaves a table different from it, with the limits 5, 10. -/
theorem C15_lookup_sorts_in_place_counterexample :
    (descendingTable.GetByUpperLimit 3).2 ≠ descendingTable
      ∧ (descendingTable.GetByUpperLimitWithDefault 3).2 ≠ descendingTable
      ∧ descendingTable.GetDefault.2 ≠ descendingTable
      ∧ ((descendingTable.GetByUpperLimit 3).2.map (fun t => t.UpperLimit)) = [5, 10]
      ∧ (descendingTable.map (fun t => t.UpperLimit)) = [10, 5] := by
  decide

/-- C15 (amended): each of the three lookups leaves the table sorted in place:
the table after the call is the result of the sort, whose limits are in
ascending order and whose length is that of the table; and a table whose limits
are already in ascending order is left exactly as it was. The table has any
length: the sort is the whole library routine, which on an ascending table
compares entries and swaps none. -/
theorem C15_lookup_sorts_in_place (T : TypeReflects) (v : Int) :
    ((T.GetByUpperLimit v).2 = sortSort T
        ∧ (T.GetByUpperLimitWithDefault v).2 = sortSort T
        ∧ T.GetDefault.2 = sortSort T)
      ∧ Ascending (sortSort T)
      ∧ (sortSort T).length = T.length
      ∧ (Ascending T →
          (T.GetByUpperLimit v).2 = T ∧ (T.GetByUpperLimitWithDefault v).2 = T
            ∧ T.GetDefault.2 = T) := by
  refine ⟨⟨GetByUpperLimit_table T v, GetByUpperLimitWithDefault_table T v, GetDefault_table T⟩,
    (sortSort_ascending T).1, (sortSort_ascending T).2, ?_⟩
  intro h
  rw [GetByUpperLimit_table, GetByUpperLimitWithDefault_table, GetDefault_table,
    sortSort_of_Ascending T h]
  exact ⟨rfl, rfl, rfl⟩

/-- The declared string table is ascending. -/
theorem Ascending_TypeReflectsString : Ascending TypeReflectsString := by
  unfold Ascending TypeReflectsString limitLe
  simp

/-- The thirteen entries declared in ascending order are an ascending table. -/
theorem Ascending_thirteenAscending : Ascending thirteenAscending := by
  unfold Ascending thirteenAscending limitLe
  simp

/-- C15 (witness): the declared string table and the target 50; and the
ascending table of thirteen entries, one more than the insertion sort of the
library takes, with the target 3. -/
theorem C15_lookup_sorts_in_place_witness :
    ((TypeReflectsString.GetByUpperLimit 50).2 = TypeReflectsString
        ∧ (TypeReflectsString.GetByUpperLimitWithDefault 50).2 = TypeReflectsString
        ∧ TypeReflectsString.GetDefault.2 = TypeReflectsString)
      ∧ ((thirteenAscending.GetByUpperLimit 3).2 = thirteenAscending
        ∧ (thirteenAscending.GetByUpperLimitWithDefault 3).2 = thirteenAscending
        ∧ thirteenAscending.GetDefault.2 = thirteenAscending) :=
  ⟨(C15_lookup_sorts_in_place TypeReflectsString 50).2.2.2 Ascending_TypeReflectsString,
    (C15_lookup_sorts_in_place thirteenAscending 3).2.2.2 Ascending_thirteenAscending⟩

/-- On the thirteen entries declared in descending order the sort takes the
quicksort path: the pivot `(7, t7)` is swapped to the front, six pairs are
swapped around it, and the two halves are sorted by insertion; with the `Swap`
of the source the limits 1 to 7 end with the type `t7` and the limits 8 to 13
with the type `t6`. -/
theorem sortSort_thirteenTable :
    (sortSort thirteenTable).map (fun e => (e.UpperLimit, e.DBType))
      = [(1, "t7"), (2, "t7"), (3, "t7"), (4, "t7"), (5, "t7"), (6, "t7"), (7, "t7"),
          (8, "t6"), (9, "t6"), (10, "t6"), (11, "t6"), (12, "t6"), (13, "t6")] := by
  decide

/-- C17 (evaluation at the failing input): sorting the table `[(10, b), (5, a)]`
gives `[(5, b), (10, b)]`: the entry `(5, a)` of the table is not in the
sorted table, which is therefore no permutation of it. -/
theorem C17_sort_loses_entries :
    sortSort descendingTable
        = [ { UpperLimit := 5, DBType := "b", IsDefault := false, Size := 0,
              NoDefaultValue := false },
            { UpperLimit := 10, DBType := "b", IsDefault := false, Size := 0,
              NoDefaultValue := false } ]
      ∧ ({ UpperLimit := 5, DBType := "a", IsDefault := false, Size := 0,
           NoDefaultValue := false } : TypeReflect) ∈ descendingTable
      ∧ ({ UpperLimit := 5, DBType := "a", IsDefault := false, Size := 0,
           NoDefaultValue := false } : TypeReflect) ∉ sortSort descendingTable
      ∧ ¬ List.Perm (sortSort descendingTable) descendingTable := by
  refine ⟨by decide, by decide, by decide, ?_⟩
  intro hp
  have hm : (⟨5, "a", false, 0, false⟩ : TypeReflect) ∈ sortSort descendingTable :=
    hp.mem_iff.mpr (by decide)
  revert hm
  decide

/-- C18: sorting an already sorted table gives the same table,
`sort(sort(T)) = sort(T)`, for a table of any length; hence, whichever of the
three lookups comes first and whichever second, the second leaves the table as
the first left it. -/
theorem C18_sort_idempotent (T : TypeReflects) (v w : Int) :
    sortSort (sortSort T) = sortSort T
      ∧ ((T.GetByUpperLimit v).2.GetByUpperLimit w).2 = (T.GetByUpperLimit v).2
      ∧ ((T.GetByUpperLimit v).2.GetByUpperLimitWithDefault w).2 = (T.GetByUpperLimit v).2
      ∧ ((T.GetByUpperLimit v).2.GetDefault).2 = (T.GetByUpperLimit v).2
      ∧ ((T.GetByUpperLimitWithDefault v).2.GetByUpperLimit w).2
          = (T.GetByUpperLimitWithDefault v).2
      ∧ ((T.GetByUpperLimitWithDefault v).2.GetByUpperLimitWithDefault w).2
          = (T.GetByUpperLimitWithDefault v).2
      ∧ ((T.GetByUpperLimitWithDefault v).2.GetDefault).2 = (T.GetByUpperLimitWithDefault v).2
      ∧ (T.GetDefault.2.GetByUpperLimit w).2 = T.GetDefault.2
      ∧ (T.GetDefault.2.GetByUpperLimitWithDefault w).2 = T.GetDefault.2
      ∧ (T.GetDefault.2.GetDefault).2 = T.GetDefault.2 := by
  simp only [GetByUpperLimit_table, GetByUpperLimitWithDefault_table, GetDefault_table,
    sortSort_idempotent, and_self]

/-- C18 (witness): the table of thirteen entries declared in descending order,
which the library sorts by quicksort: sorting it twice, and a lookup by limit
after the lookup of the default. -/
theorem C18_sort_idempotent_witness :
    sortSort (sortSort thirteenTable) = sortSort thirteenTable
      ∧ (thirteenTable.GetDefault.2.GetByUpperLimit 3).2 = thirteenTable.GetDefault.2 :=
  ⟨(C18_sort_idempotent thirteenTable 0 3).1,
    (C18_sort_idempotent thirteenTable 0 3).2.2.2.2.2.2.2.1⟩

/-- The column as the switch leaves it: `MaxLength` 255 for a string column
without a length, `Size` 11 for an int column without a size. -/
theorem resolveType_col (g : Tables) (col : Column) :
    (resolveType g col).col
      = if col.Type_ = "string" then
          (if col.MaxLength < 1 then { col with MaxLength := 255 } else col)
        else if col.Type_ = "int" then
          (if col.Size < 1 then { col with Size := 11 } else col)
        else col := by
  unfold resolveType
  split_ifs with h1 h2 h3 h4
  · unfold resolveString
    simp only [h2, if_true]
    split <;> rfl
  · unfold resolveString
    simp only [h2, if_false]
    split <;> rfl
  · unfold resolveInt
    simp only [h4, if_true]
    split_ifs <;> split <;> rfl
  · unfold resolveInt
    simp only [h4, if_false]
    split_ifs <;> split <;> rfl
  · rfl

/-- The column after `Column2DDLMysql` is the column after the enums and the
switch. -/
theorem Column2DDLMysql_col (I : Imports) (g : Tables) (col : Column) :
    (Column2DDLMysql I g col).2.1 = (resolveType g (applyEnums col)).col := by
  simp only [Column2DDLMysql, Column2DDLMysqlSegments]

/-- C16 (counterexample): rendering sets `Size` of the column `id` to 11,
`MaxLength` of the string column `title` to 255, and the type, maximum and
default of the column `status` to those of its enums. -/
theorem C16_column_written_counterexample :
    (Column2DDLMysql Imports.sample Tables.declared idColumn).2.1 = { idColumn with Size := 11 }
      ∧ (Column2DDLMysql Imports.sample Tables.declared idColumn).2.1 ≠ idColumn
      ∧ (Column2DDLMysql Imports.sample Tables.declared titleColumn).2.1
        = { titleColumn with MaxLength := 255 }
      ∧ (Column2DDLMysql Imports.sample Tables.declared titleColumn).2.1 ≠ titleColumn
      ∧ (Column2DDLMysql Imports.sample Tables.declared statusColumn).2.1
        = { statusColumn with Type_ := "int", Maximum := 2, Default := Any.int 1 }
      ∧ (Column2DDLMysql Imports.sample Tables.declared statusColumn).2.1 ≠ statusColumn := by
  simp only [Column2DDLMysql_col]
  decide

/-- C16 (amended): rendering leaves the fields `Name`, `Comment`, `Unsigned`,
`Enums`, `MinLength`, `Minimum`, `Primary`, `AutoIncrement`, `OnUpdate` and
`Tags` of every column as they were; it leaves every field as it was when the
column has no enums, is not a string column with `MaxLength` below 1 and is not
an int column with `Size` below 1; and `c.DDL(mysql)` is `Column2DDLMysql(c)`. -/
theorem C16_column_fields (I : Imports) (g : Tables) (col : Column) :
    ((Column2DDLMysql I g col).2.1.Name = col.Name
        ∧ (Column2DDLMysql I g col).2.1.Comment = col.Comment
        ∧ (Column2DDLMysql I g col).2.1.Unsigned = col.Unsigned
        ∧ (Column2DDLMysql I g col).2.1.Enums = col.Enums
        ∧ (Column2DDLMysql I g col).2.1.MinLength = col.MinLength
        ∧ (Column2DDLMysql I g col).2.1.Minimum = col.Minimum
        ∧ (Column2DDLMysql I g col).2.1.Primary = col.Primary
        ∧ (Column2DDLMysql I g col).2.1.AutoIncrement = col.AutoIncrement
        ∧ (Column2DDLMysql I g col).2.1.OnUpdate = col.OnUpdate
        ∧ (Column2DDLMysql I g col).2.1.Tags = col.Tags)
      ∧ (col.Enums = none → ¬ (col.Type_ = "string" ∧ col.MaxLength < 1) →
          ¬ (col.Type_ = "int" ∧ col.Size < 1) → (Column2DDLMysql I g col).2.1 = col)
      ∧ col.DDL I g I.Driver_mysql = Except.ok (Column2DDLMysql I g col) := by
  refine ⟨?_, ?_, ?_⟩
  · have ha : (applyEnums col).Name = col.Name ∧ (applyEnums col).Comment = col.Comment
        ∧ (applyEnums col).Unsigned = col.Unsigned ∧ (applyEnums col).Enums = col.Enums
        ∧ (applyEnums col).MinLength = col.MinLength ∧ (applyEnums col).Minimum = col.Minimum
        ∧ (applyEnums col).Primary = col.Primary
        ∧ (applyEnums col).AutoIncrement = col.AutoIncrement
        ∧ (applyEnums col).OnUpdate = col.OnUpdate ∧ (applyEnums col).Tags = col.Tags := by
      unfold applyEnums
      split <;> exact ⟨rfl, rfl, rfl, rfl, rfl, rfl, rfl, rfl, rfl, rfl⟩
    rw [Column2DDLMysql_col, resolveType_col]
    split_ifs <;> exact ha
  · intro he hs hi
    rw [Column2DDLMysql_col, resolveType_col, applyEnums_none col he]
    split_ifs with h1 h2 h3 h4
    · exact absurd ⟨h1, h2⟩ hs
    · rfl
    · exact absurd ⟨h3, h4⟩ hi
    · rfl
    · rfl
  · simp [Column.DDL]

/-- C16 (witness): the column `name` is left as it was. -/
theorem C16_column_fields_witness :
    (Column2DDLMysql Imports.sample Tables.declared nameColumn).2.1 = nameColumn :=
  (C16_column_fields Imports.sample Tables.declared nameColumn).2.1 rfl (by decide) (by decide)

/-- The branch `case "string"` on the declared tables resolves the type that
the claim describes. -/
theorem resolveString_typ (col : Column) (d : Any) :
    (resolveString Tables.declared col d).typ = stringTypeSpec (effectiveLength col) := by
  have hl : Tables.declared.TypeReflectsString = TypeReflectsString := rfl
  unfold resolveString effectiveLength stringTypeSpec
  by_cases h : col.MaxLength < 1
  · have h' : ¬ col.MaxLength ≥ 1 := by omega
    simp only [h, h', if_true, if_false, hl]
    rw [lookup_string 255 (by decide)]
    simp only []
    decide
  · have h' : col.MaxLength ≥ 1 := by omega
    have hv : 0 < col.MaxLength := by omega
    simp only [h, h', if_true, if_false, hl]
    rw [lookup_string col.MaxLength hv]
    simp only []
    split_ifs <;> simp_all [String.append_assoc]

/-- C19: for every column of type `string` without enums and without the
created-at and updated-at tags, with `n` its `MaxLength` when that is at least 1
and 255 otherwise, the type segment is `char(n)` for `n ≤ 64`, `varchar(n)` for
`n ≤ 255`, `TEXT` for `n ≤ 65535`, `MEDIUMTEXT` for `n ≤ 16777215`, `LONGTEXT`
for `n ≤ 4294967295` and `varchar(n)` beyond; an unset `MaxLength` renders
`varchar(255)`. -/
theorem C19_string_type_segment (I : Imports) (col : Column)
    (ht : col.Type_ = "string") (he : col.Enums = none)
    (hc : HastTag col.Tags I.Tag_createdAt = false)
    (hu : HastTag col.Tags I.Tag_updatedAt = false) :
    (Column2DDLMysqlSegments I Tables.declared col).1.typ = stringTypeSpec (effectiveLength col)
      ∧ (col.MaxLength ≤ 0 →
          (Column2DDLMysqlSegments I Tables.declared col).1.typ = "varchar(255)") := by
  have h : (Column2DDLMysqlSegments I Tables.declared col).1.typ
      = stringTypeSpec (effectiveLength col) := by
    rw [segments_typ, applyEnums_none col he]
    simp only [hc, hu, Bool.false_eq_true, if_false]
    unfold resolveType
    rw [if_pos ht, resolveString_typ]
  refine ⟨h, ?_⟩
  intro h0
  rw [h]
  have hn : ¬ col.MaxLength ≥ 1 := by omega
  simp only [effectiveLength, hn, if_false]
  decide

/-- C19 (witness): the column `body` of `MaxLength` 300 renders `TEXT`. -/
theorem C19_string_type_segment_witness :
    (Column2DDLMysqlSegments Imports.sample Tables.declared bodyColumn).1.typ = "TEXT" :=
  (C19_string_type_segment Imports.sample bodyColumn rfl rfl (by decide) (by decide)).1.trans
    (by decide)

/-- On a table that the sort leaves as it is and whose `GetDefault` is one of
its entries, every lookup leaves the table as it is and returns one of its
entries. -/
theorem lookups_on_fixed_table (T : TypeReflects) (d : TypeReflect) (hs : sortSort T = T)
    (hd : T.GetDefault.1 = some d) (hm : d ∈ T) (v : Int) :
    ((T.GetByUpperLimit v).2 = T ∧ (T.GetByUpperLimitWithDefault v).2 = T ∧ T.GetDefault.2 = T)
      ∧ (∀ tr, (T.GetByUpperLimit v).1.1 = some tr → tr ∈ T)
      ∧ ((T.GetByUpperLimit v).1.1 = none ↔ (T.GetByUpperLimit v).1.2 = false)
      ∧ (∃ tr ∈ T, (T.GetByUpperLimitWithDefault v).1 = some tr)
      ∧ (∃ tr ∈ T, T.GetDefault.1 = some tr) := by
  refine ⟨?_, ?_, ?_, ?_, ⟨d, hm, hd⟩⟩
  · rw [GetByUpperLimit_table, GetByUpperLimitWithDefault_table, GetDefault_table, hs]
    exact ⟨rfl, rfl, rfl⟩
  · intro tr htr
    unfold TypeReflects.GetByUpperLimit at htr
    simp only [hs] at htr
    split at htr
    · rename_i t hf
      have : t = tr := by simpa using htr
      subst this
      exact List.mem_of_find?_eq_some hf
    · simp at htr
  · unfold TypeReflects.GetByUpperLimit
    simp only []
    split <;> simp
  · unfold TypeReflects.GetByUpperLimitWithDefault
    split_ifs
    · simp only [hs]
      split
      · rename_i t hf
        exact ⟨t, List.mem_of_find?_eq_some hf, rfl⟩
      · exact ⟨d, hm, hd⟩
    · exact ⟨d, hm, hd⟩

/-- On a table that the sort leaves as it is, `GetByUpperLimit` returns the
entry found, with `true`, whenever some entry reaches the target. -/
theorem GetByUpperLimit_found (T : TypeReflects) (hs : sortSort T = T) (v : Int)
    (m : TypeReflect) (hm : m ∈ T) (hv : v ≤ m.UpperLimit) :
    ∃ tr ∈ T, (T.GetByUpperLimit v).1 = (some tr, true) := by
  unfold TypeReflects.GetByUpperLimit
  simp only [hs]
  split
  · rename_i t hf
    exact ⟨t, List.mem_of_find?_eq_some hf, rfl⟩
  · rename_i hf
    have hnone := List.find?_eq_none.mp hf m hm
    simp at hnone
    omega

/-- C20 (counterexample): `GetByUpperLimit` on the declared string table with
the target 4294967296, above every limit of the table, returns no entry. -/
theorem C20_getByUpperLimit_counterexample :
    (TypeReflectsString.GetByUpperLimit 4294967296).1 = (none, false)
      ∧ ¬ ∃ tr ∈ TypeReflectsString,
          (TypeReflectsString.GetByUpperLimit 4294967296).1.1 = some tr := by
  decide

/-- C20 (amended): each of the three declared tier tables is strictly ascending
by `UpperLimit` and has exactly one entry flagged `IsDefault` (`varchar`, `int`,
`int`); every lookup on one of them, for any target, leaves the table as it is;
`GetByUpperLimitWithDefault` and `GetDefault` return one of its entries;
`GetByUpperLimit` returns one of its entries, with `true`, when the target is at
most the largest limit of the table (for the two integer tables, every target of
their type) and nothing, with `false`, otherwise. -/
theorem C20_declared_tables (v : Int) :
    (List.Pairwise (fun a b => a.UpperLimit < b.UpperLimit) TypeReflectsString
        ∧ List.Pairwise (fun a b => a.UpperLimit < b.UpperLimit) TypeReflectsUnsinedInt
        ∧ List.Pairwise (fun a b => a.UpperLimit < b.UpperLimit) TypeReflectsInt)
      ∧ (TypeReflectsString.filter (fun t => t.IsDefault) = [⟨255, "varchar", true, 0, false⟩]
        ∧ TypeReflectsUnsinedInt.filter (fun t => t.IsDefault)
          = [⟨4294967295, "int", true, 11, false⟩]
        ∧ TypeReflectsInt.filter (fun t => t.IsDefault) = [⟨2147483647, "int", true, 11, false⟩])
      ∧ (∀ T, T = TypeReflectsString ∨ T = TypeReflectsUnsinedInt ∨ T = TypeReflectsInt →
          ((T.GetByUpperLimit v).2 = T ∧ (T.GetByUpperLimitWithDefault v).2 = T
            ∧ T.GetDefault.2 = T)
          ∧ (∀ tr, (T.GetByUpperLimit v).1.1 = some tr → tr ∈ T)
          ∧ ((T.GetByUpperLimit v).1.1 = none ↔ (T.GetByUpperLimit v).1.2 = false)
          ∧ (∃ tr ∈ T, (T.GetByUpperLimitWithDefault v).1 = some tr)
          ∧ (∃ tr ∈ T, T.GetDefault.1 = some tr))
      ∧ ((v ≤ 4294967295 →
          ∃ tr ∈ TypeReflectsString, (TypeReflectsString.GetByUpperLimit v).1 = (some tr, true))
        ∧ (4294967295 < v → (TypeReflectsString.GetByUpperLimit v).1 = (none, false))
        ∧ (v ≤ 2 ^ 64 - 1 →
          ∃ tr ∈ TypeReflectsUnsinedInt,
            (TypeReflectsUnsinedInt.GetByUpperLimit v).1 = (some tr, true))
        ∧ (v ≤ 2 ^ 63 - 1 →
          ∃ tr ∈ TypeReflectsInt, (TypeReflectsInt.GetByUpperLimit v).1 = (some tr, true))) := by
  refine ⟨by decide, by decide, ?_, ?_, ?_, ?_, ?_⟩
  · intro T hT
    rcases hT with h | h | h <;> subst h
    · exact lookups_on_fixed_table _ ⟨255, "varchar", true, 0, false⟩ sortSort_declared.1
        (by decide) (by decide) v
    · exact lookups_on_fixed_table _ ⟨4294967295, "int", true, 11, false⟩ sortSort_declared.2.1
        (by decide) (by decide) v
    · exact lookups_on_fixed_table _ ⟨2147483647, "int", true, 11, false⟩ sortSort_declared.2.2
        (by decide) (by decide) v
  · intro hv
    exact GetByUpperLimit_found _ sortSort_declared.1 v ⟨4294967295, "LONGTEXT", false, -1, true⟩
      (by decide) hv
  · intro hv
    unfold TypeReflects.GetByUpperLimit
    simp only [sortSort_declared.1]
    have hf : TypeReflectsString.find? (fun t => decide (t.UpperLimit ≥ v)) = none := by
      apply List.find?_eq_none.mpr
      intro x hx
      simp only [TypeReflectsString, List.mem_cons, List.mem_singleton, List.not_mem_nil,
        or_false] at hx
      rcases hx with h | h | h | h | h <;> subst h <;> simp <;> omega
    rw [hf]
  · intro hv
    exact GetByUpperLimit_found _ sortSort_declared.2.1 v ⟨2 ^ 64 - 1, "bigint", false, 11, false⟩
      (by decide) hv
  · intro hv
    exact GetByUpperLimit_found _ sortSort_declared.2.2 v ⟨2 ^ 63 - 1, "bigint", false, 11, false⟩
      (by decide) hv

/-- C20 (witness): the declared string table and the target 50. -/
theorem C20_declared_tables_witness :
    (TypeReflectsString.GetByUpperLimit 50).2 = TypeReflectsString
      ∧ (TypeReflectsString.GetByUpperLimitWithDefault 50).1
        = some ⟨64, "char", false, 0, false⟩ :=
  ⟨((C20_declared_tables 50).2.2.1 TypeReflectsString (Or.inl rfl)).1.1, by decide⟩

end Ddlbuilder
